import Mathlib

/-!
A verification development of go-cache.

Shallow embedding of `src/ttlCache2/ttlCache.go` (the refresh-ahead cache).

Conventions of the embedding.

* A Go `interface{}` payload is `Option V` (`none` is the nil interface), a Go
  `error` is `Option E` (`none` is the nil error).
* `int64` and `uint64` values are `Int` and `Nat`; the wrap-around of the
  machine operations is written out (`int64`, `uint64` below).
* `*entry` pointers are addresses into an explicit heap (`Cache.heap`); an
  address that holds no entry is the nil pointer and dereferencing it is the
  runtime fault of Go, rendered as the result `none` of the operation.
* The methods are taken as atomic steps; the steps of a call of `Get`, between
  which other calls and the refresh goroutines can run, are given apart
  (`System`).  `time.Now().Unix()` is an argument
  `now` of each step: `Get` uses the reading of line 110 on a hit and, on a
  miss, it is `Add` that reads the clock (line 97), the reading of line 110
  being discarded there; so one reading is used by every call.
* The loader is a Go function value and may have effects of its own: it is
  embedded by state passing over a loader state `L` (`Cache.world`).
* A goroutine spawned by `Get` is recorded in `Cache.goroutines` until the step
  that runs its body (`Cache.runGoroutine`).
-/

namespace ttlCache2

/-- The wrap-around of a signed 64-bit result. -/
def int64 (x : Int) : Int := (x + 2 ^ 63) % 2 ^ 64 - 2 ^ 63

/-- The conversion `uint64(x)` of a signed 64-bit value. -/
def uint64 (x : Int) : Nat := (x % 2 ^ 64).toNat

/-- The constant `ready int32 = iota`. -/
def ready : Int := 0

/-- The constant `updating`, the second of the `iota` block. -/
def updating : Int := 1

/-- The `entry` struct. -/
structure entry (V : Type) where
  Key : String
  Born : Int
  State : Int
  Value : Option V
  deriving DecidableEq, Repr

/-- The loader type `UpdateKeyFunc func(key string) (value interface{}, err error)`,
state passing over the loader state `L`. -/
abbrev UpdateKeyFunc (L V E : Type) := String → L → (Option V × Option E) × L

/-- The `Cache` struct (`LifeTime`, `flushFile`, `flushInterval`, `updateKeyFunc`,
`cache`) together with what its methods act on besides the struct: the heap the
`*entry` pointers of `cache` point into, the loader state, the goroutines that
`Get` has spawned and that have not run yet (each with the `key` and `ele` it
captured), the trace of the keys the loader has been invoked with, and the
period of the flush ticker when `NewCache` started one. A nil `cache` map is the
empty map: every method reads the two alike. -/
structure Cache (L V E : Type) where
  LifeTime : Nat
  flushFile : String
  flushInterval : Nat
  updateKeyFunc : UpdateKeyFunc L V E
  cache : AList (fun _ : String => Nat)
  heap : List (entry V)
  world : L
  goroutines : List (String × Nat)
  calls : List String
  ticker : Option Int

variable {L V E : Type}

/-- The entry a key is mapped to: `*c.cache[key]`. -/
def Cache.entryOf (c : Cache L V E) (key : String) : Option (entry V) :=
  (c.cache.lookup key).bind (fun p => c.heap[p]?)

/-- The method `Add` (lines 81-100): an existing entry is written in place
(`Value`, `Born`, `State`), a missing one is allocated and put into the map. -/
def Cache.Add (c : Cache L V E) (now : Int) (key : String) (value : Option V) :
    Option (Cache L V E) :=
  match c.cache.lookup key with
  | some ee =>
    match c.heap[ee]? with
    | some e =>
      some { c with heap := c.heap.set ee { e with Value := value, Born := now, State := ready } }
    | none => none
  | none =>
    some { c with
      cache := c.cache.insert key c.heap.length
      heap := c.heap ++ [{ Key := key, Value := value, Born := now, State := ready }] }

/-- The staleness test of line 118, `uint64(now-ele.Born) > c.LifeTime`. -/
def stale (lifeTime : Nat) (now born : Int) : Prop :=
  uint64 (int64 (now - born)) > lifeTime

instance (lifeTime : Nat) (now born : Int) : Decidable (stale lifeTime now born) := by
  unfold stale; infer_instance

/-- The method `Get` (lines 105-139). The named results `value` and `err` start
as nil; the `value, err :=` of line 131 declares new variables in the scope of
the `else` block, so the `err` of line 138 is the named result. On a hit the
compare-and-swap of line 118 is tried only when the entry is stale. -/
def Cache.Get (c : Cache L V E) (now : Int) (key : String) :
    Option ((Option V × Option E) × Cache L V E) :=
  let err : Option E := none
  match c.cache.lookup key with
  | some p =>
    match c.heap[p]? with
    | some ele =>
      if stale c.LifeTime now ele.Born ∧ ele.State = ready then
        some ((ele.Value, none),
          { c with
            heap := c.heap.set p { ele with State := updating }
            goroutines := c.goroutines ++ [(key, p)] })
      else
        some ((ele.Value, none), c)
    | none => none
  | none =>
    let r := c.updateKeyFunc key c.world
    let c1 := { c with world := r.2, calls := c.calls ++ [key] }
    match r.1.2 with
    | none => (c1.Add now key r.1.1).map (fun c2 => ((r.1.1, none), c2))
    | some _ => some ((none, err), c1)

/-- The body of the goroutine of lines 119-126 for the captured `key` and `ele`:
the loader is called; on success `Add`, on failure the state of `ele` is swapped
back to `ready`. -/
def Cache.refresh (c : Cache L V E) (now : Int) (key : String) (ele : Nat) :
    Option (Cache L V E) :=
  let r := c.updateKeyFunc key c.world
  let c1 := { c with world := r.2, calls := c.calls ++ [key] }
  match r.1.2 with
  | none => c1.Add now key r.1.1
  | some _ =>
    match c1.heap[ele]? with
    | some e => some { c1 with heap := c1.heap.set ele { e with State := ready } }
    | none => none

/-- The step that runs the `i`-th pending goroutine to completion. -/
def Cache.runGoroutine (c : Cache L V E) (i : Nat) (now : Int) : Option (Cache L V E) :=
  match c.goroutines[i]? with
  | some g => ({ c with goroutines := c.goroutines.eraseIdx i }).refresh now g.1 g.2
  | none => none

/-- The method `Remove` (lines 142-151). -/
def Cache.Remove (c : Cache L V E) (key : String) : Cache L V E :=
  { c with cache := c.cache.erase key }

/-- The method `Len` (lines 154-161). -/
def Cache.Len (c : Cache L V E) : Nat := c.cache.entries.length

/-- The method `load` (lines 164-171). `ioutil.ReadFile` and `json.Unmarshal` are
library code and are taken as parameters: `ReadFile` gives the content of a file
or the error of reading it, `Unmarshal` gives for a content the pairs that
`json.Unmarshal(buf, &c.cache)` stores into the map, in the order it stores them
(each value a freshly allocated entry), and the error it returns. -/
def Cache.load (c : Cache L V E) (ReadFile : String → Except E String)
    (Unmarshal : String → List (String × entry V) × Option E) : Cache L V E × Option E :=
  match ReadFile c.flushFile with
  | .error err => (c, some err)
  | .ok buf =>
    let r := Unmarshal buf
    (r.1.foldl
      (fun c kv => { c with cache := c.cache.insert kv.1 c.heap.length, heap := c.heap ++ [kv.2] })
      c, r.2)

/-- The constructor `NewCache` (lines 55-78). The result of `load` is dropped
(line 65). The ticker period is `time.Duration(flushInterval * 1000 * 1000 * 1000)`:
a product of `uint64` converted to a signed 64-bit count of nanoseconds;
`time.NewTicker` faults on a period that is not positive, which is the result
`none`. -/
def NewCache (lifeTime flushInterval : Nat) (flushFile : String)
    (updateKeyFunc : UpdateKeyFunc L V E) (world : L)
    (ReadFile : String → Except E String)
    (Unmarshal : String → List (String × entry V) × Option E) : Option (Cache L V E) :=
  let c : Cache L V E :=
    { LifeTime := lifeTime, flushInterval := flushInterval, flushFile := flushFile,
      updateKeyFunc := updateKeyFunc, cache := ∅, heap := [], world := world,
      goroutines := [], calls := [], ticker := none }
  let c := if flushFile ≠ "" then (c.load ReadFile Unmarshal).1 else c
  if flushFile ≠ "" ∧ flushInterval > 0 then
    let d := int64 ((flushInterval * 1000 * 1000 * 1000 % 2 ^ 64 : Nat) : Int)
    if d ≤ 0 then none else some { c with ticker := some d }
  else some c

/-- The steps of the cache as a state machine: the three mutating methods at a
clock reading, and the completion of the `i`-th pending refresh. -/
inductive Action (V : Type) where
  | Add (now : Int) (key : String) (value : Option V)
  | Remove (key : String)
  | Get (now : Int) (key : String)
  | Complete (i : Nat) (now : Int)

/-- One step of the state machine. -/
def Cache.step (c : Cache L V E) : Action V → Option (Cache L V E)
  | .Add now key value => c.Add now key value
  | .Remove key => some (c.Remove key)
  | .Get now key => (c.Get now key).map (fun r => r.2)
  | .Complete i now => c.runGoroutine i now

/-- A run of the state machine. -/
def Cache.exec (c : Cache L V E) : List (Action V) → Option (Cache L V E)
  | [] => some c
  | a :: as => (c.step a).bind (fun c1 => c1.exec as)

/-- The number of refreshes of `key` in flight: the goroutines spawned by a
stale hit on `key` whose body has not run. -/
def Cache.inflight (c : Cache L V E) (key : String) : Nat :=
  (c.goroutines.filter (fun g => g.1 = key)).length

/-- `Get` called once for each clock reading of a list, on one key; the results
in order and the final state. -/
def Cache.GetN (c : Cache L V E) (key : String) :
    List Int → Option (List (Option V × Option E) × Cache L V E)
  | [] => some ([], c)
  | now :: nows =>
    (c.Get now key).bind (fun r => (r.2.GetN key nows).map (fun rs => (r.1 :: rs.1, rs.2)))

/-- A cache of `NewCache(360, 0, "", f)` whose loader `f` fails with the error
`"test"` on every key. -/
def failingCache : Cache Unit Nat String :=
  { LifeTime := 360, flushFile := "", flushInterval := 0,
    updateKeyFunc := fun _ w => ((none, some "test"), w),
    cache := ∅, heap := [], world := (), goroutines := [], calls := [], ticker := none }

/-- The invariant of the store: every value of the map points at an allocated
entry, and the `Key` of that entry is the key it is stored under (the `Key: key`
of line 95). -/
def Cache.WF (c : Cache L V E) : Prop :=
  ∀ x ∈ c.cache.entries, (c.heap[x.2]?).map (fun e => e.Key) = some x.1

instance (c : Cache L V E) : Decidable c.WF := by
  unfold Cache.WF; infer_instance

/-- Every pending refresh goroutine holds the cell its key is mapped to, and that
cell is in the state `updating`. -/
def Cache.Pending (c : Cache L V E) : Prop :=
  ∀ g ∈ c.goroutines, c.cache.lookup g.1 = some g.2 ∧
    ∃ e, c.heap[g.2]? = some e ∧ e.State = updating

/-- The invariant of the guarded runs: the store invariant, `Pending`, and no two
pending refresh goroutines of one key. -/
def Cache.Inv (c : Cache L V E) : Prop :=
  c.WF ∧ c.Pending ∧ c.goroutines.Pairwise (fun a b => a.1 ≠ b.1)

/-- `ioutil.ReadFile` where no file can be read. -/
def noFile : String → Except String String := fun _ => .error "no such file"

/-- `json.Unmarshal` of a content that holds no entry. -/
def noEntries : String → List (String × entry Nat) × Option String := fun _ => ([], none)

/-- A run in which `Add` is called while a refresh of its key is in flight. -/
def disturbedRun : List (Action Nat) :=
  [.Add 0 "k" (some 1), .Get 2 "k", .Add 2 "k" (some 1), .Get 4 "k"]

/-- A value is in the range of a signed 64-bit integer. -/
def isInt64 (x : Int) : Prop := -2 ^ 63 ≤ x ∧ x < 2 ^ 63

instance (x : Int) : Decidable (isInt64 x) := by
  unfold isInt64; infer_instance

/-- The cache of `TestGet3` after its `Add`: `NewCache(1, 0, "", f)` with a loader
`f` that returns `(2, nil)`, holding `"k"` with the value `1` added at clock `0`. -/
def oneSecondCache : Cache Unit Nat String :=
  { LifeTime := 1, flushFile := "", flushInterval := 0,
    updateKeyFunc := fun _ w => ((some 2, none), w),
    cache := AList.insert "k" 0 ∅,
    heap := [{ Key := "k", Born := 0, State := ready, Value := some 1 }],
    world := (), goroutines := [], calls := [], ticker := none }

/-- The cache of `TestGet4`: `NewCache(1, 0, "", f)` with a loader `f` that returns
`(1, nil)`, empty. -/
def loadingCache : Cache Unit Nat String :=
  { LifeTime := 1, flushFile := "", flushInterval := 0,
    updateKeyFunc := fun _ w => ((some 1, none), w),
    cache := ∅, heap := [], world := (), goroutines := [], calls := [], ticker := none }

/-- The cache of `TestGet3` before its `Add`: `NewCache(1, 0, "", f)` with a loader
`f` that returns `(2, nil)`. -/
def refreshingCache : Cache Unit Nat String :=
  { LifeTime := 1, flushFile := "", flushInterval := 0,
    updateKeyFunc := fun _ w => ((some 2, none), w),
    cache := ∅, heap := [], world := (), goroutines := [], calls := [], ticker := none }

/-- A cache of `NewCache(1, 0, "", f)` whose loader `f` fails with the error
`"test"`, holding `"k"` with the value `1` added at clock `0`. -/
def failingRefreshCache : Cache Unit Nat String :=
  { LifeTime := 1, flushFile := "", flushInterval := 0,
    updateKeyFunc := fun _ w => ((none, some "test"), w),
    cache := AList.insert "k" 0 ∅,
    heap := [{ Key := "k", Born := 0, State := ready, Value := some 1 }],
    world := (), goroutines := [], calls := [], ticker := none }

/-- A cache of `NewCache(360, 0, "", f)` holding `"k"` with the value `5` added
at clock `1`. -/
def bornLaterCache : Cache Unit Nat String :=
  { LifeTime := 360, flushFile := "", flushInterval := 0,
    updateKeyFunc := fun _ w => ((some 2, none), w),
    cache := AList.insert "k" 0 ∅,
    heap := [{ Key := "k", Born := 1, State := ready, Value := some 5 }],
    world := (), goroutines := [], calls := [], ticker := none }

/-- A cache of `NewCache(1, 0, "", f)` with a loader `f` that returns `(2, nil)`:
`"k"` holds the value `1` born at clock `0`, is `updating`, and its refresh
goroutine is pending. -/
def refreshPendingCache : Cache Unit Nat String :=
  { LifeTime := 1, flushFile := "", flushInterval := 0,
    updateKeyFunc := fun _ w => ((some 2, none), w),
    cache := AList.insert "k" 0 ∅,
    heap := [{ Key := "k", Born := 0, State := updating, Value := some 1 }],
    world := (), goroutines := [("k", 0)], calls := [], ticker := none }

/-- The struct literal of lines 56-62, before `load` and the ticker. -/
def initial (lifeTime flushInterval : Nat) (flushFile : String)
    (updateKeyFunc : UpdateKeyFunc L V E) (world : L) : Cache L V E :=
  { LifeTime := lifeTime, flushInterval := flushInterval, flushFile := flushFile,
    updateKeyFunc := updateKeyFunc, cache := ∅, heap := [], world := world,
    goroutines := [], calls := [], ticker := none }

/-- What `json.Marshal(c.cache)` is given: for every key of the map the entry its
pointer holds, `none` for a pointer that holds none. -/
def Cache.snapshot (c : Cache L V E) : List (String × Option (entry V)) :=
  c.cache.entries.map (fun x => (x.1, c.heap[x.2]?))

/-- The method `flush` (lines 174-182). `json.Marshal` and `ioutil.WriteFile` are
library code and are taken as parameters: `WriteFile` gives, for the files as
they read before the call, a name and a content, the files as they read after it
and the error of the call. The line `fmt.Println` prints is left out. -/
def Cache.flush (c : Cache L V E)
    (Marshal : List (String × Option (entry V)) → Except E String)
    (WriteFile : (String → Except E String) → String → String →
      (String → Except E String) × Option E)
    (fs : String → Except E String) : (String → Except E String) × Option E :=
  match Marshal c.snapshot with
  | .error err => (fs, some err)
  | .ok buf => WriteFile fs c.flushFile buf

/-- Every pointer of the map holds an entry. -/
def Cache.Allocated (c : Cache L V E) : Prop :=
  ∀ x ∈ c.cache.entries, (c.heap[x.2]?).isSome = true

instance (c : Cache L V E) : Decidable c.Allocated := by
  unfold Cache.Allocated; infer_instance

/-- The keys of the map with the entries they are mapped to. -/
def Cache.contents (c : Cache L V E) : List (String × entry V) :=
  c.cache.entries.filterMap (fun x => (c.heap[x.2]?).map (fun e => (x.1, e)))

/-- The map after the pairs of a list are stored one after the other, each under
the next address from `n` on. -/
def storeAll (m : AList (fun _ : String => Nat)) (n : Nat) :
    List (String × entry V) → AList (fun _ : String => Nat)
  | [] => m
  | x :: l => storeAll (m.insert x.1 n) (n + 1) l

/-- An `ioutil.WriteFile` that succeeds: the file reads as the content afterwards. -/
def writeOk (fs : String → Except String String) (name buf : String) :
    (String → Except String String) × Option String :=
  (fun n => if n = name then .ok buf else fs n, none)

/-- The first cache of `TestFlush` after its two calls of `Add` at clock `0`:
`NewCache(360, 1, "cache.data", f)` holding `"1"` and `"2"`. -/
def flushedCache : Cache Unit Nat String :=
  { LifeTime := 360, flushFile := "cache.data", flushInterval := 1,
    updateKeyFunc := fun _ w => ((none, some "test"), w),
    cache := AList.insert "2" 1 (AList.insert "1" 0 ∅),
    heap := [{ Key := "1", Born := 0, State := ready, Value := some 2 },
             { Key := "2", Born := 0, State := ready, Value := some 23 }],
    world := (), goroutines := [], calls := [], ticker := some 1000000000 }

/-!
A codec for stores of numbers, to run `flush` and `load` on: the content is a text
with one line `key,Key,Born,State,Value` for every key, the keys in increasing
order (`json.Marshal` too writes the keys of a map sorted, not in an order of the
map).
-/

/-- The order of the keys in the content: that of their characters. -/
def before : List Char → List Char → Bool
  | [], _ => true
  | _ :: _, [] => false
  | a :: as, b :: bs => decide (a.toNat < b.toNat) || (decide (a = b) && before as bs)

/-- The fields of a text between the occurrences of a separator. -/
def fields (sep : Char) : List Char → List (List Char)
  | [] => [[]]
  | ch :: cs =>
    if ch = sep then [] :: fields sep cs
    else
      match fields sep cs with
      | [] => [[ch]]
      | w :: ws => (ch :: w) :: ws

/-- A natural number read from its decimal digits. -/
def readNat (cs : List Char) : Option Nat :=
  if cs = [] then none
  else cs.foldl
    (fun acc ch => acc.bind (fun n => if ch.isDigit then some (10 * n + (ch.toNat - 48)) else none))
    (some 0)

/-- An integer read from its decimal digits and sign. -/
def readInt : List Char → Option Int
  | '-' :: cs => (readNat cs).map (fun n => -(n : Int))
  | cs => (readNat cs).map (fun n => (n : Int))

/-- An integer written with its decimal digits and sign. -/
def showInt (x : Int) : List Char :=
  if x < 0 then '-' :: (Nat.repr x.natAbs).data else (Nat.repr x.natAbs).data

/-- A value written: `null` for the nil interface. -/
def showValue : Option Nat → List Char
  | none => "null".data
  | some v => (Nat.repr v).data

/-- A value read. -/
def readValue (cs : List Char) : Option (Option Nat) :=
  if cs = "null".data then some none else (readNat cs).map some

/-- The line of a key: the fields of its entry, `null` for a pointer that holds none. -/
def showLine (x : String × Option (entry Nat)) : List Char :=
  match x.2 with
  | none => x.1.data ++ ",null\n".data
  | some e =>
    x.1.data ++ [','] ++ e.Key.data ++ [','] ++ showInt e.Born ++ [','] ++ showInt e.State ++
      [','] ++ showValue e.Value ++ ['\n']

/-- A line read: a key and the entry to allocate for it. -/
def readLine (cs : List Char) : Option (String × entry Nat) :=
  match fields ',' cs with
  | [k, key, born, state, value] =>
    (readInt born).bind (fun b =>
      (readInt state).bind (fun s =>
        (readValue value).map (fun v =>
          (String.mk k, { Key := String.mk key, Born := b, State := s, Value := v }))))
  | _ => none

/-- The content written for a store. -/
def textEncode (m : List (String × Option (entry Nat))) : String :=
  String.mk ((m.insertionSort (fun a b => before a.1.data b.1.data = true)).flatMap showLine)

/-- The codec as a `json.Marshal`: it never fails. -/
def textMarshal (m : List (String × Option (entry Nat))) : Except String String :=
  .ok (textEncode m)

/-- The codec as a `json.Unmarshal`: the pairs of the lines in the order of the
content; a content with a line that is not one of an entry stores nothing and
gives an error. -/
def textUnmarshal (buf : String) : List (String × entry Nat) × Option String :=
  match ((fields '\n' buf.data).filter (fun l => l ≠ [])).mapM readLine with
  | some l => (l, none)
  | none => ([], some "syntax error")

/-- A snapshot whose second value is a number where an entry is expected. -/
def brokenSnapshot : String :=
  "\x7b\"a\":\x7b\"Key\":\"a\",\"Born\":0,\"State\":0,\"Value\":1\x7d,\"b\":5\x7d"

/-- `ioutil.ReadFile` where every file reads as the one content. -/
def oneFile (buf : String) : String → Except String String := fun _ => .ok buf

/-- A snapshot whose entry under `"a"` carries the `Key` `"zzz"`. -/
def renamedSnapshot : String :=
  "\x7b\"a\":\x7b\"Key\":\"zzz\",\"Born\":0,\"State\":0,\"Value\":1\x7d\x7d"

/-- What `json.Unmarshal` does with the content
`\x7b"a":\x7b"Key":"zzz","Born":0,"State":0,"Value":1\x7d\x7d`: the entry is stored under
`"a"`, with the fields the content gives it. -/
def renamedDecode : String → List (String × entry Nat) × Option String := fun _ =>
  ([("a", { Key := "zzz", Born := 0, State := 0, Value := some 1 })], none)

/-- What `json.Unmarshal` does with the content
`\x7b"a":\x7b"Key":"a","Born":0,"State":0,"Value":1\x7d,"b":5\x7d`: the entry of `"a"` is
stored, the number under `"b"` cannot be stored into an `entry`, so a zero entry
is stored under `"b"`, the decoding goes on to the end and the type error is
returned. -/
def partialDecode : String → List (String × entry Nat) × Option String := fun _ =>
  ([("a", { Key := "a", Born := 0, State := 0, Value := some 1 }),
    ("b", { Key := "", Born := 0, State := 0, Value := none })],
   some "json: cannot unmarshal number into Go value of type ttlCache2.entry")

/-!
### The calls of `Get` step by step

`Get` holds the read lock for the lookup only (lines 111-113). What follows runs
with no lock: the staleness test of line 118, its compare-and-swap with the `go`
statement of line 119, the read of `ele.Value` at line 129, and on a miss the
loader call of line 131 with the `Add` of line 133. Calls of the other methods,
other calls of `Get` and the refresh goroutines can run between these. The
definitions below give `Get` these steps; `Add`, `Remove` and the `Add` inside a
goroutine hold the write lock from their lookup to their last write and stay
single steps (an `Add` is taken when it writes `State`, which the compare-and-swap
of a `Get` can precede without the lock). The compare-and-swap is one step with
the `go` statement: a refresh is in flight from the compare-and-swap that
launches it.
-/

/-- A call of `Get` that has done its lookup and has not returned: where it
stands, with the `key` it was called with and, after a hit, the `ele` of line 111
and, before the test, the clock reading `now` of line 110. -/
inductive Call where
  | atTest (key : String) (ele : Nat) (now : Int)
  | atSwap (key : String) (ele : Nat)
  | atReturn (key : String) (ele : Nat)
  | atLoader (key : String)
  deriving DecidableEq, Repr

/-- The key a call of `Get` was called with. -/
def Call.key : Call → String
  | .atTest key _ _ => key
  | .atSwap key _ => key
  | .atReturn key _ => key
  | .atLoader key => key

/-- A call that stands between its lookup and its compare-and-swap. -/
def Call.beforeSwap : Call → Bool
  | .atTest _ _ _ => true
  | .atSwap _ _ => true
  | _ => false

/-- The cache together with the calls of `Get` that are under way. -/
structure System (L V E : Type) where
  c : Cache L V E
  gets : List Call

/-- A cache on which no call is under way. -/
def System.start (c : Cache L V E) : System L V E := { c := c, gets := [] }

/-- The first step of a call of `Get` (lines 106-113): the clock is read and the
key is looked up under the read lock. -/
def System.lookup (s : System L V E) (now : Int) (key : String) : System L V E :=
  match s.c.cache.lookup key with
  | some ele => { s with gets := s.gets ++ [.atTest key ele now] }
  | none => { s with gets := s.gets ++ [.atLoader key] }

/-- The next step of the `i`-th call of `Get` under way, with the result of the
call when the step is its return.

* Before the test: the left operand of line 118, `uint64(now-ele.Born) > c.LifeTime`,
  on the `ele` of the lookup with the clock reading of line 110; an entry that is
  not stale skips the compare-and-swap.
* Before the compare-and-swap: the right operand of line 118; when it succeeds the
  goroutine of line 119 is spawned.
* Before the return: `ele.Value` is read and returned with a nil error (line 129).
* Before the loader: the loader is called (line 131); on success `Add` stores the
  value (line 133, `now` is the clock `Add` reads) and it is returned (line 136);
  on failure the named results, nil and nil, are returned (line 138). -/
def System.proceed (s : System L V E) (i : Nat) (now : Int) :
    Option (Option (Option V × Option E) × System L V E) :=
  let err : Option E := none
  match s.gets[i]? with
  | none => none
  | some (.atTest key ele t) =>
    match s.c.heap[ele]? with
    | some e =>
      if stale s.c.LifeTime t e.Born then
        some (none, { s with gets := s.gets.set i (.atSwap key ele) })
      else
        some (none, { s with gets := s.gets.set i (.atReturn key ele) })
    | none => none
  | some (.atSwap key ele) =>
    match s.c.heap[ele]? with
    | some e =>
      if e.State = ready then
        some (none,
          { c := { s.c with
                   heap := s.c.heap.set ele { e with State := updating }
                   goroutines := s.c.goroutines ++ [(key, ele)] }
            gets := s.gets.set i (.atReturn key ele) })
      else
        some (none, { s with gets := s.gets.set i (.atReturn key ele) })
    | none => none
  | some (.atReturn _ ele) =>
    match s.c.heap[ele]? with
    | some e => some (some (e.Value, none), { s with gets := s.gets.eraseIdx i })
    | none => none
  | some (.atLoader key) =>
    let r := s.c.updateKeyFunc key s.c.world
    let c1 := { s.c with world := r.2, calls := s.c.calls ++ [key] }
    match r.1.2 with
    | none =>
      (c1.Add now key r.1.1).map
        (fun c2 => (some (r.1.1, none), { c := c2, gets := s.gets.eraseIdx i }))
    | some _ => some (some (none, err), { c := c1, gets := s.gets.eraseIdx i })

/-- The `i`-th call of `Get` under way run to its return in at most `n` steps with
nothing in between: its result and the state after. -/
def System.finish (s : System L V E) (i : Nat) (now : Int) :
    Nat → Option ((Option V × Option E) × System L V E)
  | 0 => none
  | n + 1 =>
    match s.proceed i now with
    | some (some r, s1) => some (r, s1)
    | some (none, s1) => s1.finish i now n
    | none => none

/-- The steps of the cache with its calls of `Get` under way: `Add` and `Remove`,
the lookup that begins a call of `Get`, the next step of the `i`-th call under
way, and the completion of the `i`-th pending refresh. -/
inductive Event (V : Type) where
  | Add (now : Int) (key : String) (value : Option V)
  | Remove (key : String)
  | Lookup (now : Int) (key : String)
  | Proceed (i : Nat) (now : Int)
  | Complete (i : Nat) (now : Int)

/-- One step. -/
def System.step (s : System L V E) : Event V → Option (System L V E)
  | .Add now key value => (s.c.Add now key value).map (fun c1 => { s with c := c1 })
  | .Remove key => some { s with c := s.c.Remove key }
  | .Lookup now key => some (s.lookup now key)
  | .Proceed i now => (s.proceed i now).map (fun r => r.2)
  | .Complete i now => (s.c.runGoroutine i now).map (fun c1 => { s with c := c1 })

/-- A run. -/
def System.exec (s : System L V E) : List (Event V) → Option (System L V E)
  | [] => some s
  | a :: as => (s.step a).bind (fun s1 => s1.exec as)

/-- The steps a guarded run takes in a state: every step but

* an `Add` of a key that has a refresh in flight, be it a call of `Add` or the
  `Add` of line 133 with which a call of `Get` that missed stores what its
  loader returned;
* a `Remove` of a key that has a refresh in flight or a call of `Get` standing
  between its lookup and its compare-and-swap. -/
def System.admits (s : System L V E) : Event V → Bool
  | .Add _ key _ => s.c.inflight key == 0
  | .Remove key =>
    s.c.inflight key == 0 && s.gets.all (fun g => !(g.beforeSwap && g.key == key))
  | .Lookup _ _ => true
  | .Proceed i _ =>
    match s.gets[i]? with
    | some (.atLoader key) =>
      (s.c.updateKeyFunc key s.c.world).1.2.isSome || s.c.inflight key == 0
    | _ => true
  | .Complete _ _ => true

/-- A run all of whose steps are admitted in the state they are taken in. -/
def System.admissible (s : System L V E) : List (Event V) → Bool
  | [] => true
  | a :: as =>
    s.admits a &&
      (match s.step a with
       | some s1 => s1.admissible as
       | none => true)

/-- The invariant of the guarded runs: that of the cache, and every call that
stands between its lookup and its compare-and-swap holds the cell its key is
mapped to. -/
def System.Inv (s : System L V E) : Prop :=
  s.c.Inv ∧
  (∀ key ele now, Call.atTest key ele now ∈ s.gets → s.c.cache.lookup key = some ele) ∧
  (∀ key ele, Call.atSwap key ele ∈ s.gets → s.c.cache.lookup key = some ele)

/-- A guarded run on the cache of `TestGet3`: two calls of `Get("k")` find the key
missing; the loader of the first returns and its value is stored at clock `0`; a
third call finds the entry stale at clock `2` and spawns the refresh, which
completes at clock `3`; then the loader of the second call returns and its value
is stored; the third call returns; a fourth call at clock `9` spawns a refresh. -/
def guardedEvents : List (Event Nat) :=
  [.Lookup 0 "k", .Lookup 0 "k", .Proceed 0 0, .Lookup 2 "k", .Proceed 1 2, .Proceed 1 2,
   .Complete 0 3, .Proceed 0 3, .Proceed 0 3, .Lookup 9 "k", .Proceed 0 9, .Proceed 0 9]

/-- A run of calls of `Get("k")` alone: two calls find the key missing; the loader
of the first returns and its value is stored at clock `0`; a third call finds the
entry stale at clock `2` and spawns a refresh; the loader of the second call
returns and the `Add` of line 133 puts the state back to `ready`; a fourth call
finds the entry stale at clock `4` and spawns a second refresh. -/
def coldGetsRun : List (Event Nat) :=
  [.Lookup 0 "k", .Lookup 0 "k", .Proceed 0 0, .Lookup 2 "k", .Proceed 1 2, .Proceed 1 2,
   .Proceed 0 2, .Lookup 4 "k", .Proceed 1 4, .Proceed 1 4]

/-- The run in which the refresh that a stale `Get("k")` at clock `2` has spawned
completes before the call reads `ele.Value`: the lookup, the test, the
compare-and-swap with the `go` statement, the goroutine, the return. The result
of the call. -/
def overtakenGet (c : Cache L V E) : Option (Option (Option V × Option E)) :=
  (((System.start c).lookup 2 "k").proceed 0 2).bind (fun r1 =>
    (r1.2.proceed 0 2).bind (fun r2 =>
      (r2.2.step (.Complete 0 2 : Event V)).bind (fun s3 =>
        (s3.proceed 0 2).map (fun r4 => r4.1))))

end ttlCache2

/-!
Shallow embedding of `src/lru/lru.go` (the LRU cache).

Conventions of the embedding.

* A `Key` is a value of a type `K` with a decidable equality (the comparable Go
  values whose `==` is an equivalence); a value is `Option V` as above. The
  keys on which `==` is not reflexive are embedded apart (`goeq`).
* A `*list.Element` is an address into an explicit heap of cells
  (`Cache.elems`), the cell holding the `*entry` that is the `Value` of the
  element; the `list.List` is the list of its elements from front to back
  (`Cache.ll`). Using an address that holds no cell is the runtime fault of Go,
  the result `none`.
* A nil `cache` map is the empty map with the empty list: the zero `Cache` is
  the only state with a nil map, every method reads it as empty and `Add` makes
  both anew.
* The callback `OnEvicted` is embedded by state passing over a state `W`
  (`Cache.world`); `Cache.evicted` is the trace of its calls and `Cache.used` the
  trace, latest first, of the keys of the calls of `Add` and of the successful
  calls of `Get`.
* `MuCache` runs the methods of `Cache` under its lock, one at a time.
-/

namespace lru

/-- The `entry` struct. -/
structure entry (K V : Type) where
  key : K
  value : Option V
  deriving DecidableEq, Repr

/-- The `Cache` struct (`MaxEntries`, `OnEvicted`, `ll`, `cache`) together with
the heap of the list elements, the state the callback acts on, and the two
traces. -/
structure Cache (K V W : Type) [DecidableEq K] where
  MaxEntries : Int
  OnEvicted : Option (K → Option V → W → W)
  ll : List Nat
  cache : AList (fun _ : K => Nat)
  elems : List (entry K V)
  world : W
  evicted : List (K × Option V)
  used : List K

variable {K V W : Type} [DecidableEq K]

/-- The constructor `NewCache` (lines 40-46). -/
def NewCache (maxEntries : Int) (world : W) : Cache K V W :=
  { MaxEntries := maxEntries, OnEvicted := none, ll := [], cache := ∅, elems := [],
    world := world, evicted := [], used := [] }

/-- `(*list.List).MoveToFront`: an element of the list is moved to its front, any
other element is ignored. -/
def moveToFront (ll : List Nat) (e : Nat) : List Nat :=
  if e ∈ ll then e :: ll.erase e else ll

/-- The method `removeElement` (lines 100-107). -/
def Cache.removeElement (c : Cache K V W) (e : Nat) : Option (Cache K V W) :=
  match c.elems[e]? with
  | some kv =>
    match c.OnEvicted with
    | some f =>
      some { c with
        ll := c.ll.erase e
        cache := c.cache.erase kv.key
        world := f kv.key kv.value c.world
        evicted := c.evicted ++ [(kv.key, kv.value)] }
    | none => some { c with ll := c.ll.erase e, cache := c.cache.erase kv.key }
  | none => none

/-- The method `RemoveOldest` (lines 89-97): the element at the back, if any. -/
def Cache.RemoveOldest (c : Cache K V W) : Option (Cache K V W) :=
  match c.ll.getLast? with
  | some ele => c.removeElement ele
  | none => some c

/-- The method `Add` (lines 49-64). -/
def Cache.Add (c : Cache K V W) (key : K) (value : Option V) : Option (Cache K V W) :=
  match c.cache.lookup key with
  | some ee =>
    match c.elems[ee]? with
    | some kv =>
      some { c with
        ll := moveToFront c.ll ee
        elems := c.elems.set ee { kv with value := value }
        used := key :: c.used }
    | none => none
  | none =>
    let c1 : Cache K V W :=
      { c with
        ll := c.elems.length :: c.ll
        elems := c.elems ++ [{ key := key, value := value }]
        cache := c.cache.insert key c.elems.length
        used := key :: c.used }
    if c1.MaxEntries ≠ 0 ∧ (c1.ll.length : Int) > c1.MaxEntries then c1.RemoveOldest
    else some c1

/-- The method `Get` (lines 67-76): the value and `ok`, and the state after. -/
def Cache.Get (c : Cache K V W) (key : K) : Option ((Option V × Bool) × Cache K V W) :=
  match c.cache.lookup key with
  | some ele =>
    match c.elems[ele]? with
    | some kv =>
      some ((kv.value, true), { c with ll := moveToFront c.ll ele, used := key :: c.used })
    | none => none
  | none => some ((none, false), c)

/-- The method `Remove` (lines 79-86). -/
def Cache.Remove (c : Cache K V W) (key : K) : Option (Cache K V W) :=
  match c.cache.lookup key with
  | some ele => c.removeElement ele
  | none => some c

/-- The method `Len` (lines 110-115). -/
def Cache.Len (c : Cache K V W) : Nat := c.ll.length

/-- The value a key is mapped to: `c.cache[key].Value.(*entry).value`. -/
def Cache.valueOf (c : Cache K V W) (key : K) : Option (Option V) :=
  (c.cache.lookup key).bind (fun e => (c.elems[e]?).map (fun kv => kv.value))

/-- The calls on a cache: the four methods, and the assignment of `OnEvicted`
(the exported field, `SetOnEvicted` on a `MuCache`). -/
inductive Action (K V W : Type) where
  | Add (key : K) (value : Option V)
  | Get (key : K)
  | Remove (key : K)
  | RemoveOldest
  | SetOnEvicted (f : Option (K → Option V → W → W))

/-- One call. -/
def Cache.step (c : Cache K V W) : Action K V W → Option (Cache K V W)
  | .Add key value => c.Add key value
  | .Get key => (c.Get key).map (fun r => r.2)
  | .Remove key => c.Remove key
  | .RemoveOldest => c.RemoveOldest
  | .SetOnEvicted f => some { c with OnEvicted := f }

/-- A sequence of calls. -/
def Cache.exec (c : Cache K V W) : List (Action K V W) → Option (Cache K V W)
  | [] => some c
  | a :: as => (c.step a).bind (fun c1 => c1.exec as)

/-- The `MuCache` struct: a `Cache` under a lock. -/
structure MuCache (K V W : Type) [DecidableEq K] where
  cache : Cache K V W

/-- The constructor `NewMuCache` (lines 129-137). -/
def NewMuCache (maxEntries : Int) (world : W) : MuCache K V W :=
  { cache := { MaxEntries := maxEntries, OnEvicted := none, ll := [], cache := ∅,
               elems := [], world := world, evicted := [], used := [] } }

/-- The methods of `MuCache` (lines 140-186): each the method of `Cache` on the
inner cache. -/
def MuCache.step (m : MuCache K V W) (a : Action K V W) : Option (MuCache K V W) :=
  (m.cache.step a).map (fun c => { cache := c })

/-- A sequence of calls on a `MuCache`. -/
def MuCache.exec (m : MuCache K V W) : List (Action K V W) → Option (MuCache K V W)
  | [] => some m
  | a :: as => (m.step a).bind (fun m1 => m1.exec as)

/-- The method `MuCache.Len` (lines 175-179). -/
def MuCache.Len (m : MuCache K V W) : Nat := m.cache.Len

/-- The key of the entry a list element holds. -/
def Cache.keyOf (c : Cache K V W) (e : Nat) : Option K :=
  (c.elems[e]?).map (fun kv => kv.key)

/-- The consistency of the list and the map: no element occurs twice in the
list; every element of the list holds an entry whose key the map sends to that
element; every value of the map is an element of the list that holds an entry
with that key; the list and the map have the same number of members. -/
def Cache.WF (c : Cache K V W) : Prop :=
  c.ll.Nodup ∧
  (∀ e ∈ c.ll, (c.keyOf e).bind (fun k => c.cache.lookup k) = some e) ∧
  (∀ x ∈ c.cache.entries, x.2 ∈ c.ll ∧ c.keyOf x.2 = some x.1) ∧
  c.ll.length = c.cache.entries.length

instance (c : Cache K V W) : Decidable c.WF := by
  unfold Cache.WF; infer_instance

/-- The key of the entry in the cell of a list element. -/
def keyAt (el : List (entry K V)) (e : Nat) : Option K :=
  (el[e]?).map (fun kv => kv.key)

/-- The recency of a list agrees with a trace of uses (latest first): every key
of the map has been used, and of two elements of the list the one nearer to the
front holds the key whose latest use is the later one. -/
def Recent (ll : List Nat) (m : AList (fun _ : K => Nat)) (el : List (entry K V))
    (used : List K) : Prop :=
  (∀ key, key ∈ m → key ∈ used) ∧
  ll.Pairwise (fun a b =>
    ∀ ka kb, keyAt el a = some ka → keyAt el b = some kb →
      used.indexOf ka < used.indexOf kb)

/-- The recency of the list of a cache agrees with its trace of uses. -/
def Cache.Ordered (c : Cache K V W) : Prop :=
  Recent c.ll c.cache c.elems c.used

/-- The consistency of a list, a map and a heap of cells, by lookups. -/
def Consistent (ll : List Nat) (m : AList (fun _ : K => Nat)) (el : List (entry K V)) : Prop :=
  ll.Nodup ∧
  (∀ e ∈ ll, ∃ kv, el[e]? = some kv ∧ m.lookup kv.key = some e) ∧
  (∀ key e, m.lookup key = some e → e ∈ ll ∧ ∃ kv, el[e]? = some kv ∧ kv.key = key) ∧
  ll.length = m.entries.length

/-- The invariant of the runs from `NewCache(n)`: the list and the map are
consistent, the recency of the list agrees with the trace of uses, `MaxEntries`
is `n`, and the list has at most `n` elements when `n` is positive. -/
def Cache.Good (c : Cache K V W) (n : Int) : Prop :=
  Consistent c.ll c.cache c.elems ∧ Recent c.ll c.cache c.elems c.used ∧
  c.MaxEntries = n ∧ (0 < n → (c.ll.length : Int) ≤ n)

/-- The cache of `TestOnEvicted` before its `Remove`: `"myKey"` holds `1234` and the
callback records its calls in the state it acts on. -/
def recordingCache : Cache String Nat (List (String × Option Nat)) :=
  { MaxEntries := 0, OnEvicted := some (fun key value w => w ++ [(key, value)]),
    ll := [0], cache := AList.insert "myKey" 0 ∅,
    elems := [{ key := "myKey", value := some 1234 }],
    world := [], evicted := [], used := ["myKey"] }

/-- The calls of `TestMaxEntry` before its `Add(11, 11)`: `Add(i, i)` for `i` from `0`
to `9` and `Get(0)`. -/
def tenRun : List (Action Nat Nat Unit) :=
  [.Add 0 (some 0), .Add 1 (some 1), .Add 2 (some 2), .Add 3 (some 3), .Add 4 (some 4),
   .Add 5 (some 5), .Add 6 (some 6), .Add 7 (some 7), .Add 8 (some 8), .Add 9 (some 9),
   .Get 0]

/-- The cache `tenRun` reaches from `NewCache(10)`. -/
def tenCache : Cache Nat Nat Unit :=
  ((NewCache 10 () : Cache Nat Nat Unit).exec tenRun).getD (NewCache 10 ())

/-!
### Keys under Go's `==`

A `Key` is an `interface{}` and the map compares keys with Go's `==`, which is not
reflexive on every key: a key that holds a NaN is equal to no key, itself
included, so the map never finds it and never deletes it. The definitions of the
namespace `goeq` embed the same methods over a key type `A` with any `==`; the map
is the list of its pairs, the latest assigned first. On a key type whose `==` is
the equality they are the definitions above (`lru_goeq_exec`).
-/

namespace goeq

/-- The `Cache` struct over keys of any type, with the heap of the list elements,
the state the callback acts on, and the two traces. -/
structure Cache (A B S : Type) where
  MaxEntries : Int
  OnEvicted : Option (A → Option B → S → S)
  ll : List Nat
  cache : List (Sigma (fun _ : A => Nat))
  elems : List (entry A B)
  world : S
  evicted : List (A × Option B)
  used : List A

/-- The map read `m[key]`: the value of the pair whose key is `==` to `key`. -/
def mapaccess {A : Type} [BEq A] (m : List (Sigma (fun _ : A => Nat))) (key : A) : Option Nat :=
  (m.find? (fun x => x.1 == key)).map (fun x => x.2)

/-- The statement `delete(m, key)`: the pair whose key is `==` to `key` is removed. -/
def mapdelete {A : Type} [BEq A] (m : List (Sigma (fun _ : A => Nat))) (key : A) :
    List (Sigma (fun _ : A => Nat)) :=
  m.eraseP (fun x => x.1 == key)

/-- The map write `m[key] = e`: the pair takes the place of the pair whose key is
`==` to `key`, if any. -/
def mapassign {A : Type} [BEq A] (m : List (Sigma (fun _ : A => Nat))) (key : A) (e : Nat) :
    List (Sigma (fun _ : A => Nat)) :=
  ⟨key, e⟩ :: mapdelete m key

/-- The constructor `NewCache` (lines 40-46). -/
def NewCache {A B S : Type} (maxEntries : Int) (world : S) : Cache A B S :=
  { MaxEntries := maxEntries, OnEvicted := none, ll := [], cache := [], elems := [],
    world := world, evicted := [], used := [] }

/-- The method `removeElement` (lines 100-107). -/
def Cache.removeElement {A B S : Type} [BEq A] (c : Cache A B S) (e : Nat) :
    Option (Cache A B S) :=
  match c.elems[e]? with
  | some kv =>
    match c.OnEvicted with
    | some f =>
      some { c with
        ll := c.ll.erase e
        cache := mapdelete c.cache kv.key
        world := f kv.key kv.value c.world
        evicted := c.evicted ++ [(kv.key, kv.value)] }
    | none => some { c with ll := c.ll.erase e, cache := mapdelete c.cache kv.key }
  | none => none

/-- The method `RemoveOldest` (lines 89-97): the element at the back, if any. -/
def Cache.RemoveOldest {A B S : Type} [BEq A] (c : Cache A B S) : Option (Cache A B S) :=
  match c.ll.getLast? with
  | some ele => c.removeElement ele
  | none => some c

/-- The method `Add` (lines 49-64). -/
def Cache.Add {A B S : Type} [BEq A] (c : Cache A B S) (key : A) (value : Option B) :
    Option (Cache A B S) :=
  match mapaccess c.cache key with
  | some ee =>
    match c.elems[ee]? with
    | some kv =>
      some { c with
        ll := moveToFront c.ll ee
        elems := c.elems.set ee { kv with value := value }
        used := key :: c.used }
    | none => none
  | none =>
    let c1 : Cache A B S :=
      { c with
        ll := c.elems.length :: c.ll
        elems := c.elems ++ [{ key := key, value := value }]
        cache := mapassign c.cache key c.elems.length
        used := key :: c.used }
    if c1.MaxEntries ≠ 0 ∧ (c1.ll.length : Int) > c1.MaxEntries then c1.RemoveOldest
    else some c1

/-- The method `Get` (lines 67-76): the value and `ok`, and the state after. -/
def Cache.Get {A B S : Type} [BEq A] (c : Cache A B S) (key : A) :
    Option ((Option B × Bool) × Cache A B S) :=
  match mapaccess c.cache key with
  | some ele =>
    match c.elems[ele]? with
    | some kv =>
      some ((kv.value, true), { c with ll := moveToFront c.ll ele, used := key :: c.used })
    | none => none
  | none => some ((none, false), c)

/-- The method `Remove` (lines 79-86). -/
def Cache.Remove {A B S : Type} [BEq A] (c : Cache A B S) (key : A) : Option (Cache A B S) :=
  match mapaccess c.cache key with
  | some ele => c.removeElement ele
  | none => some c

/-- The method `Len` (lines 110-115). -/
def Cache.Len {A B S : Type} (c : Cache A B S) : Nat := c.ll.length

/-- One call. -/
def Cache.step {A B S : Type} [BEq A] (c : Cache A B S) : Action A B S → Option (Cache A B S)
  | .Add key value => c.Add key value
  | .Get key => (c.Get key).map (fun r => r.2)
  | .Remove key => c.Remove key
  | .RemoveOldest => c.RemoveOldest
  | .SetOnEvicted f => some { c with OnEvicted := f }

/-- A sequence of calls. -/
def Cache.exec {A B S : Type} [BEq A] (c : Cache A B S) :
    List (Action A B S) → Option (Cache A B S)
  | [] => some c
  | a :: as => (c.step a).bind (fun c1 => c1.exec as)

/-- A cache over keys whose `==` is the equality, as a cache over keys of any type. -/
def ofCache (c : lru.Cache K V W) : Cache K V W :=
  { MaxEntries := c.MaxEntries, OnEvicted := c.OnEvicted, ll := c.ll, cache := c.cache.entries,
    elems := c.elems, world := c.world, evicted := c.evicted, used := c.used }

end goeq

/-- Keys that hold a `float64`: a number that is not a NaN (numbered), or a NaN. -/
inductive FloatKey where
  | num (n : Nat)
  | nan
  deriving Repr

/-- Go's `==` on such keys: a NaN is equal to nothing. -/
def FloatKey.eq : FloatKey → FloatKey → Bool
  | .num a, .num b => a == b
  | _, _ => false

instance : BEq FloatKey := ⟨FloatKey.eq⟩

/-- The calls `Add(NaN, 1)`, `Add(NaN, 2)`, `Add(NaN, 3)`. -/
def nanRun : List (Action FloatKey Nat Unit) :=
  [.Add .nan (some 1), .Add .nan (some 2), .Add .nan (some 3)]

end lru

namespace ttlCache2

variable {L V E : Type}

/-! ## Arithmetic of the staleness test -/

theorem uint64_int64 (x : Int) : uint64 (int64 x) = (x % 2 ^ 64).toNat := by
  unfold uint64 int64
  congr 1
  omega

theorem stale_iff_of_nonneg {lifeTime : Nat} {now born : Int}
    (h0 : 0 ≤ now - born) (h1 : now - born < 2 ^ 64) :
    stale lifeTime now born ↔ (lifeTime : Int) < now - born := by
  unfold stale
  rw [uint64_int64, Int.emod_eq_of_lt h0 h1]
  omega

theorem not_stale_of_le {lifeTime : Nat} {now born : Int}
    (h0 : 0 ≤ now - born) (h1 : now - born ≤ lifeTime) :
    ¬ stale lifeTime now born := by
  unfold stale
  rw [uint64_int64]
  omega

/-! ## The paths of `Get` -/

theorem entryOf_eq_some {c : Cache L V E} {key : String} {e : entry V} :
    c.entryOf key = some e ↔ ∃ p, c.cache.lookup key = some p ∧ c.heap[p]? = some e := by
  unfold Cache.entryOf
  cases h : c.cache.lookup key <;> simp

theorem Get_miss_error {c : Cache L V E} (now : Int) {key : String} {e : E}
    (hk : c.cache.lookup key = none) (hf : (c.updateKeyFunc key c.world).1.2 = some e) :
    c.Get now key = some ((none, none),
      { c with world := (c.updateKeyFunc key c.world).2, calls := c.calls ++ [key] }) := by
  unfold Cache.Get
  simp [hk, hf]

theorem Get_miss_ok {c : Cache L V E} (now : Int) {key : String}
    (hk : c.cache.lookup key = none) (hf : (c.updateKeyFunc key c.world).1.2 = none) :
    c.Get now key = some (((c.updateKeyFunc key c.world).1.1, none),
      { c with
        world := (c.updateKeyFunc key c.world).2
        calls := c.calls ++ [key]
        cache := c.cache.insert key c.heap.length
        heap := c.heap ++ [{ Key := key, Value := (c.updateKeyFunc key c.world).1.1,
                             Born := now, State := ready }] }) := by
  unfold Cache.Get Cache.Add
  simp [hk, hf]

theorem Get_hit_launch {c : Cache L V E} {now : Int} {key : String} {p : Nat} {e : entry V}
    (hk : c.cache.lookup key = some p) (hp : c.heap[p]? = some e)
    (hs : stale c.LifeTime now e.Born) (hr : e.State = ready) :
    c.Get now key = some ((e.Value, none),
      { c with
        heap := c.heap.set p { e with State := updating }
        goroutines := c.goroutines ++ [(key, p)] }) := by
  unfold Cache.Get
  simp [hk, hp, hs, hr]

theorem Get_hit_quiet {c : Cache L V E} {now : Int} {key : String} {p : Nat} {e : entry V}
    (hk : c.cache.lookup key = some p) (hp : c.heap[p]? = some e)
    (h : ¬ (stale c.LifeTime now e.Born ∧ e.State = ready)) :
    c.Get now key = some ((e.Value, none), c) := by
  unfold Cache.Get
  simp only [hk, hp]
  rw [if_neg h]

theorem ready_ne_updating : updating ≠ ready := by decide

theorem GetN_updating {c : Cache L V E} {key : String} {p : Nat} {e : entry V}
    (hk : c.cache.lookup key = some p) (hp : c.heap[p]? = some e) (hu : e.State = updating)
    (nows : List Int) :
    c.GetN key nows = some (List.replicate nows.length (e.Value, none), c) := by
  induction nows with
  | nil => rfl
  | cons now nows ih =>
    have h : ¬ (stale c.LifeTime now e.Born ∧ e.State = ready) := by
      rw [hu]; exact fun h => ready_ne_updating h.2
    simp [Cache.GetN, Get_hit_quiet hk hp h, ih, List.replicate_succ]

theorem heap_set_self {h : List (entry V)} {p : Nat} {e : entry V} (x : entry V)
    (hp : h[p]? = some e) : (h.set p x)[p]? = some x := by
  obtain ⟨hlt, _⟩ := List.getElem?_eq_some.mp hp
  exact List.getElem?_set_self hlt

theorem stale_of_lt {lifeTime : Nat} {now born : Int} (hn : isInt64 now) (hb : isInt64 born)
    (h : (lifeTime : Int) < now - born) : stale lifeTime now born := by
  unfold isInt64 at hn hb
  refine (stale_iff_of_nonneg ?_ ?_).mpr h <;> omega

theorem Get_hit_fresh {c : Cache L V E} {key : String} {e : entry V} {now : Int}
    (he : c.entryOf key = some e)
    (h0 : 0 ≤ now - e.Born) (h1 : now - e.Born ≤ (c.LifeTime : Int)) :
    c.Get now key = some ((e.Value, none), c) := by
  obtain ⟨p, hk, hp⟩ := entryOf_eq_some.mp he
  exact Get_hit_quiet hk hp (fun h => not_stale_of_le h0 h1 h.1)

/-! ## `Add` and the refresh goroutine -/

theorem heap_set_same {h : List (entry V)} {p : Nat} {e : entry V} (hp : h[p]? = some e) :
    h.set p e = h := by
  apply List.ext_getElem?
  intro i
  by_cases hi : p = i
  · subst hi
    rw [heap_set_self _ hp, hp]
  · rw [List.getElem?_set_ne hi]

theorem Add_present {c : Cache L V E} (now : Int) {key : String} (value : Option V) {p : Nat}
    {e : entry V} (hk : c.cache.lookup key = some p) (hp : c.heap[p]? = some e) :
    c.Add now key value = some { c with
      heap := c.heap.set p { e with Value := value, Born := now, State := ready } } := by
  unfold Cache.Add
  simp [hk, hp]

theorem Add_absent {c : Cache L V E} (now : Int) {key : String} (value : Option V)
    (hk : c.cache.lookup key = none) :
    c.Add now key value = some { c with
      cache := c.cache.insert key c.heap.length
      heap := c.heap ++ [{ Key := key, Value := value, Born := now, State := ready }] } := by
  unfold Cache.Add
  simp [hk]

/-- What a successful `Add` leaves: the key is mapped to a cell that holds the
value, the clock reading and the state `ready`; the rest of the struct and the
pending goroutines are untouched. -/
theorem Add_result {c c1 : Cache L V E} {now : Int} {key : String} {value : Option V}
    (h : c.Add now key value = some c1) :
    ∃ p e, c1.cache.lookup key = some p ∧ c1.heap[p]? = some e ∧
      e.Value = value ∧ e.Born = now ∧ e.State = ready ∧
      c1.LifeTime = c.LifeTime ∧ c1.updateKeyFunc = c.updateKeyFunc ∧
      c1.world = c.world ∧ c1.goroutines = c.goroutines ∧ c1.calls = c.calls := by
  cases hk : c.cache.lookup key with
  | none =>
    rw [Add_absent now value hk] at h
    cases h
    exact ⟨c.heap.length, { Key := key, Value := value, Born := now, State := ready },
      AList.lookup_insert _, by simp, rfl, rfl, rfl, rfl, rfl, rfl, rfl, rfl⟩
  | some p =>
    cases hp : c.heap[p]? with
    | none => simp [Cache.Add, hk, hp] at h
    | some e =>
      rw [Add_present now value hk hp] at h
      cases h
      exact ⟨p, { e with Value := value, Born := now, State := ready }, hk,
        heap_set_self _ hp, rfl, rfl, rfl, rfl, rfl, rfl, rfl, rfl⟩

theorem runGoroutine_last (c : Cache L V E) (gs : List (String × Nat)) (key : String) (p : Nat)
    (now : Int) (hg : c.goroutines = gs ++ [(key, p)]) :
    c.runGoroutine gs.length now = ({ c with goroutines := gs }).refresh now key p := by
  unfold Cache.runGoroutine
  rw [hg, List.getElem?_concat_length]
  simp only
  rw [List.eraseIdx_append_of_length_le (Nat.le_refl _)]
  simp

theorem refresh_ok {c : Cache L V E} (now : Int) (key : String) (ele : Nat)
    (hf : (c.updateKeyFunc key c.world).1.2 = none) :
    c.refresh now key ele =
      ({ c with world := (c.updateKeyFunc key c.world).2, calls := c.calls ++ [key] }).Add
        now key (c.updateKeyFunc key c.world).1.1 := by
  unfold Cache.refresh
  simp [hf]

theorem refresh_error {c : Cache L V E} (now : Int) (key : String) {ele : Nat} {e : entry V}
    {err : E} (hf : (c.updateKeyFunc key c.world).1.2 = some err) (hp : c.heap[ele]? = some e) :
    c.refresh now key ele = some { c with
      world := (c.updateKeyFunc key c.world).2
      calls := c.calls ++ [key]
      heap := c.heap.set ele { e with State := ready } } := by
  unfold Cache.refresh
  simp [hf, hp]

theorem Get_hit_returns_aux {c : Cache L V E} {key : String} {e : entry V} (now : Int)
    (he : c.entryOf key = some e) :
    ∃ c1, c.Get now key = some ((e.Value, none), c1) ∧
      c1.calls = c.calls ∧ c1.world = c.world := by
  obtain ⟨p, hk, hp⟩ := entryOf_eq_some.mp he
  by_cases h : stale c.LifeTime now e.Born ∧ e.State = ready
  · exact ⟨_, Get_hit_launch hk hp h.1 h.2, rfl, rfl⟩
  · exact ⟨_, Get_hit_quiet hk hp h, rfl, rfl⟩

theorem WF_lookup {c : Cache L V E} :
    c.WF ↔ ∀ key p, c.cache.lookup key = some p → ∃ e, c.heap[p]? = some e ∧ e.Key = key := by
  unfold Cache.WF
  constructor
  · intro h key p hk
    have hm : (⟨key, p⟩ : Sigma (fun _ : String => Nat)) ∈ c.cache.entries :=
      AList.mem_lookup_iff.mp hk
    have := h _ hm
    simpa using this
  · intro h x hx
    obtain ⟨key, p⟩ := x
    have hk : c.cache.lookup key = some p := AList.mem_lookup_iff.mpr hx
    obtain ⟨e, he, hkey⟩ := h key p hk
    simp [he, hkey]

theorem entryOf_absent {c : Cache L V E} {key : String} (h : c.cache.lookup key = none) :
    c.entryOf key = none := by
  unfold Cache.entryOf
  rw [h]
  rfl

/-- Writing the cell of `key` leaves the entry of every other key as it was. -/
theorem entryOf_set_ne {c : Cache L V E} (hwf : c.WF) {key k2 : String} {p : Nat}
    (hk : c.cache.lookup key = some p) (hne : k2 ≠ key) (x : entry V) :
    ({ c with heap := c.heap.set p x } : Cache L V E).entryOf k2 = c.entryOf k2 := by
  unfold Cache.entryOf
  cases h2 : c.cache.lookup k2 with
  | none => rfl
  | some p2 =>
    obtain ⟨e, _, he⟩ := WF_lookup.mp hwf key p hk
    obtain ⟨e2, _, he2⟩ := WF_lookup.mp hwf k2 p2 h2
    have hpp : p ≠ p2 := by
      rintro rfl
      simp_all
    simp only [Option.some_bind]
    exact List.getElem?_set_ne hpp

/-- Allocating the cell of an absent `key` leaves the entry of every other key
as it was. -/
theorem entryOf_alloc_ne {c : Cache L V E} (hwf : c.WF) {key k2 : String} (hne : k2 ≠ key)
    (x : entry V) :
    ({ c with cache := c.cache.insert key c.heap.length, heap := c.heap ++ [x] }
      : Cache L V E).entryOf k2 = c.entryOf k2 := by
  unfold Cache.entryOf
  simp only [AList.lookup_insert_ne hne]
  cases h2 : c.cache.lookup k2 with
  | none => rfl
  | some p2 =>
    obtain ⟨e2, he2, _⟩ := WF_lookup.mp hwf k2 p2 h2
    obtain ⟨hlt, _⟩ := List.getElem?_eq_some.mp he2
    simp only [Option.some_bind]
    exact List.getElem?_append_left hlt

/-! ## The invariant of the guarded runs -/

theorem inflight_le_one_of_pairwise (gs : List (String × Nat)) (key : String)
    (h : gs.Pairwise (fun a b => a.1 ≠ b.1)) :
    (gs.filter (fun g => g.1 = key)).length ≤ 1 := by
  induction gs with
  | nil => simp
  | cons g gs ih =>
    rw [List.pairwise_cons] at h
    by_cases hg : g.1 = key
    · have hnil : gs.filter (fun g => g.1 = key) = [] := by
        rw [List.filter_eq_nil_iff]
        intro a ha
        have := h.1 a ha
        simp only [decide_eq_true_eq]
        exact fun hak => this (hg.trans hak.symm)
      simp [List.filter_cons, hg, hnil]
    · have := ih h.2
      simpa [List.filter_cons, hg] using this

theorem no_goroutine_of_inflight_zero {c : Cache L V E} {key : String}
    (h : c.inflight key = 0) : ∀ g ∈ c.goroutines, g.1 ≠ key := by
  intro g hg hk
  unfold Cache.inflight at h
  have hnil := List.length_eq_zero.mp h
  rw [List.filter_eq_nil_iff] at hnil
  exact hnil g hg (by simpa using hk)

theorem WF_congr {c c1 : Cache L V E} (h1 : c1.cache = c.cache) (h2 : c1.heap = c.heap)
    (h : c.WF) : c1.WF := by
  unfold Cache.WF at *
  rw [h1, h2]
  exact h

theorem Inv_congr {c c1 : Cache L V E} (h1 : c1.cache = c.cache) (h2 : c1.heap = c.heap)
    (h3 : c1.goroutines = c.goroutines) (h : c.Inv) : c1.Inv := by
  unfold Cache.Inv Cache.Pending at *
  refine ⟨WF_congr h1 h2 h.1, ?_, ?_⟩
  · rw [h1, h2, h3]
    exact h.2.1
  · rw [h3]
    exact h.2.2

/-- Two keys are not mapped to one cell. -/
theorem WF_injective {c : Cache L V E} (hwf : c.WF) {k1 k2 : String} {p : Nat}
    (h1 : c.cache.lookup k1 = some p) (h2 : c.cache.lookup k2 = some p) : k1 = k2 := by
  obtain ⟨e1, he1, hk1⟩ := WF_lookup.mp hwf k1 p h1
  obtain ⟨e2, he2, hk2⟩ := WF_lookup.mp hwf k2 p h2
  rw [he1] at he2
  cases he2
  exact hk1.symm.trans hk2

/-- Writing a cell without changing its `Key` keeps the store invariant. -/
theorem WF_set {c : Cache L V E} (hwf : c.WF) {p : Nat} {e x : entry V}
    (hp : c.heap[p]? = some e) (hx : x.Key = e.Key) :
    ({ c with heap := c.heap.set p x } : Cache L V E).WF := by
  rw [WF_lookup] at hwf ⊢
  intro key p2 hk
  obtain ⟨e2, he2, hkey⟩ := hwf key p2 hk
  by_cases hpp : p = p2
  · subst hpp
    rw [hp] at he2
    cases he2
    exact ⟨x, heap_set_self _ hp, hx.trans hkey⟩
  · exact ⟨e2, (List.getElem?_set_ne hpp).trans he2, hkey⟩

/-- Allocating the cell of an absent key keeps the store invariant. -/
theorem WF_alloc {c : Cache L V E} (hwf : c.WF) (key : String) (x : entry V)
    (hx : x.Key = key) :
    ({ c with cache := c.cache.insert key c.heap.length, heap := c.heap ++ [x] }
      : Cache L V E).WF := by
  rw [WF_lookup] at hwf ⊢
  intro k p hk
  by_cases hkk : k = key
  · subst hkk
    rw [AList.lookup_insert] at hk
    cases hk
    exact ⟨x, by simp, hx⟩
  · rw [AList.lookup_insert_ne hkk] at hk
    obtain ⟨e, he, hkey⟩ := hwf k p hk
    obtain ⟨hlt, _⟩ := List.getElem?_eq_some.mp he
    exact ⟨e, (List.getElem?_append_left hlt).trans he, hkey⟩

theorem Inv_Add {c c1 : Cache L V E} {now : Int} {key : String} {v : Option V}
    (hI : c.Inv) (hg : ∀ g ∈ c.goroutines, g.1 ≠ key) (h : c.Add now key v = some c1) :
    c1.Inv := by
  obtain ⟨hwf, hpend, hpair⟩ := hI
  cases hk : c.cache.lookup key with
  | none =>
    rw [Add_absent now v hk] at h
    cases h
    refine ⟨WF_alloc hwf key _ rfl, ?_, hpair⟩
    intro g hgm
    obtain ⟨hl, e, he, hs⟩ := hpend g hgm
    obtain ⟨hlt, _⟩ := List.getElem?_eq_some.mp he
    exact ⟨(AList.lookup_insert_ne (hg g hgm)).trans hl, e,
      (List.getElem?_append_left hlt).trans he, hs⟩
  | some p =>
    obtain ⟨e, hp, hkey⟩ := WF_lookup.mp hwf key p hk
    rw [Add_present now v hk hp] at h
    cases h
    refine ⟨WF_set hwf hp rfl, ?_, hpair⟩
    intro g hgm
    obtain ⟨hl, e2, he2, hs⟩ := hpend g hgm
    have hpp : p ≠ g.2 := fun hpp => hg g hgm (WF_injective hwf hl (hpp ▸ hk))
    exact ⟨hl, e2, (List.getElem?_set_ne hpp).trans he2, hs⟩

theorem Inv_Remove {c : Cache L V E} {key : String}
    (hI : c.Inv) (hg : ∀ g ∈ c.goroutines, g.1 ≠ key) : (c.Remove key).Inv := by
  obtain ⟨hwf, hpend, hpair⟩ := hI
  refine ⟨?_, ?_, hpair⟩
  · rw [WF_lookup] at hwf ⊢
    intro k p hk
    have hne : k ≠ key := by
      rintro rfl
      simp [Cache.Remove, AList.lookup_erase] at hk
    exact hwf k p ((AList.lookup_erase_ne hne).symm.trans hk)
  · intro g hgm
    obtain ⟨hl, hrest⟩ := hpend g hgm
    exact ⟨(AList.lookup_erase_ne (hg g hgm)).trans hl, hrest⟩

theorem Inv_Get {c c1 : Cache L V E} {now : Int} {key : String} {r : Option V × Option E}
    (hI : c.Inv) (h : c.Get now key = some (r, c1)) : c1.Inv := by
  cases hk : c.cache.lookup key with
  | none =>
    have hg : ∀ g ∈ c.goroutines, g.1 ≠ key := by
      intro g hgm hgk
      have := (hI.2.1 g hgm).1
      rw [hgk, hk] at this
      cases this
    cases hf : (c.updateKeyFunc key c.world).1.2 with
    | none =>
      rw [Get_miss_ok now hk hf] at h
      cases h
      exact Inv_Add
        (c := { c with world := (c.updateKeyFunc key c.world).2, calls := c.calls ++ [key] })
        (Inv_congr rfl rfl rfl hI) hg (Add_absent now _ hk)
    | some e =>
      rw [Get_miss_error now hk hf] at h
      cases h
      exact Inv_congr rfl rfl rfl hI
  | some p =>
    cases hp : c.heap[p]? with
    | none => simp [Cache.Get, hk, hp] at h
    | some e =>
      by_cases hs : stale c.LifeTime now e.Born ∧ e.State = ready
      · rw [Get_hit_launch hk hp hs.1 hs.2] at h
        cases h
        obtain ⟨hwf, hpend, hpair⟩ := hI
        refine ⟨WF_set hwf hp rfl, ?_, ?_⟩
        · intro g hgm
          rcases List.mem_append.mp hgm with hgm | hgm
          · obtain ⟨hl, e2, he2, hs2⟩ := hpend g hgm
            by_cases hpp : p = g.2
            · refine ⟨hl, { e with State := updating }, ?_, rfl⟩
              rw [← hpp]
              exact heap_set_self _ hp
            · exact ⟨hl, e2, (List.getElem?_set_ne hpp).trans he2, hs2⟩
          · rw [List.mem_singleton] at hgm
            subst hgm
            exact ⟨hk, _, heap_set_self _ hp, rfl⟩
        · show (c.goroutines ++ [(key, p)]).Pairwise (fun a b => a.1 ≠ b.1)
          rw [List.pairwise_append]
          refine ⟨hpair, List.pairwise_singleton _ _, ?_⟩
          intro a ha b hb hab
          rw [List.mem_singleton] at hb
          subst hb
          obtain ⟨hl, e2, he2, hs2⟩ := hpend a ha
          rw [hab, hk] at hl
          cases hl
          rw [hp] at he2
          cases he2
          exact ready_ne_updating (hs2.symm.trans hs.2)
      · rw [Get_hit_quiet hk hp hs] at h
        cases h
        exact hI

theorem pairwise_eraseIdx_ne {gs : List (String × Nat)}
    (hpair : gs.Pairwise (fun a b => a.1 ≠ b.1)) {i : Nat} {g : String × Nat}
    (hi : gs[i]? = some g) : ∀ g1 ∈ gs.eraseIdx i, g1.1 ≠ g.1 := by
  induction gs generalizing i with
  | nil => simp at hi
  | cons a gs ih =>
    rw [List.pairwise_cons] at hpair
    cases i with
    | zero =>
      simp only [List.getElem?_cons_zero, Option.some.injEq] at hi
      subst hi
      intro g1 hg1
      exact fun h => hpair.1 g1 (by simpa using hg1) h.symm
    | succ j =>
      simp only [List.getElem?_cons_succ] at hi
      intro g1 hg1
      simp only [List.eraseIdx_cons_succ, List.mem_cons] at hg1
      rcases hg1 with rfl | hg1
      · exact hpair.1 g (List.getElem?_mem hi)
      · exact ih hpair.2 hi g1 hg1

theorem Inv_runGoroutine {c c1 : Cache L V E} {i : Nat} {now : Int}
    (hI : c.Inv) (h : c.runGoroutine i now = some c1) : c1.Inv := by
  obtain ⟨hwf, hpend, hpair⟩ := hI
  cases hi : c.goroutines[i]? with
  | none => simp [Cache.runGoroutine, hi] at h
  | some g =>
    obtain ⟨hl, e, he, hs⟩ := hpend g (List.getElem?_mem hi)
    have hne := pairwise_eraseIdx_ne hpair hi
    have hI1 : ({ c with goroutines := c.goroutines.eraseIdx i } : Cache L V E).Inv :=
      ⟨hwf, fun g1 hg1 => hpend g1 (List.eraseIdx_subset _ _ hg1),
        hpair.sublist (List.eraseIdx_sublist _ _)⟩
    have h2 : ({ c with goroutines := c.goroutines.eraseIdx i } : Cache L V E).refresh
        now g.1 g.2 = some c1 := by
      simpa [Cache.runGoroutine, hi] using h
    cases hf : (c.updateKeyFunc g.1 c.world).1.2 with
    | none =>
      have h3 := (refresh_ok (c := { c with goroutines := c.goroutines.eraseIdx i })
        now g.1 g.2 hf).symm.trans h2
      exact Inv_Add
        (c := { c with
          goroutines := c.goroutines.eraseIdx i
          world := (c.updateKeyFunc g.1 c.world).2
          calls := c.calls ++ [g.1] })
        (Inv_congr rfl rfl rfl hI1) hne h3
    | some err =>
      have h3 := (refresh_error (c := { c with goroutines := c.goroutines.eraseIdx i })
        now g.1 hf he).symm.trans h2
      cases h3
      refine ⟨WF_set hwf he rfl, ?_, hI1.2.2⟩
      intro g1 hg1
      obtain ⟨hl1, e1, he1, hs1⟩ := hpend g1 (List.eraseIdx_subset _ _ hg1)
      have hpp : g.2 ≠ g1.2 := fun hpp => hne g1 hg1 (WF_injective hwf hl1 (hpp ▸ hl))
      exact ⟨hl1, e1, (List.getElem?_set_ne hpp).trans he1, hs1⟩

theorem load_goroutines (c : Cache L V E) (ReadFile : String → Except E String)
    (Unmarshal : String → List (String × entry V) × Option E) :
    (c.load ReadFile Unmarshal).1.goroutines = c.goroutines := by
  have hfold : ∀ (l : List (String × entry V)) (c : Cache L V E),
      (l.foldl (fun c kv =>
        ({ c with cache := c.cache.insert kv.1 c.heap.length, heap := c.heap ++ [kv.2] }
          : Cache L V E)) c).goroutines = c.goroutines := by
    intro l
    induction l with
    | nil => intro c; rfl
    | cons kv l ih => intro c; rw [List.foldl_cons, ih]
  unfold Cache.load
  cases ReadFile c.flushFile with
  | error err => rfl
  | ok buf => exact hfold _ c

theorem NewCache_goroutines {lifeTime flushInterval : Nat} {flushFile : String}
    {f : UpdateKeyFunc L V E} {world : L} {ReadFile : String → Except E String}
    {Unmarshal : String → List (String × entry V) × Option E} {c0 : Cache L V E}
    (h : NewCache lifeTime flushInterval flushFile f world ReadFile Unmarshal = some c0) :
    c0.goroutines = [] := by
  unfold NewCache at h
  simp only at h
  split_ifs at h with h1 h2 h3
  all_goals
    cases h
    first
      | rfl
      | exact load_goroutines _ _ _

theorem Inv_of_empty {c : Cache L V E} (hlen : c.Len = 0) (hg : c.goroutines = []) : c.Inv := by
  have hnil : c.cache.entries = [] := List.length_eq_zero.mp hlen
  refine ⟨?_, ?_, ?_⟩
  · unfold Cache.WF
    rw [hnil]
    exact fun x hx => absurd hx (List.not_mem_nil x)
  · unfold Cache.Pending
    rw [hg]
    exact fun g hgm => absurd hgm (List.not_mem_nil g)
  · rw [hg]
    exact List.Pairwise.nil

/-! ## The calls of `Get` step by step -/

/-- A call of `Get` whose steps run with nothing in between is the method `Get`
taken as one step. -/
theorem Get_as_steps (c : Cache L V E) (now : Int) (key : String) :
    ((System.start c).lookup now key).finish 0 now 3 =
      (c.Get now key).map (fun r => (r.1, System.start r.2)) := by
  cases hk : c.cache.lookup key with
  | none =>
    cases hf : (c.updateKeyFunc key c.world).1.2 with
    | none =>
      rw [Get_miss_ok now hk hf]
      simp [System.lookup, System.start, System.finish, System.proceed, hk, hf, Cache.Add]
    | some err =>
      rw [Get_miss_error now hk hf]
      simp [System.lookup, System.start, System.finish, System.proceed, hk, hf]
  | some p =>
    cases hp : c.heap[p]? with
    | none => simp [System.lookup, System.start, System.finish, System.proceed, hk, hp, Cache.Get]
    | some e =>
      by_cases hs : stale c.LifeTime now e.Born
      · by_cases hr : e.State = ready
        · have hp2 : (c.heap.set p { e with State := updating })[p]? =
              some { e with State := updating } := heap_set_self _ hp
          rw [Get_hit_launch hk hp hs hr]
          simp [System.lookup, System.start, System.finish, System.proceed, hk, hp, hs, hr, hp2]
        · rw [Get_hit_quiet hk hp (fun h => hr h.2)]
          simp [System.lookup, System.start, System.finish, System.proceed, hk, hp, hs, hr]
      · rw [Get_hit_quiet hk hp (fun h => hs h.1)]
        simp [System.lookup, System.start, System.finish, System.proceed, hk, hp, hs]

theorem Add_lookup {c c1 : Cache L V E} {now : Int} {key : String} {v : Option V}
    (h : c.Add now key v = some c1) {k : String} {p : Nat} (hk : c.cache.lookup k = some p) :
    c1.cache.lookup k = some p := by
  cases hkey : c.cache.lookup key with
  | none =>
    rw [Add_absent now v hkey] at h
    cases h
    have hne : k ≠ key := by
      rintro rfl
      rw [hkey] at hk
      cases hk
    exact (AList.lookup_insert_ne hne).trans hk
  | some q =>
    cases hq : c.heap[q]? with
    | none => simp [Cache.Add, hkey, hq] at h
    | some e =>
      rw [Add_present now v hkey hq] at h
      cases h
      exact hk

theorem runGoroutine_lookup {c c1 : Cache L V E} {i : Nat} {now : Int}
    (h : c.runGoroutine i now = some c1) {k : String} {p : Nat}
    (hk : c.cache.lookup k = some p) : c1.cache.lookup k = some p := by
  cases hi : c.goroutines[i]? with
  | none => simp [Cache.runGoroutine, hi] at h
  | some g =>
    have h2 : ({ c with goroutines := c.goroutines.eraseIdx i } : Cache L V E).refresh
        now g.1 g.2 = some c1 := by
      simpa [Cache.runGoroutine, hi] using h
    unfold Cache.refresh at h2
    simp only at h2
    split at h2
    · exact Add_lookup h2 hk
    · split at h2
      · cases h2
        exact hk
      · cases h2

theorem beforeSwap_key_ne {gs : List Call} {key : String}
    (h : gs.all (fun g => !(g.beforeSwap && g.key == key)) = true) {g : Call}
    (hm : g ∈ gs) (hb : g.beforeSwap = true) : g.key ≠ key := by
  rw [List.all_eq_true] at h
  have := h _ hm
  simpa [hb] using this

/-- Every admitted step keeps the invariant of the guarded runs. -/
theorem SInv_step {s s1 : System L V E} {a : Event V}
    (hI : s.Inv) (hadm : s.admits a = true) (h : s.step a = some s1) : s1.Inv := by
  obtain ⟨hc, hg, hw⟩ := hI
  cases a with
  | Add now key v =>
    simp only [System.step, Option.map_eq_some'] at h
    obtain ⟨c1, hadd, rfl⟩ := h
    have h0 : s.c.inflight key = 0 := by simpa [System.admits] using hadm
    exact ⟨Inv_Add hc (no_goroutine_of_inflight_zero h0) hadd,
      fun k ele t hm => Add_lookup hadd (hg k ele t hm),
      fun k ele hm => Add_lookup hadd (hw k ele hm)⟩
  | Remove key =>
    simp only [System.step, Option.some.injEq] at h
    subst h
    simp only [System.admits, Bool.and_eq_true, beq_iff_eq] at hadm
    refine ⟨Inv_Remove hc (no_goroutine_of_inflight_zero hadm.1), ?_, ?_⟩
    · intro k ele t hm
      exact (AList.lookup_erase_ne (beforeSwap_key_ne hadm.2 hm rfl)).trans (hg k ele t hm)
    · intro k ele hm
      exact (AList.lookup_erase_ne (beforeSwap_key_ne hadm.2 hm rfl)).trans (hw k ele hm)
  | Lookup now key =>
    simp only [System.step, Option.some.injEq] at h
    subst h
    unfold System.lookup
    cases hk : s.c.cache.lookup key with
    | none =>
      refine ⟨hc, ?_, ?_⟩
      · intro k ele t hm
        rcases List.mem_append.mp hm with hm | hm
        · exact hg k ele t hm
        · simp at hm
      · intro k ele hm
        rcases List.mem_append.mp hm with hm | hm
        · exact hw k ele hm
        · simp at hm
    | some p =>
      refine ⟨hc, ?_, ?_⟩
      · intro k ele t hm
        rcases List.mem_append.mp hm with hm | hm
        · exact hg k ele t hm
        · simp only [List.mem_singleton, Call.atTest.injEq] at hm
          obtain ⟨rfl, rfl, -⟩ := hm
          exact hk
      · intro k ele hm
        rcases List.mem_append.mp hm with hm | hm
        · exact hw k ele hm
        · simp at hm
  | Complete i now =>
    simp only [System.step, Option.map_eq_some'] at h
    obtain ⟨c1, hrun, rfl⟩ := h
    exact ⟨Inv_runGoroutine hc hrun,
      fun k ele t hm => runGoroutine_lookup hrun (hg k ele t hm),
      fun k ele hm => runGoroutine_lookup hrun (hw k ele hm)⟩
  | Proceed i now =>
    simp only [System.step, Option.map_eq_some'] at h
    obtain ⟨⟨r, s2⟩, hpro, rfl⟩ := h
    cases hi : s.gets[i]? with
    | none => simp [System.proceed, hi] at hpro
    | some g =>
      have hret : ∀ key ele,
          (∀ k p t2, Call.atTest k p t2 ∈ s.gets.set i (.atReturn key ele) →
            s.c.cache.lookup k = some p) ∧
          (∀ k p, Call.atSwap k p ∈ s.gets.set i (.atReturn key ele) →
            s.c.cache.lookup k = some p) := by
        intro key ele
        constructor
        · intro k p t2 hm
          rcases List.mem_or_eq_of_mem_set hm with hm | hm
          · exact hg k p t2 hm
          · cases hm
        · intro k p hm
          rcases List.mem_or_eq_of_mem_set hm with hm | hm
          · exact hw k p hm
          · cases hm
      have hera : (∀ k p t2, Call.atTest k p t2 ∈ s.gets.eraseIdx i →
            s.c.cache.lookup k = some p) ∧
          (∀ k p, Call.atSwap k p ∈ s.gets.eraseIdx i → s.c.cache.lookup k = some p) :=
        ⟨fun k p t2 hm => hg k p t2 (List.eraseIdx_subset _ _ hm),
         fun k p hm => hw k p (List.eraseIdx_subset _ _ hm)⟩
      cases g with
      | atTest key ele t =>
        have hk := hg key ele t (List.getElem?_mem hi)
        cases hp : s.c.heap[ele]? with
        | none => simp [System.proceed, hi, hp] at hpro
        | some e =>
          by_cases hs : stale s.c.LifeTime t e.Born
          · simp only [System.proceed, hi, hp, if_pos hs, Option.some.injEq, Prod.mk.injEq] at hpro
            obtain ⟨-, rfl⟩ := hpro
            refine ⟨hc, ?_, ?_⟩
            · intro k p t2 hm
              rcases List.mem_or_eq_of_mem_set hm with hm | hm
              · exact hg k p t2 hm
              · cases hm
            · intro k p hm
              rcases List.mem_or_eq_of_mem_set hm with hm | hm
              · exact hw k p hm
              · cases hm
                exact hk
          · simp only [System.proceed, hi, hp, if_neg hs, Option.some.injEq, Prod.mk.injEq] at hpro
            obtain ⟨-, rfl⟩ := hpro
            exact ⟨hc, hret key ele⟩
      | atSwap key ele =>
        have hk := hw key ele (List.getElem?_mem hi)
        cases hp : s.c.heap[ele]? with
        | none => simp [System.proceed, hi, hp] at hpro
        | some e =>
          by_cases hr : e.State = ready
          · simp only [System.proceed, hi, hp, if_pos hr, Option.some.injEq, Prod.mk.injEq] at hpro
            obtain ⟨-, rfl⟩ := hpro
            obtain ⟨hwf, hpend, hpair⟩ := hc
            refine ⟨⟨WF_set hwf hp rfl, ?_, ?_⟩, hret key ele⟩
            · intro g hgm
              rcases List.mem_append.mp hgm with hgm | hgm
              · obtain ⟨hl, e2, he2, hs2⟩ := hpend g hgm
                by_cases hpp : ele = g.2
                · refine ⟨hl, { e with State := updating }, ?_, rfl⟩
                  rw [← hpp]
                  exact heap_set_self _ hp
                · exact ⟨hl, e2, (List.getElem?_set_ne hpp).trans he2, hs2⟩
              · rw [List.mem_singleton] at hgm
                subst hgm
                exact ⟨hk, _, heap_set_self _ hp, rfl⟩
            · show (s.c.goroutines ++ [(key, ele)]).Pairwise (fun a b => a.1 ≠ b.1)
              rw [List.pairwise_append]
              refine ⟨hpair, List.pairwise_singleton _ _, ?_⟩
              intro a ha b hb hab
              rw [List.mem_singleton] at hb
              subst hb
              obtain ⟨hl, e2, he2, hs2⟩ := hpend a ha
              rw [hab, hk] at hl
              cases hl
              rw [hp] at he2
              cases he2
              exact ready_ne_updating (hs2.symm.trans hr)
          · simp only [System.proceed, hi, hp, if_neg hr, Option.some.injEq, Prod.mk.injEq] at hpro
            obtain ⟨-, rfl⟩ := hpro
            exact ⟨hc, hret key ele⟩
      | atReturn key ele =>
        cases hp : s.c.heap[ele]? with
        | none => simp [System.proceed, hi, hp] at hpro
        | some e =>
          simp only [System.proceed, hi, hp, Option.some.injEq, Prod.mk.injEq] at hpro
          obtain ⟨-, rfl⟩ := hpro
          exact ⟨hc, hera⟩
      | atLoader key =>
        cases hf : (s.c.updateKeyFunc key s.c.world).1.2 with
        | none =>
          simp only [System.proceed, hi, hf, Option.map_eq_some'] at hpro
          obtain ⟨c2, hadd, hpair⟩ := hpro
          simp only [Prod.mk.injEq] at hpair
          obtain ⟨-, rfl⟩ := hpair
          have h0 : s.c.inflight key = 0 := by simpa [System.admits, hi, hf] using hadm
          refine ⟨Inv_Add
            (c := { s.c with
              world := (s.c.updateKeyFunc key s.c.world).2, calls := s.c.calls ++ [key] })
            (Inv_congr rfl rfl rfl hc) (no_goroutine_of_inflight_zero h0) hadd, ?_, ?_⟩
          · intro k p t2 hm
            exact Add_lookup hadd (hera.1 k p t2 hm)
          · intro k p hm
            exact Add_lookup hadd (hera.2 k p hm)
        | some err =>
          simp only [System.proceed, hi, hf, Option.some.injEq, Prod.mk.injEq] at hpro
          obtain ⟨-, rfl⟩ := hpro
          exact ⟨Inv_congr rfl rfl rfl hc, hera⟩

theorem SInv_exec {s s1 : System L V E} {es : List (Event V)}
    (hI : s.Inv) (hadm : s.admissible es = true) (h : s.exec es = some s1) : s1.Inv := by
  induction es generalizing s with
  | nil =>
    simp only [System.exec, Option.some.injEq] at h
    subst h
    exact hI
  | cons a es ih =>
    simp only [System.exec] at h
    cases hs : s.step a with
    | none =>
      rw [hs] at h
      cases h
    | some s2 =>
      rw [hs] at h
      simp only [System.admissible, hs, Bool.and_eq_true] at hadm
      exact ih (SInv_step hI hadm.1 hs) hadm.2 h

/-! ## The store invariant in every run -/

theorem WF_Add {c c1 : Cache L V E} {now : Int} {key : String} {v : Option V}
    (hwf : c.WF) (h : c.Add now key v = some c1) : c1.WF := by
  cases hk : c.cache.lookup key with
  | none =>
    rw [Add_absent now v hk] at h
    cases h
    exact WF_alloc hwf key _ rfl
  | some p =>
    obtain ⟨e, hp, -⟩ := WF_lookup.mp hwf key p hk
    rw [Add_present now v hk hp] at h
    cases h
    exact WF_set hwf hp rfl

theorem WF_Remove {c : Cache L V E} (hwf : c.WF) (key : String) : (c.Remove key).WF := by
  rw [WF_lookup] at hwf ⊢
  intro k p hk
  have hne : k ≠ key := by
    rintro rfl
    simp [Cache.Remove, AList.lookup_erase] at hk
  exact hwf k p ((AList.lookup_erase_ne hne).symm.trans hk)

theorem WF_runGoroutine {c c1 : Cache L V E} {i : Nat} {now : Int}
    (hwf : c.WF) (h : c.runGoroutine i now = some c1) : c1.WF := by
  cases hi : c.goroutines[i]? with
  | none => simp [Cache.runGoroutine, hi] at h
  | some g =>
    have h2 : ({ c with goroutines := c.goroutines.eraseIdx i } : Cache L V E).refresh
        now g.1 g.2 = some c1 := by
      simpa [Cache.runGoroutine, hi] using h
    unfold Cache.refresh at h2
    simp only at h2
    split at h2
    · exact WF_Add (c := { c with
        goroutines := c.goroutines.eraseIdx i
        world := (c.updateKeyFunc g.1 c.world).2
        calls := c.calls ++ [g.1] }) (WF_congr rfl rfl hwf) h2
    · split at h2
      · rename_i e he
        cases h2
        exact WF_set hwf he rfl
      · cases h2

/-- Every step, guarded or not, keeps the store invariant. -/
theorem WF_step {s s1 : System L V E} {a : Event V}
    (hwf : s.c.WF) (h : s.step a = some s1) : s1.c.WF := by
  cases a with
  | Add now key v =>
    simp only [System.step, Option.map_eq_some'] at h
    obtain ⟨c1, hadd, rfl⟩ := h
    exact WF_Add hwf hadd
  | Remove key =>
    simp only [System.step, Option.some.injEq] at h
    subst h
    exact WF_Remove hwf key
  | Lookup now key =>
    simp only [System.step, Option.some.injEq] at h
    subst h
    unfold System.lookup
    cases s.c.cache.lookup key <;> exact hwf
  | Complete i now =>
    simp only [System.step, Option.map_eq_some'] at h
    obtain ⟨c1, hrun, rfl⟩ := h
    exact WF_runGoroutine hwf hrun
  | Proceed i now =>
    simp only [System.step, Option.map_eq_some'] at h
    obtain ⟨⟨r, s2⟩, hpro, rfl⟩ := h
    cases hi : s.gets[i]? with
    | none => simp [System.proceed, hi] at hpro
    | some g =>
      cases g with
      | atTest key ele t =>
        cases hp : s.c.heap[ele]? with
        | none => simp [System.proceed, hi, hp] at hpro
        | some e =>
          by_cases hs : stale s.c.LifeTime t e.Born
          · simp only [System.proceed, hi, hp, if_pos hs, Option.some.injEq, Prod.mk.injEq] at hpro
            obtain ⟨-, rfl⟩ := hpro
            exact hwf
          · simp only [System.proceed, hi, hp, if_neg hs, Option.some.injEq, Prod.mk.injEq] at hpro
            obtain ⟨-, rfl⟩ := hpro
            exact hwf
      | atSwap key ele =>
        cases hp : s.c.heap[ele]? with
        | none => simp [System.proceed, hi, hp] at hpro
        | some e =>
          by_cases hr : e.State = ready
          · simp only [System.proceed, hi, hp, if_pos hr, Option.some.injEq, Prod.mk.injEq] at hpro
            obtain ⟨-, rfl⟩ := hpro
            exact WF_congr (c := { s.c with heap := s.c.heap.set ele { e with State := updating } })
              rfl rfl (WF_set hwf hp rfl)
          · simp only [System.proceed, hi, hp, if_neg hr, Option.some.injEq, Prod.mk.injEq] at hpro
            obtain ⟨-, rfl⟩ := hpro
            exact hwf
      | atReturn key ele =>
        cases hp : s.c.heap[ele]? with
        | none => simp [System.proceed, hi, hp] at hpro
        | some e =>
          simp only [System.proceed, hi, hp, Option.some.injEq, Prod.mk.injEq] at hpro
          obtain ⟨-, rfl⟩ := hpro
          exact hwf
      | atLoader key =>
        cases hf : (s.c.updateKeyFunc key s.c.world).1.2 with
        | none =>
          simp only [System.proceed, hi, hf, Option.map_eq_some'] at hpro
          obtain ⟨c2, hadd, hpair⟩ := hpro
          simp only [Prod.mk.injEq] at hpair
          obtain ⟨-, rfl⟩ := hpair
          exact WF_Add
            (c := { s.c with
              world := (s.c.updateKeyFunc key s.c.world).2, calls := s.c.calls ++ [key] })
            (WF_congr rfl rfl hwf) hadd
        | some err =>
          simp only [System.proceed, hi, hf, Option.some.injEq, Prod.mk.injEq] at hpro
          obtain ⟨-, rfl⟩ := hpro
          exact WF_congr rfl rfl hwf

/-- The store invariant holds in every state that a run of `Add`, `Remove`, calls
of `Get` and refreshes reaches from a store in which it holds. -/
theorem WF_exec {s0 s : System L V E} {es : List (Event V)}
    (hwf : s0.c.WF) (h : s0.exec es = some s) : s.c.WF := by
  induction es generalizing s0 with
  | nil =>
    simp only [System.exec, Option.some.injEq] at h
    subst h
    exact hwf
  | cons a es ih =>
    simp only [System.exec] at h
    cases hs : s0.step a with
    | none =>
      rw [hs] at h
      cases h
    | some s2 =>
      rw [hs] at h
      exact ih (WF_step hwf hs) h

theorem WF_load (c : Cache L V E) (ReadFile : String → Except E String)
    (Unmarshal : String → List (String × entry V) × Option E)
    (hwf : c.WF) (hkeys : ∀ buf, ∀ x ∈ (Unmarshal buf).1, x.2.Key = x.1) :
    (c.load ReadFile Unmarshal).1.WF := by
  have hfold : ∀ (l : List (String × entry V)) (c : Cache L V E), c.WF →
      (∀ x ∈ l, x.2.Key = x.1) →
      (l.foldl (fun c kv =>
        ({ c with cache := c.cache.insert kv.1 c.heap.length, heap := c.heap ++ [kv.2] }
          : Cache L V E)) c).WF := by
    intro l
    induction l with
    | nil => exact fun c h _ => h
    | cons kv l ih =>
      intro c h hl
      rw [List.foldl_cons]
      exact ih _ (WF_alloc h kv.1 kv.2 (hl kv (by simp))) (fun x hx => hl x (by simp [hx]))
  unfold Cache.load
  cases ReadFile c.flushFile with
  | error err => exact hwf
  | ok buf => exact hfold _ c hwf (hkeys buf)

/-- The store invariant holds in the cache `NewCache` returns, when every entry
the decoder stores carries the key it is stored under; so it does when nothing is
restored. -/
theorem WF_NewCache {lifeTime flushInterval : Nat} {flushFile : String}
    {f : UpdateKeyFunc L V E} {world : L} {ReadFile : String → Except E String}
    {Unmarshal : String → List (String × entry V) × Option E} {c0 : Cache L V E}
    (hkeys : ∀ buf, ∀ x ∈ (Unmarshal buf).1, x.2.Key = x.1)
    (h : NewCache lifeTime flushInterval flushFile f world ReadFile Unmarshal = some c0) :
    c0.WF := by
  have h0 : (initial lifeTime flushInterval flushFile f world).WF :=
    fun x hx => absurd hx (List.not_mem_nil x)
  have h1 := WF_load (initial lifeTime flushInterval flushFile f world) ReadFile Unmarshal
    h0 hkeys
  unfold NewCache at h
  simp only at h
  split_ifs at h with h2 h3 h4
  all_goals
    cases h
    first
      | exact h0
      | exact h1

/-! ## The claims on `Get` -/

/-- C1, evaluated at its failing input: on a cache that does not hold `"k"` and
whose loader fails with the error `"test"`, `Get("k")` returns the nil value and
the nil error, not the error of the loader. -/
theorem Get_miss_drops_loader_error :
    failingCache.cache.lookup "k" = none ∧
    (failingCache.updateKeyFunc "k" failingCache.world).1.2 = some "test" ∧
    (failingCache.Get 0 "k").map (fun r => r.1) = some (none, none) := by
  decide

/-- C2: single-flight refresh. For an entry in state `ready` that is stale at the
clock reading `now`, any number `N = nows.length + 1` of successive calls of `Get`
on its key (the first at `now`) all return the stale value with a nil error; the
first call spawns the one refresh goroutine and reaches the final state, in which
the loader has not been invoked, the entry is `updating` and its value and born
are what they were. -/
theorem Get_single_flight (c : Cache L V E) (key : String) (p : Nat) (e : entry V)
    (now : Int) (nows : List Int)
    (hk : c.cache.lookup key = some p) (hp : c.heap[p]? = some e)
    (hn : isInt64 now) (hb : isInt64 e.Born)
    (hs : (c.LifeTime : Int) < now - e.Born) (hr : e.State = ready) :
    ∃ c1, c.Get now key = some ((e.Value, none), c1) ∧
      c.GetN key (now :: nows) = some (List.replicate (nows.length + 1) (e.Value, none), c1) ∧
      c1.goroutines = c.goroutines ++ [(key, p)] ∧
      c1.calls = c.calls ∧ c1.world = c.world ∧ c1.cache = c.cache ∧
      c1.heap = c.heap.set p { e with State := updating } ∧
      c1.entryOf key = some { e with State := updating } := by
  have h1 := Get_hit_launch hk hp (stale_of_lt hn hb hs) hr
  refine ⟨_, h1, ?_, rfl, rfl, rfl, rfl, rfl, ?_⟩
  · have h2 := GetN_updating (c := { c with
        heap := c.heap.set p { e with State := updating }
        goroutines := c.goroutines ++ [(key, p)] }) (p := p)
        (e := { e with State := updating }) hk (heap_set_self _ hp) rfl nows
    simp [Cache.GetN, h1, h2, List.replicate_succ]
  · exact entryOf_eq_some.mpr ⟨p, hk, heap_set_self _ hp⟩

/-- Witness of C2: three calls of `Get("k")` at clock `2` on the cache of
`TestGet3` (lifetime `1`, `"k"` added at clock `0`). -/
theorem Get_single_flight_witness :
    ∃ c1, oneSecondCache.Get 2 "k" = some ((some 1, none), c1) ∧
      oneSecondCache.GetN "k" [2, 2, 2] = some (List.replicate 3 (some 1, none), c1) ∧
      c1.goroutines = [("k", 0)] ∧
      c1.calls = [] ∧ c1.world = () ∧ c1.cache = oneSecondCache.cache ∧
      c1.heap = [{ Key := "k", Born := 0, State := updating, Value := some 1 }] ∧
      c1.entryOf "k" = some { Key := "k", Born := 0, State := updating, Value := some 1 } :=
  Get_single_flight oneSecondCache "k" 0 { Key := "k", Born := 0, State := ready, Value := some 1 }
    2 [2, 2] (by decide) (by decide) (by decide) (by decide) (by decide) (by decide)

/-- C4 as stated fails: on a cache of lifetime `360` whose entry for `"k"` was
born at clock `1`, a `Get("k")` at the clock reading `0` has `now - born = -1`,
which is at most the lifetime, and yet the call spawns a refresh goroutine and
moves the entry to `updating`: the difference is compared as `uint64`. -/
theorem Get_fresh_hit_counterexample :
    bornLaterCache.entryOf "k" = some { Key := "k", Born := 1, State := ready, Value := some 5 } ∧
    isInt64 0 ∧ isInt64 1 ∧ (0 : Int) - 1 ≤ (bornLaterCache.LifeTime : Int) ∧
    (bornLaterCache.Get 0 "k").map (fun r => (r.1, r.2.goroutines, r.2.entryOf "k")) =
      some ((some 5, none), [("k", 0)],
        some { Key := "k", Born := 1, State := updating, Value := some 5 }) := by
  decide

/-- C4, amended: for an entry present in the store and a clock reading `now` with
`0 ≤ now - born ≤ lifeTime`, `Get` of its key returns the value with a nil error
and leaves the whole state as it was: no loader call, no goroutine, no entry
changed. -/
theorem Get_fresh_hit_no_side_effect (c : Cache L V E) (key : String) (e : entry V) (now : Int)
    (he : c.entryOf key = some e)
    (h0 : 0 ≤ now - e.Born) (h1 : now - e.Born ≤ (c.LifeTime : Int)) :
    c.Get now key = some ((e.Value, none), c) :=
  Get_hit_fresh he h0 h1

/-- Witness of the amended C4: the read of `TestGet3` at the clock of the `Add`. -/
theorem Get_fresh_hit_no_side_effect_witness :
    oneSecondCache.entryOf "k" = some { Key := "k", Born := 0, State := ready, Value := some 1 } ∧
    oneSecondCache.Get 1 "k" = some ((some 1, none), oneSecondCache) :=
  ⟨by decide,
   Get_fresh_hit_no_side_effect oneSecondCache "k"
     { Key := "k", Born := 0, State := ready, Value := some 1 } 1
     (by decide) (by decide) (by decide)⟩

/-- C5, evaluated at its failing input: the cache of `TestGet3` holds `"k"` with
the value `1`, stale at clock `2`, and its loader returns `(2, nil)`. A call of
`Get("k")` at clock `2` wins the compare-and-swap and spawns the refresh (lines
118-119); the goroutine runs to its end before the call reads `ele.Value` (line
129), and the call returns `(2, nil)`: the result of the loader call it has
launched, not the value `1` the store held when it was called. The same call with
nothing between its steps returns `(1, nil)`. -/
theorem Get_returns_refreshed_value :
    oneSecondCache.entryOf "k" = some { Key := "k", Born := 0, State := ready, Value := some 1 } ∧
    (oneSecondCache.updateKeyFunc "k" oneSecondCache.world).1 = (some 2, none) ∧
    overtakenGet oneSecondCache = some (some (some 2, none)) ∧
    (oneSecondCache.Get 2 "k").map (fun r => r.1) = some (some 1, none) := by
  decide

/-- C6: miss then populate. On a cache that does not hold `key` and whose loader
returns `(v, nil)` for it, `Get(key)` at clock `t` invokes the loader once, returns
`(v, nil)` and leaves the store holding `key` with value `v`, born `t` and state
`ready`; a following `Get(key)` at a clock `t1` with `0 ≤ t1 - t ≤ lifeTime`
returns `(v, nil)` and leaves the state as it is (no loader call, no goroutine). -/
theorem Get_miss_then_populate (c : Cache L V E) (key : String) (v : Option V) (w : L)
    (t t1 : Int)
    (hk : c.cache.lookup key = none) (hf : c.updateKeyFunc key c.world = ((v, none), w))
    (h0 : 0 ≤ t1 - t) (h1 : t1 - t ≤ (c.LifeTime : Int)) :
    ∃ c1, c.Get t key = some ((v, none), c1) ∧
      c1.entryOf key = some { Key := key, Born := t, State := ready, Value := v } ∧
      c1.calls = c.calls ++ [key] ∧ c1.goroutines = c.goroutines ∧
      c1.Get t1 key = some ((v, none), c1) := by
  have hg := Get_miss_ok t hk (by rw [hf])
  rw [hf] at hg
  refine ⟨_, hg, ?_, rfl, rfl, ?_⟩
  · exact entryOf_eq_some.mpr ⟨c.heap.length, AList.lookup_insert _, by simp⟩
  · refine Get_hit_fresh (e := { Key := key, Born := t, State := ready, Value := v }) ?_ h0 h1
    exact entryOf_eq_some.mpr ⟨c.heap.length, AList.lookup_insert _, by simp⟩

/-- Witness of C6: the first `Get` of `TestGet4` at clock `0` and a second one at
clock `1`, within the lifetime of one second. -/
theorem Get_miss_then_populate_witness :
    loadingCache.cache.lookup "1" = none ∧
    ∃ c1, loadingCache.Get 0 "1" = some ((some 1, none), c1) ∧
      c1.entryOf "1" = some { Key := "1", Born := 0, State := ready, Value := some 1 } ∧
      c1.calls = loadingCache.calls ++ ["1"] ∧ c1.goroutines = loadingCache.goroutines ∧
      c1.Get 1 "1" = some ((some 1, none), c1) :=
  ⟨by decide,
   Get_miss_then_populate loadingCache "1" (some 1) () 0 1 (by decide) rfl (by decide) (by decide)⟩

/-- C7: no negative caching. On a cache that does not hold `key`, a `Get(key)`
whose loader call fails leaves the map and the heap as they were (`key` is still
absent and `Len()` is the same) and has invoked the loader once; a following
`Get(key)`, at any clock reading and whatever the loader then returns, takes the
miss path: it invokes the loader again. -/
theorem Get_miss_error_not_cached (c : Cache L V E) (key : String) (e : E) (now now1 : Int)
    (hk : c.cache.lookup key = none)
    (hf : (c.updateKeyFunc key c.world).1.2 = some e) :
    ∃ r c1, c.Get now key = some (r, c1) ∧
      c1.cache = c.cache ∧ c1.heap = c.heap ∧ c1.cache.lookup key = none ∧
      c1.Len = c.Len ∧ c1.goroutines = c.goroutines ∧ c1.calls = c.calls ++ [key] ∧
      ∃ r2 c2, c1.Get now1 key = some (r2, c2) ∧ c2.calls = c.calls ++ [key, key] := by
  refine ⟨_, _, Get_miss_error now hk hf, rfl, rfl, hk, rfl, rfl, rfl, ?_⟩
  cases h2 : ((c.updateKeyFunc key (c.updateKeyFunc key c.world).2).1.2) with
  | none =>
    exact ⟨_, _, Get_miss_ok (c := { c with
      world := (c.updateKeyFunc key c.world).2, calls := c.calls ++ [key] }) now1 hk h2,
      by simp⟩
  | some e2 =>
    exact ⟨_, _, Get_miss_error (c := { c with
      world := (c.updateKeyFunc key c.world).2, calls := c.calls ++ [key] }) now1 hk h2,
      by simp⟩

/-- Witness of C7: two calls of `Get("k")` on the empty cache whose loader fails. -/
theorem Get_miss_error_not_cached_witness :
    failingCache.cache.lookup "k" = none ∧
    ∃ r c1, failingCache.Get 0 "k" = some (r, c1) ∧
      c1.cache = failingCache.cache ∧ c1.heap = failingCache.heap ∧
      c1.cache.lookup "k" = none ∧
      c1.Len = failingCache.Len ∧ c1.goroutines = failingCache.goroutines ∧
      c1.calls = failingCache.calls ++ ["k"] ∧
      ∃ r2 c2, c1.Get 5 "k" = some (r2, c2) ∧ c2.calls = failingCache.calls ++ ["k", "k"] :=
  ⟨by decide,
   Get_miss_error_not_cached failingCache "k" "test" 0 5 (by decide) (by decide)⟩

/-! ## The claims on the refresh -/

/-- C8: refresh success. After `Add(key, v)` at clock `T`, a `Get(key)` at `T` returns
`(v, nil)` and changes nothing; a `Get(key)` at a clock `t1` with `t1 - T > lifeTime`
returns `(v, nil)` and spawns one refresh goroutine; when that goroutine runs at
clock `t2` with a loader that returns `(v1, nil)`, the entry of `key` holds the
value `v1`, born `t2` and state `ready`, no goroutine of the refresh is left, and a
`Get(key)` after that returns `(v1, nil)`. -/
theorem refresh_success (c c1 : Cache L V E) (key : String) (v v1 : Option V) (w : L)
    (T t1 t2 t3 : Int)
    (hadd : c.Add T key v = some c1)
    (hT : isInt64 T) (ht1 : isInt64 t1)
    (hs : (c.LifeTime : Int) < t1 - T)
    (hf : c1.updateKeyFunc key c1.world = ((v1, none), w)) :
    c1.Get T key = some ((v, none), c1) ∧
    ∃ p c2 c3 e3, c1.Get t1 key = some ((v, none), c2) ∧
      c2.goroutines = c1.goroutines ++ [(key, p)] ∧
      c2.runGoroutine c1.goroutines.length t2 = some c3 ∧
      c3.entryOf key = some e3 ∧ e3.Value = v1 ∧ e3.Born = t2 ∧ e3.State = ready ∧
      c3.goroutines = c1.goroutines ∧ c3.calls = c1.calls ++ [key] ∧
      ∃ c4, c3.Get t3 key = some ((v1, none), c4) := by
  obtain ⟨p, e1, hk, hp, hv, hb, hst, hL, -, -, -, -⟩ := Add_result hadd
  subst hv hb
  have hnone : (c1.updateKeyFunc key c1.world).1.2 = none := by rw [hf]
  obtain ⟨rfl, rfl⟩ : v1 = (c1.updateKeyFunc key c1.world).1.1 ∧
      w = (c1.updateKeyFunc key c1.world).2 := by rw [hf]; exact ⟨rfl, rfl⟩
  constructor
  · exact Get_hit_fresh (entryOf_eq_some.mpr ⟨p, hk, hp⟩) (by omega) (by omega)
  · have hstale : stale c1.LifeTime t1 e1.Born := stale_of_lt ht1 hT (by rw [hL]; exact hs)
    have hrun :
        ({ c1 with heap := c1.heap.set p { e1 with State := updating }
                   goroutines := c1.goroutines ++ [(key, p)] } : Cache L V E).runGoroutine
          c1.goroutines.length t2 =
        some { c1 with
          world := (c1.updateKeyFunc key c1.world).2
          calls := c1.calls ++ [key]
          heap := (c1.heap.set p { e1 with State := updating }).set p
            { e1 with Value := (c1.updateKeyFunc key c1.world).1.1, Born := t2, State := ready } } :=
      (runGoroutine_last _ c1.goroutines key p t2 rfl).trans
        ((refresh_ok (c := { c1 with heap := c1.heap.set p { e1 with State := updating } })
            t2 key p hnone).trans
          (Add_present (c := { c1 with
              heap := c1.heap.set p { e1 with State := updating }
              world := (c1.updateKeyFunc key c1.world).2
              calls := c1.calls ++ [key] })
            t2 _ (p := p) (e := { e1 with State := updating }) hk (heap_set_self _ hp)))
    have he3 : ({ c1 with
          world := (c1.updateKeyFunc key c1.world).2
          calls := c1.calls ++ [key]
          heap := (c1.heap.set p { e1 with State := updating }).set p
            { e1 with Value := (c1.updateKeyFunc key c1.world).1.1, Born := t2, State := ready } }
          : Cache L V E).entryOf key =
        some { e1 with Value := (c1.updateKeyFunc key c1.world).1.1, Born := t2, State := ready } :=
      entryOf_eq_some.mpr ⟨p, hk, heap_set_self _ (heap_set_self _ hp)⟩
    obtain ⟨c4, h4, -⟩ := Get_hit_returns_aux t3 he3
    exact ⟨p, _, _, _, Get_hit_launch hk hp hstale hst, rfl, hrun, he3, rfl, rfl, rfl, rfl, rfl,
      c4, h4⟩

/-- Witness of C8: the scenario of the specification and of `TestGet3`: lifetime
`1`, `"k"` added with the value `1` at clock `0`, a loader that returns `(2, nil)`;
the reads at the clocks `0`, `2` and `3` return `1`, `1` and `2`, the refresh
completing at clock `2`. -/
theorem refresh_success_witness :
    refreshingCache.Add 0 "k" (some 1) = some oneSecondCache ∧
    oneSecondCache.Get 0 "k" = some ((some 1, none), oneSecondCache) ∧
    ∃ p c2 c3 e3, oneSecondCache.Get 2 "k" = some ((some 1, none), c2) ∧
      c2.goroutines = oneSecondCache.goroutines ++ [("k", p)] ∧
      c2.runGoroutine oneSecondCache.goroutines.length 2 = some c3 ∧
      c3.entryOf "k" = some e3 ∧ e3.Value = some 2 ∧ e3.Born = 2 ∧ e3.State = ready ∧
      c3.goroutines = oneSecondCache.goroutines ∧ c3.calls = oneSecondCache.calls ++ ["k"] ∧
      ∃ c4, c3.Get 3 "k" = some ((some 2, none), c4) :=
  ⟨rfl,
   refresh_success refreshingCache oneSecondCache "k" (some 1) (some 2) () 0 2 2 3
     rfl (by decide) (by decide) (by decide) rfl⟩

/-- C9: refresh failure self-heal. For an entry in state `ready` that is stale at
clock `t1`, `Get(key)` returns the stale value and spawns the refresh goroutine;
when that goroutine runs (at any clock `t2`) and the loader fails, the map, the
heap and so the entry of `key` (value, born, state `ready`) are what they were
before the `Get`, no goroutine of the refresh is left, and the error is handed to
nobody: the step has no result, and the next `Get(key)`, at a clock `t3` at which
the entry is stale, returns the value with a nil error and spawns exactly one new
refresh goroutine, leaving the entry `updating`. -/
theorem refresh_failure_self_heal (c : Cache L V E) (key : String) (p : Nat) (e : entry V)
    (err : E) (t1 t2 t3 : Int)
    (hk : c.cache.lookup key = some p) (hp : c.heap[p]? = some e)
    (hb : isInt64 e.Born) (ht1 : isInt64 t1) (ht3 : isInt64 t3)
    (hs1 : (c.LifeTime : Int) < t1 - e.Born) (hs3 : (c.LifeTime : Int) < t3 - e.Born)
    (hr : e.State = ready)
    (hf : (c.updateKeyFunc key c.world).1.2 = some err) :
    ∃ c2 c3 c4, c.Get t1 key = some ((e.Value, none), c2) ∧
      c2.goroutines = c.goroutines ++ [(key, p)] ∧
      c2.runGoroutine c.goroutines.length t2 = some c3 ∧
      c3.cache = c.cache ∧ c3.heap = c.heap ∧ c3.entryOf key = some e ∧
      c3.goroutines = c.goroutines ∧ c3.calls = c.calls ++ [key] ∧
      c3.Get t3 key = some ((e.Value, none), c4) ∧
      c4.goroutines = c.goroutines ++ [(key, p)] ∧
      c4.entryOf key = some { e with State := updating } := by
  have hheap : (c.heap.set p { e with State := updating }).set p
      { ({ e with State := updating } : entry V) with State := ready } = c.heap := by
    rw [List.set_set]
    have he : ({ ({ e with State := updating } : entry V) with State := ready } : entry V) = e := by
      cases e
      simp only at hr
      subst hr
      rfl
    rw [he, heap_set_same hp]
  have hrun :
      ({ c with heap := c.heap.set p { e with State := updating }
                goroutines := c.goroutines ++ [(key, p)] } : Cache L V E).runGoroutine
        c.goroutines.length t2 =
      some { c with
        world := (c.updateKeyFunc key c.world).2
        calls := c.calls ++ [key]
        heap := (c.heap.set p { e with State := updating }).set p
          { ({ e with State := updating } : entry V) with State := ready } } :=
    (runGoroutine_last _ c.goroutines key p t2 rfl).trans
      (refresh_error (c := { c with heap := c.heap.set p { e with State := updating } })
        t2 key (e := { e with State := updating }) hf (heap_set_self _ hp))
  rw [hheap] at hrun
  have hget3 := Get_hit_launch
    (c := { c with world := (c.updateKeyFunc key c.world).2, calls := c.calls ++ [key] })
    hk hp (stale_of_lt ht3 hb hs3) hr
  exact ⟨_, _, _, Get_hit_launch hk hp (stale_of_lt ht1 hb hs1) hr, rfl, hrun, rfl, rfl,
    entryOf_eq_some.mpr ⟨p, hk, hp⟩, rfl, rfl, hget3, rfl,
    entryOf_eq_some.mpr ⟨p, hk, heap_set_self _ hp⟩⟩

/-- Witness of C9: lifetime `1`, `"k"` born at clock `0`, a loader that fails; the
stale reads at the clocks `2` and `4`, the failed refresh completing at clock `3`. -/
theorem refresh_failure_self_heal_witness :
    ∃ c2 c3 c4, failingRefreshCache.Get 2 "k" = some ((some 1, none), c2) ∧
      c2.goroutines = failingRefreshCache.goroutines ++ [("k", 0)] ∧
      c2.runGoroutine failingRefreshCache.goroutines.length 3 = some c3 ∧
      c3.cache = failingRefreshCache.cache ∧ c3.heap = failingRefreshCache.heap ∧
      c3.entryOf "k" = some { Key := "k", Born := 0, State := ready, Value := some 1 } ∧
      c3.goroutines = failingRefreshCache.goroutines ∧
      c3.calls = failingRefreshCache.calls ++ ["k"] ∧
      c3.Get 4 "k" = some ((some 1, none), c4) ∧
      c4.goroutines = failingRefreshCache.goroutines ++ [("k", 0)] ∧
      c4.entryOf "k" = some { Key := "k", Born := 0, State := updating, Value := some 1 } :=
  refresh_failure_self_heal failingRefreshCache "k" 0
    { Key := "k", Born := 0, State := ready, Value := some 1 } "test" 2 3 4
    (by decide) (by decide) (by decide) (by decide) (by decide) (by decide) (by decide)
    (by decide) (by decide)

/-- C3 as stated fails: from the empty cache of `NewCache(1, 0, "", f)` the run
`Add("k", 1)` at clock `0`, `Get("k")` at `2`, `Add("k", 1)` at `2`, `Get("k")` at `4`
ends with two refreshes of `"k"` in flight: the second `Add` puts the state back to
`ready` while the first refresh is pending, and the next stale `Get` wins the
compare-and-swap again. -/
theorem two_refreshes_in_flight :
    NewCache 1 0 "" refreshingCache.updateKeyFunc () noFile noEntries = some refreshingCache ∧
    refreshingCache.Len = 0 ∧
    (refreshingCache.exec disturbedRun).map (fun c => c.inflight "k") = some 2 :=
  ⟨rfl, by decide, by decide⟩

/-- The calls of `Get` alone reach two refreshes of one key in flight: from the
empty cache of `NewCache(1, 0, "", f)`, two calls miss `"k"`; the value of the first
is stored at clock `0` and a stale hit at clock `2` spawns a refresh; the `Add` of
line 133 of the second call then puts the state back to `ready`, and a stale hit
at clock `4` spawns a second refresh. -/
theorem two_refreshes_by_gets_alone :
    ((System.start refreshingCache).exec coldGetsRun).map (fun s => s.c.inflight "k") =
      some 2 := by
  decide

/-- C3, amended: in the state machine whose steps are `Add`, `Remove`, the steps
of the calls of `Get` (the lookup; on a hit the staleness test, the
compare-and-swap and the return; on a miss the return of the loader with its
`Add`) and the completion (success or failure) of a pending refresh, every state
reached from a newly constructed empty cache by a guarded run has, for every key,
at most one refresh in flight. A run is guarded when it does no `Add` of a key
that has a refresh in flight (be it a call of `Add` or the `Add` of a call of `Get`
that missed), and no `Remove` of a key that has a refresh in flight or a call of
`Get` standing between its lookup and its compare-and-swap. -/
theorem at_most_one_refresh_in_flight (lifeTime flushInterval : Nat) (flushFile : String)
    (f : UpdateKeyFunc L V E) (world : L) (ReadFile : String → Except E String)
    (Unmarshal : String → List (String × entry V) × Option E)
    (c0 : Cache L V E) (s : System L V E) (es : List (Event V)) (key : String)
    (hnew : NewCache lifeTime flushInterval flushFile f world ReadFile Unmarshal = some c0)
    (hempty : c0.Len = 0)
    (hadm : (System.start c0).admissible es = true)
    (hrun : (System.start c0).exec es = some s) :
    s.c.inflight key ≤ 1 :=
  inflight_le_one_of_pairwise s.c.goroutines key
    (SInv_exec
      (s := System.start c0)
      ⟨Inv_of_empty hempty (NewCache_goroutines hnew),
        fun _ _ _ hm => absurd hm (List.not_mem_nil _),
        fun _ _ hm => absurd hm (List.not_mem_nil _)⟩
      hadm hrun).1.2.2

/-- Witness of the amended C3: a guarded run with two calls of `Get` that miss, a
refresh that completes and a second refresh. -/
theorem at_most_one_refresh_in_flight_witness :
    NewCache 1 0 "" refreshingCache.updateKeyFunc () noFile noEntries = some refreshingCache ∧
    refreshingCache.Len = 0 ∧
    (System.start refreshingCache).admissible guardedEvents = true ∧
    ∃ s, (System.start refreshingCache).exec guardedEvents = some s ∧
      s.c.inflight "k" = 1 ∧ s.c.inflight "k" ≤ 1 :=
  ⟨rfl, by decide, by decide, _, rfl, by decide,
   at_most_one_refresh_in_flight 1 0 "" refreshingCache.updateKeyFunc () noFile noEntries
     refreshingCache _ guardedEvents "k" rfl (by decide) (by decide) rfl⟩

/-! ## The claim on `Add` -/

/-- C10 as stated fails: `Add` writes `Value`, `Born` and `State` of an entry that
exists and leaves its `Key` as it is (lines 89-91). The cache of
`NewCache(360, 0, "cache.data", f)` restored from a snapshot that holds under `"a"`
an entry whose `Key` is `"zzz"` maps `"a"`, after `Add("a", 7)` at clock `9`, to the
entry `{Key "zzz", Value 7, Born 9, State ready}`, not to `{Key "a", ...}`. -/
theorem Add_upsert_counterexample :
    (NewCache 360 0 "cache.data" failingCache.updateKeyFunc () (oneFile renamedSnapshot)
        renamedDecode).bind
      (fun c => (c.Add 9 "a" (some 7)).map (fun c1 => (c.entryOf "a", c1.entryOf "a"))) =
      some (some { Key := "zzz", Born := 0, State := ready, Value := some 1 },
            some { Key := "zzz", Born := 9, State := ready, Value := some 7 }) ∧
    (NewCache 360 0 "cache.data" failingCache.updateKeyFunc () (oneFile renamedSnapshot)
        renamedDecode).bind
      (fun c => (c.Add 9 "a" (some 7)).map (fun c1 => c1.entryOf "a")) ≠
      some (some { Key := "a", Born := 9, State := ready, Value := some 7 }) := by
  decide

/-- C10, amended: `Add` is an upsert on every store in which every key is mapped
to an allocated entry whose `Key` is that key (`WF_NewCache`, `WF_exec`: the store
of a new cache that restored nothing, or only entries that carry their key, and
every store that a run of `Add`, `Remove`, calls of `Get` and refreshes reaches
from it).
`Add(key, v)` at clock `t` succeeds and leaves `key` mapped to the entry
`{Key key, Value v, Born t, State ready}`, whether `key` was absent or present and
whatever the state of its entry was; the entry of every other key is unchanged;
`Len()` grows by one when `key` was absent and is unchanged when it was present. -/
theorem Add_upsert (c : Cache L V E) (key : String) (v : Option V) (t : Int) (hwf : c.WF) :
    ∃ c1, c.Add t key v = some c1 ∧
      c1.entryOf key = some { Key := key, Value := v, Born := t, State := ready } ∧
      (∀ k2, k2 ≠ key → c1.entryOf k2 = c.entryOf k2) ∧
      (key ∉ c.cache → c1.Len = c.Len + 1) ∧ (key ∈ c.cache → c1.Len = c.Len) := by
  cases hk : c.cache.lookup key with
  | none =>
    have hnot : key ∉ c.cache := AList.lookup_eq_none.mp hk
    refine ⟨_, Add_absent t v hk, ?_, ?_, ?_, ?_⟩
    · exact entryOf_eq_some.mpr ⟨c.heap.length, AList.lookup_insert _, by simp⟩
    · exact fun k2 hne => entryOf_alloc_ne hwf hne _
    · intro _
      show (AList.insert key c.heap.length c.cache).entries.length = c.cache.entries.length + 1
      rw [AList.insert_entries_of_neg hnot]
      rfl
    · exact fun h => absurd h hnot
  | some p =>
    obtain ⟨e, hp, hkey⟩ := WF_lookup.mp hwf key p hk
    have hin : key ∈ c.cache := by
      rw [← AList.lookup_isSome, hk]
      rfl
    refine ⟨_, Add_present t v hk hp, ?_, ?_, ?_, ?_⟩
    · refine entryOf_eq_some.mpr ⟨p, hk, ?_⟩
      rw [heap_set_self _ hp, hkey]
    · exact fun k2 hne => entryOf_set_ne hwf hk hne _
    · exact fun h => absurd hin h
    · exact fun _ => rfl

/-- Witness of the amended C10: `Add("k", 7)` at clock `9` on the cache of `TestGet3`, which
holds `"k"`. -/
theorem Add_upsert_witness :
    oneSecondCache.WF ∧
    ∃ c1, oneSecondCache.Add 9 "k" (some 7) = some c1 ∧
      c1.entryOf "k" = some { Key := "k", Value := some 7, Born := 9, State := ready } ∧
      (∀ k2, k2 ≠ "k" → c1.entryOf k2 = oneSecondCache.entryOf k2) ∧
      ("k" ∉ oneSecondCache.cache → c1.Len = oneSecondCache.Len + 1) ∧
      ("k" ∈ oneSecondCache.cache → c1.Len = oneSecondCache.Len) :=
  ⟨by decide, Add_upsert oneSecondCache "k" (some 7) 9 (by decide)⟩

/-! ## The claims on `Remove` -/

theorem Get_miss_calls {c : Cache L V E} (now : Int) {key : String}
    (hk : c.cache.lookup key = none) :
    ∃ r c1, c.Get now key = some (r, c1) ∧ c1.calls = c.calls ++ [key] := by
  cases h : (c.updateKeyFunc key c.world).1.2 with
  | none => exact ⟨_, _, Get_miss_ok now hk h, rfl⟩
  | some e => exact ⟨_, _, Get_miss_error now hk h, rfl⟩

theorem erase_length_of_mem {s : AList (fun _ : String => Nat)} {key : String}
    (h : key ∈ s) : (s.erase key).entries.length + 1 = s.entries.length := by
  have h1 : (s.erase key).keys.length + 1 = s.keys.length := by
    rw [AList.keys_erase, List.length_erase_of_mem (AList.mem_keys.mp h)]
    have : 0 < s.keys.length := List.length_pos_of_mem (AList.mem_keys.mp h)
    omega
  simpa [AList.keys, List.keys] using h1

theorem erase_of_not_mem {s : AList (fun _ : String => Nat)} {key : String}
    (h : key ∉ s) : s.erase key = s := by
  apply AList.ext
  exact List.kerase_of_not_mem_keys (fun hk => h (AList.mem_keys.mpr hk))

/-- C11: `Remove`. After `Remove(key)` the key is absent, so a following `Get(key)`
at any clock reading takes the miss path and invokes the loader; the entry of
every other key is unchanged; `Len()` is one less when `key` was present, and when
it was absent `Len()` and the whole state are unchanged. -/
theorem Remove_deletes (c : Cache L V E) (key : String) (now : Int) :
    (c.Remove key).cache.lookup key = none ∧ (c.Remove key).entryOf key = none ∧
    (∃ r c2, (c.Remove key).Get now key = some (r, c2) ∧ c2.calls = c.calls ++ [key]) ∧
    (∀ k2, k2 ≠ key → (c.Remove key).entryOf k2 = c.entryOf k2) ∧
    (key ∈ c.cache → (c.Remove key).Len + 1 = c.Len) ∧
    (key ∉ c.cache → (c.Remove key).Len = c.Len ∧ c.Remove key = c) := by
  have hk : (c.Remove key).cache.lookup key = none := AList.lookup_erase key c.cache
  refine ⟨hk, entryOf_absent hk, Get_miss_calls now hk, ?_, ?_, ?_⟩
  · intro k2 hne
    unfold Cache.entryOf Cache.Remove
    simp only [AList.lookup_erase_ne hne]
  · exact fun h => erase_length_of_mem h
  · intro h
    have he : c.Remove key = c := by
      unfold Cache.Remove
      rw [erase_of_not_mem h]
    exact ⟨by rw [he], he⟩

/-- C18: resurrection after `Remove`. If a refresh goroutine of `key` is pending,
`Remove(key)` is applied, and the goroutine then runs at clock `t` with a loader
that returns `(v1, nil)`, the store, which did not hold `key` after the `Remove`,
holds it again with value `v1`, born `t` and state `ready`, and `Len()` is one
more than just after the `Remove`. -/
theorem Remove_then_refresh_resurrects (c : Cache L V E) (key : String) (p i : Nat)
    (v1 : Option V) (w : L) (t : Int)
    (hg : c.goroutines[i]? = some (key, p))
    (hf : c.updateKeyFunc key c.world = ((v1, none), w)) :
    (c.Remove key).entryOf key = none ∧
    ∃ c2, (c.Remove key).runGoroutine i t = some c2 ∧
      c2.entryOf key = some { Key := key, Born := t, State := ready, Value := v1 } ∧
      c2.Len = (c.Remove key).Len + 1 ∧
      c2.goroutines = c.goroutines.eraseIdx i := by
  have hk : (c.Remove key).cache.lookup key = none := AList.lookup_erase key c.cache
  have hnot : key ∉ c.cache.erase key := AList.lookup_eq_none.mp hk
  have hnone : (c.updateKeyFunc key c.world).1.2 = none := by rw [hf]
  have hv : (c.updateKeyFunc key c.world).1.1 = v1 := by rw [hf]
  have hrun : (c.Remove key).runGoroutine i t =
      some { c with
        goroutines := c.goroutines.eraseIdx i
        world := (c.updateKeyFunc key c.world).2
        calls := c.calls ++ [key]
        cache := (c.cache.erase key).insert key c.heap.length
        heap := c.heap ++ [{ Key := key, Value := (c.updateKeyFunc key c.world).1.1,
                             Born := t, State := ready }] } := by
    unfold Cache.runGoroutine
    have hg1 : (c.Remove key).goroutines[i]? = some (key, p) := hg
    rw [hg1]
    exact (refresh_ok (c := { c.Remove key with goroutines := c.goroutines.eraseIdx i })
        t key p hnone).trans
      (Add_absent (c := { c.Remove key with
          goroutines := c.goroutines.eraseIdx i
          world := (c.updateKeyFunc key c.world).2
          calls := c.calls ++ [key] }) t _ hk)
  refine ⟨entryOf_absent hk, _, hrun, ?_, ?_, rfl⟩
  · rw [← hv]
    exact entryOf_eq_some.mpr ⟨c.heap.length, AList.lookup_insert _, by simp⟩
  · show (AList.insert key c.heap.length (c.cache.erase key)).entries.length =
      (c.cache.erase key).entries.length + 1
    rw [AList.insert_entries_of_neg hnot]
    rfl

/-- Witness of C18: the pending refresh of `"k"`, `Remove("k")`, and the goroutine
run at clock `3` with a loader that returns `(2, nil)`. -/
theorem Remove_then_refresh_resurrects_witness :
    refreshPendingCache.goroutines[0]? = some ("k", 0) ∧
    (refreshPendingCache.Remove "k").entryOf "k" = none ∧
    ∃ c2, (refreshPendingCache.Remove "k").runGoroutine 0 3 = some c2 ∧
      c2.entryOf "k" = some { Key := "k", Born := 3, State := ready, Value := some 2 } ∧
      c2.Len = (refreshPendingCache.Remove "k").Len + 1 ∧
      c2.goroutines = refreshPendingCache.goroutines.eraseIdx 0 :=
  ⟨by decide,
   Remove_then_refresh_resurrects refreshPendingCache "k" 0 0 (some 2) () 3 (by decide) rfl⟩

/-! ## The claims on `NewCache` -/

theorem int64_of_lt {x : Nat} (h : x < 2 ^ 63) : int64 ((x % 2 ^ 64 : Nat) : Int) = x := by
  unfold int64
  omega

theorem load_ticker (c : Cache L V E) (ReadFile : String → Except E String)
    (Unmarshal : String → List (String × entry V) × Option E) :
    (c.load ReadFile Unmarshal).1.ticker = c.ticker := by
  have hfold : ∀ (l : List (String × entry V)) (c : Cache L V E),
      (l.foldl (fun c kv =>
        ({ c with cache := c.cache.insert kv.1 c.heap.length, heap := c.heap ++ [kv.2] }
          : Cache L V E)) c).ticker = c.ticker := by
    intro l
    induction l with
    | nil => intro c; rfl
    | cons kv l ih => intro c; rw [List.foldl_cons, ih]
  unfold Cache.load
  cases ReadFile c.flushFile with
  | error err => rfl
  | ok buf => exact hfold _ c

/-- What `NewCache` returns when the product of line 68 does not overflow the
signed 64-bit range: the cache after the `load` of line 65, with the ticker
started when a flush file and a positive interval are given. -/
theorem NewCache_of_no_overflow (lifeTime flushInterval : Nat) (flushFile : String)
    (f : UpdateKeyFunc L V E) (world : L) (ReadFile : String → Except E String)
    (Unmarshal : String → List (String × entry V) × Option E)
    (hfile : flushFile ≠ "") (hmax : flushInterval ≤ 9223372036) :
    ∃ tk, NewCache lifeTime flushInterval flushFile f world ReadFile Unmarshal =
        some { ((initial lifeTime flushInterval flushFile f world).load ReadFile Unmarshal).1
               with ticker := tk } ∧
      (0 < flushInterval → tk = some ((flushInterval : Int) * 1000000000)) := by
  have hd : int64 ((flushInterval * 1000 * 1000 * 1000 % 2 ^ 64 : Nat) : Int)
      = ((flushInterval * 1000 * 1000 * 1000 : Nat) : Int) :=
    int64_of_lt (by omega)
  unfold NewCache
  simp only [hfile, ne_eq, not_false_eq_true, if_true, true_and, hd]
  by_cases hpos : flushInterval > 0
  · have hnot : ¬ (((flushInterval * 1000 * 1000 * 1000 : Nat) : Int) ≤ 0) := by
      push_cast
      omega
    simp only [hpos, if_true, hnot, if_false]
    refine ⟨_, rfl, fun _ => ?_⟩
    simp only [Option.some.injEq]
    push_cast
    ring
  · simp only [hpos, if_false]
    refine ⟨none, ?_, fun h => h.elim⟩
    have ht := load_ticker (initial lifeTime flushInterval flushFile f world) ReadFile Unmarshal
    show some ((initial lifeTime flushInterval flushFile f world).load ReadFile Unmarshal).1 = _
    generalize ((initial lifeTime flushInterval flushFile f world).load ReadFile Unmarshal).1
      = c0 at ht ⊢
    cases c0
    simp only [initial] at ht
    subst ht
    rfl

/-- C19 as stated fails: with the flush file `"cache.data"`, the interval
`9223372037` makes the product of line 68 exceed the signed 64-bit range, the
period is negative and `time.NewTicker` faults, so `NewCache` returns nothing; the
interval `18446744074` makes the `uint64` product wrap, and the ticker runs with a
period of `290448384` nanoseconds. -/
theorem ticker_period_counterexample :
    (NewCache 360 9223372037 "cache.data" failingCache.updateKeyFunc () noFile noEntries).isNone
      = true ∧
    (NewCache 360 18446744074 "cache.data" failingCache.updateKeyFunc () noFile noEntries).map
      (fun c => c.ticker) = some (some 290448384) ∧
    (290448384 : Int) ≠ 18446744074 * 10 ^ 9 := by
  decide

/-- C19, amended: for every flush interval with `0 < flushInterval ≤ 9223372036`
(the intervals whose count of nanoseconds is in the signed 64-bit range) given
with a non-empty flush file, `NewCache` returns a cache whose ticker period is
`flushInterval * 10^9` nanoseconds, which is strictly positive. -/
theorem ticker_period (lifeTime flushInterval : Nat) (flushFile : String)
    (f : UpdateKeyFunc L V E) (world : L) (ReadFile : String → Except E String)
    (Unmarshal : String → List (String × entry V) × Option E)
    (hfile : flushFile ≠ "") (hpos : 0 < flushInterval) (hmax : flushInterval ≤ 9223372036) :
    ∃ c, NewCache lifeTime flushInterval flushFile f world ReadFile Unmarshal = some c ∧
      c.ticker = some ((flushInterval : Int) * 10 ^ 9) ∧
      (0 : Int) < (flushInterval : Int) * 10 ^ 9 := by
  obtain ⟨tk, hc, ht⟩ := NewCache_of_no_overflow lifeTime flushInterval flushFile f world
    ReadFile Unmarshal hfile hmax
  refine ⟨_, hc, ?_, by positivity⟩
  show tk = _
  rw [ht hpos]
  norm_num

/-- Witness of the amended C19: the second cache of `TestFlush`,
`NewCache(360, 10, "cache.data", f)`. -/
theorem ticker_period_witness :
    ∃ c, NewCache 360 10 "cache.data" failingCache.updateKeyFunc () noFile noEntries = some c ∧
      c.ticker = some (((10 : Nat) : Int) * 10 ^ 9) ∧ (0 : Int) < ((10 : Nat) : Int) * 10 ^ 9 :=
  ticker_period 360 10 "cache.data" failingCache.updateKeyFunc () noFile noEntries
    (by decide) (by decide) (by decide)

theorem load_read_error (c : Cache L V E) {ReadFile : String → Except E String}
    (Unmarshal : String → List (String × entry V) × Option E) {err : E}
    (h : ReadFile c.flushFile = .error err) : c.load ReadFile Unmarshal = (c, some err) := by
  unfold Cache.load
  rw [h]

theorem load_nothing_stored (c : Cache L V E) {ReadFile : String → Except E String}
    {Unmarshal : String → List (String × entry V) × Option E} {buf : String} {err : Option E}
    (h : ReadFile c.flushFile = .ok buf) (hu : Unmarshal buf = ([], err)) :
    c.load ReadFile Unmarshal = (c, err) := by
  unfold Cache.load
  rw [h]
  simp only [hu, List.foldl_nil]

/-- C13 as stated fails twice. With the snapshot target `"cache.data"` holding
`brokenSnapshot`, the decoding fails (`load` returns the error) and yet the cache
`NewCache` returns holds the two entries stored before the error was returned:
`Len()` is `2` and `"a"` is a hit. And with a snapshot that cannot be read and the
flush interval `9223372037`, `NewCache` returns no cache: the ticker period
overflows and `time.NewTicker` faults. -/
theorem NewCache_restore_failure_counterexample :
    (((initial 360 0 "cache.data" failingCache.updateKeyFunc ()).load
        (oneFile brokenSnapshot) partialDecode).2).isSome = true ∧
    (NewCache 360 0 "cache.data" failingCache.updateKeyFunc () (oneFile brokenSnapshot)
        partialDecode).map (fun c => (c.Len, (c.entryOf "a").map (fun e => e.Value)))
      = some (2, some (some 1)) ∧
    (((initial 360 9223372037 "cache.data" failingCache.updateKeyFunc ()).load
        noFile noEntries).2).isSome = true ∧
    (NewCache 360 9223372037 "cache.data" failingCache.updateKeyFunc () noFile noEntries).isNone
      = true := by
  decide

/-- C13, amended: for every non-empty snapshot target and every flush interval of
at most `9223372036` seconds, if reading the snapshot fails, or its content fails
to decode and the decoder has stored no entry, `NewCache` returns a cache, and
that cache starts with an empty store: `Len()` is `0` and `Get` of any key at any
clock reading takes the miss path and invokes the loader. -/
theorem NewCache_restore_failure (lifeTime flushInterval : Nat) (flushFile : String)
    (f : UpdateKeyFunc L V E) (world : L) (ReadFile : String → Except E String)
    (Unmarshal : String → List (String × entry V) × Option E) (key : String) (now : Int)
    (hfile : flushFile ≠ "") (hmax : flushInterval ≤ 9223372036)
    (hfail : (∃ err, ReadFile flushFile = .error err) ∨
      (∃ buf err, ReadFile flushFile = .ok buf ∧ Unmarshal buf = ([], some err))) :
    ((initial lifeTime flushInterval flushFile f world).load ReadFile Unmarshal).2 ≠ none ∧
    ∃ c, NewCache lifeTime flushInterval flushFile f world ReadFile Unmarshal = some c ∧
      c.Len = 0 ∧ c.cache.lookup key = none ∧
      ∃ r c2, c.Get now key = some (r, c2) ∧ c2.calls = [key] := by
  obtain ⟨tk, hc, -⟩ := NewCache_of_no_overflow lifeTime flushInterval flushFile f world
    ReadFile Unmarshal hfile hmax
  have hload : ∃ err, (initial lifeTime flushInterval flushFile f world).load ReadFile Unmarshal
      = (initial lifeTime flushInterval flushFile f world, some err) := by
    rcases hfail with ⟨err, h⟩ | ⟨buf, err, h, hu⟩
    · exact ⟨err, load_read_error _ Unmarshal h⟩
    · exact ⟨err, load_nothing_stored _ h hu⟩
  obtain ⟨err, hl⟩ := hload
  rw [hl] at hc
  refine ⟨by rw [hl]; simp, _, hc, rfl, rfl, ?_⟩
  exact Get_miss_calls now (AList.lookup_empty key)

/-- Witness of the amended C13: `NewCache(360, 10, "cache.data", f)` where the file
cannot be read. -/
theorem NewCache_restore_failure_witness :
    (∃ err, noFile "cache.data" = .error err) ∧
    ((initial 360 10 "cache.data" failingCache.updateKeyFunc ()).load noFile noEntries).2
      ≠ none ∧
    ∃ c, NewCache 360 10 "cache.data" failingCache.updateKeyFunc () noFile noEntries = some c ∧
      c.Len = 0 ∧ c.cache.lookup "k" = none ∧
      ∃ r c2, c.Get 0 "k" = some (r, c2) ∧ c2.calls = ["k"] :=
  ⟨⟨_, rfl⟩,
   NewCache_restore_failure 360 10 "cache.data" failingCache.updateKeyFunc () noFile noEntries
     "k" 0 (by decide) (by decide) (Or.inl ⟨_, rfl⟩)⟩

/-! ## The claim on `flush` and `load` -/

theorem foldl_store (l : List (String × entry V)) (c : Cache L V E) :
    l.foldl (fun c kv =>
      ({ c with cache := c.cache.insert kv.1 c.heap.length, heap := c.heap ++ [kv.2] }
        : Cache L V E)) c =
    { c with cache := storeAll c.cache c.heap.length l, heap := c.heap ++ l.map Prod.snd } := by
  induction l generalizing c with
  | nil => simp [storeAll]
  | cons x l ih =>
    rw [List.foldl_cons, ih]
    simp [storeAll, List.append_assoc]

theorem lookup_storeAll_of_not_mem (l : List (String × entry V))
    (m : AList (fun _ : String => Nat)) (n : Nat) {key : String}
    (h : key ∉ l.map Prod.fst) : (storeAll m n l).lookup key = m.lookup key := by
  induction l generalizing m n with
  | nil => rfl
  | cons x l ih =>
    simp only [List.map_cons, List.mem_cons, not_or] at h
    rw [storeAll, ih _ _ h.2, AList.lookup_insert_ne h.1]

theorem lookup_storeAll (l : List (String × entry V))
    (m : AList (fun _ : String => Nat)) (n i : Nat) {x : String × entry V}
    (hnd : (l.map Prod.fst).Nodup) (hi : l[i]? = some x) :
    (storeAll m n l).lookup x.1 = some (n + i) := by
  induction l generalizing m n i with
  | nil => simp at hi
  | cons y l ih =>
    rw [List.map_cons, List.nodup_cons] at hnd
    cases i with
    | zero =>
      simp only [List.getElem?_cons_zero, Option.some.injEq] at hi
      subst hi
      rw [storeAll, lookup_storeAll_of_not_mem l _ _ hnd.1, AList.lookup_insert]
      rfl
    | succ j =>
      simp only [List.getElem?_cons_succ] at hi
      rw [storeAll, ih _ _ _ hnd.2 hi]
      congr 1
      omega

theorem length_storeAll (l : List (String × entry V))
    (m : AList (fun _ : String => Nat)) (n : Nat)
    (hnd : (l.map Prod.fst).Nodup) (hdis : ∀ key ∈ l.map Prod.fst, key ∉ m) :
    (storeAll m n l).entries.length = m.entries.length + l.length := by
  induction l generalizing m n with
  | nil => rfl
  | cons y l ih =>
    rw [List.map_cons, List.nodup_cons] at hnd
    have hy : y.1 ∉ m := hdis y.1 (by simp)
    rw [storeAll, ih _ _ hnd.2, AList.insert_entries_of_neg hy]
    · simp only [List.length_cons]
      omega
    · intro key hkey hmem
      rw [AList.mem_insert] at hmem
      rcases hmem with rfl | hmem
      · exact hnd.1 hkey
      · exact hdis key (by simp [hkey]) hmem

theorem contents_keys {c : Cache L V E} (h : c.Allocated) :
    c.contents.map Prod.fst = c.cache.keys := by
  unfold Cache.contents Cache.Allocated AList.keys List.keys at *
  generalize c.cache.entries = es at h ⊢
  induction es with
  | nil => rfl
  | cons x es ih =>
    have hx := h x (by simp)
    obtain ⟨e, he⟩ := Option.isSome_iff_exists.mp hx
    have ih1 := ih (fun y hy => h y (by simp [hy]))
    simp only [List.filterMap_cons, he, Option.map_some', List.map_cons, ih1]

theorem snapshot_eq_contents {c : Cache L V E} (h : c.Allocated) :
    c.snapshot = c.contents.map (fun x => (x.1, some x.2)) := by
  unfold Cache.contents Cache.snapshot Cache.Allocated at *
  generalize c.cache.entries = es at h ⊢
  induction es with
  | nil => rfl
  | cons x es ih =>
    have hx := h x (by simp)
    obtain ⟨e, he⟩ := Option.isSome_iff_exists.mp hx
    have ih1 := ih (fun y hy => h y (by simp [hy]))
    simp only [List.filterMap_cons, he, Option.map_some', List.map_cons, ih1]

theorem contents_of_entryOf {c : Cache L V E} {key : String} {e : entry V}
    (h : c.entryOf key = some e) : (key, e) ∈ c.contents := by
  obtain ⟨p, hk, hp⟩ := entryOf_eq_some.mp h
  have hm : (⟨key, p⟩ : Sigma (fun _ : String => Nat)) ∈ c.cache.entries :=
    AList.mem_lookup_iff.mp hk
  unfold Cache.contents
  rw [List.mem_filterMap]
  exact ⟨_, hm, by simp [hp]⟩

theorem not_mem_contents_of_entryOf {c : Cache L V E} (ha : c.Allocated) {key : String}
    (h : c.entryOf key = none) : key ∉ c.contents.map Prod.fst := by
  rw [contents_keys ha]
  intro hmem
  have hin : key ∈ c.cache := AList.mem_keys.mpr hmem
  obtain ⟨p, hp⟩ := Option.isSome_iff_exists.mp (AList.lookup_isSome.mpr hin)
  have hm : (⟨key, p⟩ : Sigma (fun _ : String => Nat)) ∈ c.cache.entries :=
    AList.mem_lookup_iff.mp hp
  obtain ⟨e, he⟩ := Option.isSome_iff_exists.mp (ha _ hm)
  have := entryOf_eq_some.mpr ⟨p, hp, he⟩
  rw [h] at this
  cases this

theorem NewCache_loaded {lifeTime flushInterval : Nat} {flushFile : String}
    {f : UpdateKeyFunc L V E} {world : L} {ReadFile : String → Except E String}
    {Unmarshal : String → List (String × entry V) × Option E} {c2 : Cache L V E}
    (hfile : flushFile ≠ "")
    (h : NewCache lifeTime flushInterval flushFile f world ReadFile Unmarshal = some c2) :
    ∃ tk, c2 = { ((initial lifeTime flushInterval flushFile f world).load ReadFile Unmarshal).1
                 with ticker := tk } := by
  unfold NewCache at h
  simp only [hfile, ne_eq, not_false_eq_true, if_true, true_and] at h
  split_ifs at h
  · cases h
    exact ⟨_, rfl⟩
  · cases h
    exact ⟨_, rfl⟩

theorem load_decoded (c : Cache L V E) {ReadFile : String → Except E String}
    {Unmarshal : String → List (String × entry V) × Option E} {buf : String}
    {l : List (String × entry V)} {err : Option E}
    (h : ReadFile c.flushFile = .ok buf) (hu : Unmarshal buf = (l, err)) :
    c.load ReadFile Unmarshal =
      ({ c with cache := storeAll c.cache c.heap.length l, heap := c.heap ++ l.map Prod.snd },
        err) := by
  unfold Cache.load
  rw [h]
  simp only [hu, foldl_store]

theorem allocated_of_round {c : Cache L V E} {l : List (String × entry V)}
    (h : (l.map (fun x => (x.1, some x.2))).Perm c.snapshot) : c.Allocated := by
  intro x hx
  have hm : (x.1, c.heap[x.2]?) ∈ c.snapshot := by
    unfold Cache.snapshot
    exact List.mem_map.mpr ⟨x, hx, rfl⟩
  rw [← h.mem_iff, List.mem_map] at hm
  obtain ⟨y, -, hy⟩ := hm
  simp only [Prod.mk.injEq] at hy
  rw [← hy.2]
  rfl

theorem contents_of_round {c : Cache L V E} {l : List (String × entry V)}
    (h : (l.map (fun x => (x.1, some x.2))).Perm c.snapshot) : l.Perm c.contents := by
  have ha := allocated_of_round h
  rw [snapshot_eq_contents ha] at h
  have hf : ∀ l1 : List (String × entry V),
      (l1.map (fun x => (x.1, some x.2))).filterMap
        (fun y : String × Option (entry V) => y.2.map (fun e => (y.1, e))) = l1 := by
    intro l1
    induction l1 with
    | nil => rfl
    | cons x l1 ih => simp [List.filterMap_cons, ih]
  have h2 := h.filterMap (fun y : String × Option (entry V) => y.2.map (fun e => (y.1, e)))
  rw [hf, hf] at h2
  exact h2

/-- C12: persistence round trip. Let a cache be flushed with success, the file
then read as the content that was written, and the codec round-trip the store:
unmarshalling the content that `flush` has marshalled from the map gives, with no
error and in whatever order, the keys of the map each with the entry its pointer
holds (so every pointer of the flushed map holds an entry; a nil pointer, which
only a JSON `null` of an earlier restore puts into the map, is not covered). A
cache that `NewCache` then constructs on the same flush file holds
exactly the entries of the flushed cache: the same `Len()` and for every key the
same entry, `Value`, `Born` and `State` included (a state `updating` stays
`updating`); hence, for every key whose entry is within the lifetime at the clock
reading of a `Get` (`0 ≤ now - born ≤ lifeTime`), that `Get` on the restored cache
returns the value with a nil error and leaves the state as it is (no loader call,
no goroutine). -/
theorem flush_then_restore (c c2 : Cache L V E)
    (Marshal : List (String × Option (entry V)) → Except E String)
    (WriteFile : (String → Except E String) → String → String →
      (String → Except E String) × Option E)
    (Unmarshal : String → List (String × entry V) × Option E)
    (fs fs1 : String → Except E String) (buf : String) (l : List (String × entry V))
    (lifeTime flushInterval : Nat) (f : UpdateKeyFunc L V E) (world : L)
    (hfile : c.flushFile ≠ "")
    (hm : Marshal c.snapshot = .ok buf)
    (hflush : c.flush Marshal WriteFile fs = (fs1, none))
    (hwrite : WriteFile fs c.flushFile buf = (fs1, none) → fs1 c.flushFile = .ok buf)
    (hdec : Unmarshal buf = (l, none))
    (hround : (l.map (fun x => (x.1, some x.2))).Perm c.snapshot)
    (hnew : NewCache lifeTime flushInterval c.flushFile f world fs1 Unmarshal = some c2) :
    c2.Len = c.Len ∧ (∀ key, c2.entryOf key = c.entryOf key) ∧
    c2.goroutines = [] ∧ c2.calls = [] ∧
    (∀ key e now, c.entryOf key = some e → 0 ≤ now - e.Born →
      now - e.Born ≤ (lifeTime : Int) → c2.Get now key = some ((e.Value, none), c2)) := by
  have halloc := allocated_of_round hround
  have hperm := contents_of_round hround
  have hread : fs1 c.flushFile = .ok buf := by
    apply hwrite
    unfold Cache.flush at hflush
    rw [hm] at hflush
    exact hflush
  obtain ⟨tk, rfl⟩ := NewCache_loaded hfile hnew
  have hload := load_decoded (initial lifeTime flushInterval c.flushFile f world)
    hread hdec
  rw [hload]
  have hnd : (l.map Prod.fst).Nodup := by
    rw [(hperm.map Prod.fst).nodup_iff, contents_keys halloc]
    exact c.cache.keys_nodup
  have hent : ∀ key, ({ ({ initial lifeTime flushInterval c.flushFile f world with
        cache := storeAll (initial lifeTime flushInterval c.flushFile f world).cache
          (initial lifeTime flushInterval c.flushFile f world).heap.length l
        heap := (initial lifeTime flushInterval c.flushFile f world).heap ++
          l.map Prod.snd } : Cache L V E) with ticker := tk } : Cache L V E).entryOf key
      = c.entryOf key := by
    intro key
    cases h : c.entryOf key with
    | none =>
      apply entryOf_absent
      show (storeAll ∅ 0 l).lookup key = none
      have hnot : key ∉ l.map Prod.fst := by
        rw [(hperm.map Prod.fst).mem_iff]
        exact not_mem_contents_of_entryOf halloc h
      rw [lookup_storeAll_of_not_mem _ _ _ hnot]
      exact AList.lookup_empty key
    | some e =>
      obtain ⟨i, hi⟩ := List.getElem?_of_mem (hperm.mem_iff.mpr (contents_of_entryOf h))
      refine entryOf_eq_some.mpr ⟨0 + i, ?_, ?_⟩
      · exact lookup_storeAll l ∅ 0 i hnd hi
      · show (([] : List (entry V)) ++ l.map Prod.snd)[0 + i]? = some e
        simp [List.getElem?_map, hi]
  refine ⟨?_, hent, rfl, rfl, ?_⟩
  · show (storeAll ∅ 0 l).entries.length = c.cache.entries.length
    rw [length_storeAll _ _ _ hnd (fun key _ => AList.not_mem_empty key)]
    have h1 : c.contents.length = c.cache.keys.length := by
      rw [← contents_keys halloc, List.length_map]
    have h2 : c.cache.keys.length = c.cache.entries.length := by
      simp [AList.keys, List.keys]
    have h3 := hperm.length_eq
    simp only [AList.empty_entries, List.length_nil]
    omega
  · intro key e now he h0 h1
    exact Get_hit_fresh ((hent key).trans he) h0 h1

/-- Witness of C12: the scenario of `TestFlush` run with the text codec: the cache
holding `"2"` and `"1"` is flushed to `"cache.data"`, whose content lists `"1"`
before `"2"`, and `NewCache(360, 10, "cache.data", f)` restores it; a `Get` within
the lifetime returns the value that was added. -/
theorem flush_then_restore_witness :
    textEncode flushedCache.snapshot = "1,1,0,0,2\n2,2,0,0,23\n" ∧
    flushedCache.flush textMarshal writeOk noFile =
      (fun n => if n = "cache.data" then .ok (textEncode flushedCache.snapshot) else noFile n,
        none) ∧
    textUnmarshal (textEncode flushedCache.snapshot) =
      ([("1", { Key := "1", Born := 0, State := ready, Value := some 2 }),
        ("2", { Key := "2", Born := 0, State := ready, Value := some 23 })], none) ∧
    ∃ c2, NewCache 360 10 "cache.data" flushedCache.updateKeyFunc ()
        (fun n => if n = "cache.data" then .ok (textEncode flushedCache.snapshot) else noFile n)
        textUnmarshal = some c2 ∧
      c2.Len = flushedCache.Len ∧ (∀ key, c2.entryOf key = flushedCache.entryOf key) ∧
      c2.goroutines = [] ∧ c2.calls = [] ∧
      (∀ key e now, flushedCache.entryOf key = some e → 0 ≤ now - e.Born →
        now - e.Born ≤ ((360 : Nat) : Int) → c2.Get now key = some ((e.Value, none), c2)) :=
  ⟨by decide, rfl, by decide, _, rfl,
   flush_then_restore flushedCache _ textMarshal writeOk textUnmarshal noFile
     (fun n => if n = "cache.data" then .ok (textEncode flushedCache.snapshot) else noFile n)
     (textEncode flushedCache.snapshot)
     [("1", { Key := "1", Born := 0, State := ready, Value := some 2 }),
      ("2", { Key := "2", Born := 0, State := ready, Value := some 23 })]
     360 10 flushedCache.updateKeyFunc () (by decide) rfl rfl (fun _ => rfl) (by decide)
     (by decide) rfl⟩

end ttlCache2

namespace lru

variable {K V W : Type} [DecidableEq K]

/-! ## The consistency of the list and the map -/

theorem lru_WF_iff (c : Cache K V W) : c.WF ↔ Consistent c.ll c.cache c.elems := by
  unfold Cache.WF Consistent Cache.keyOf
  constructor
  · rintro ⟨h1, h2, h3, h4⟩
    refine ⟨h1, ?_, ?_, h4⟩
    · intro e he
      have := h2 e he
      cases hkv : c.elems[e]? with
      | none => simp [hkv] at this
      | some kv => exact ⟨kv, rfl, by simpa [hkv] using this⟩
    · intro key e hk
      have hm : (⟨key, e⟩ : Sigma (fun _ : K => Nat)) ∈ c.cache.entries :=
        AList.mem_lookup_iff.mp hk
      obtain ⟨hin, hkey⟩ := h3 _ hm
      refine ⟨hin, ?_⟩
      cases hkv : c.elems[e]? with
      | none => simp [hkv] at hkey
      | some kv => exact ⟨kv, rfl, by simpa [hkv] using hkey⟩
  · rintro ⟨h1, h2, h3, h4⟩
    refine ⟨h1, ?_, ?_, h4⟩
    · intro e he
      obtain ⟨kv, hkv, hl⟩ := h2 e he
      simp [hkv, hl]
    · intro x hx
      obtain ⟨key, e⟩ := x
      obtain ⟨hin, kv, hkv, hkey⟩ := h3 key e (AList.mem_lookup_iff.mpr hx)
      exact ⟨hin, by simp [hkv, hkey]⟩

theorem lru_erase_length {m : AList (fun _ : K => Nat)} {key : K} (h : key ∈ m) :
    (m.erase key).entries.length + 1 = m.entries.length := by
  have h1 : (m.erase key).keys.length + 1 = m.keys.length := by
    rw [AList.keys_erase, List.length_erase_of_mem (AList.mem_keys.mp h)]
    have : 0 < m.keys.length := List.length_pos_of_mem (AList.mem_keys.mp h)
    omega
  simpa [AList.keys, List.keys] using h1

/-- Moving an element of the list to its front keeps the consistency. -/
theorem lru_consistent_touch {ll : List Nat} {m : AList (fun _ : K => Nat)}
    {el : List (entry K V)} (h : Consistent ll m el) {e : Nat} (he : e ∈ ll) :
    Consistent (e :: ll.erase e) m el := by
  obtain ⟨h1, h2, h3, h4⟩ := h
  have hmem : ∀ x, x ∈ e :: ll.erase e ↔ x ∈ ll := by
    intro x
    rw [List.mem_cons, h1.mem_erase_iff]
    constructor
    · rintro (rfl | ⟨_, hx⟩)
      · exact he
      · exact hx
    · intro hx
      by_cases hxe : x = e
      · exact Or.inl hxe
      · exact Or.inr ⟨hxe, hx⟩
  refine ⟨List.nodup_cons.mpr ⟨h1.not_mem_erase, h1.erase e⟩, ?_, ?_, ?_⟩
  · exact fun x hx => h2 x ((hmem x).mp hx)
  · intro key x hk
    obtain ⟨hx, hrest⟩ := h3 key x hk
    exact ⟨(hmem x).mpr hx, hrest⟩
  · rw [List.length_cons, List.length_erase_of_mem he, ← h4]
    have : 0 < ll.length := List.length_pos_of_mem he
    omega

/-- Writing the value of a cell keeps the consistency. -/
theorem lru_consistent_set {ll : List Nat} {m : AList (fun _ : K => Nat)}
    {el : List (entry K V)} (h : Consistent ll m el) {e0 : Nat} {kv0 : entry K V}
    (h0 : el[e0]? = some kv0) (v : Option V) :
    Consistent ll m (el.set e0 { kv0 with value := v }) := by
  obtain ⟨h1, h2, h3, h4⟩ := h
  have hlt : e0 < el.length := (List.getElem?_eq_some.mp h0).1
  have hcell : ∀ (e : Nat) (kv : entry K V), el[e]? = some kv →
      ∃ kv1 : entry K V,
        (el.set e0 { kv0 with value := v })[e]? = some kv1 ∧ kv1.key = kv.key := by
    intro e kv hkv
    by_cases hee : e0 = e
    · subst hee
      rw [h0] at hkv
      cases hkv
      exact ⟨_, List.getElem?_set_self hlt, rfl⟩
    · exact ⟨kv, (List.getElem?_set_ne hee).trans hkv, rfl⟩
  refine ⟨h1, ?_, ?_, h4⟩
  · intro e he
    obtain ⟨kv, hkv, hl⟩ := h2 e he
    obtain ⟨kv1, hkv1, hkey⟩ := hcell e kv hkv
    exact ⟨kv1, hkv1, by rw [hkey]; exact hl⟩
  · intro key e hk
    obtain ⟨he, kv, hkv, hkey⟩ := h3 key e hk
    obtain ⟨kv1, hkv1, hkey1⟩ := hcell e kv hkv
    exact ⟨he, kv1, hkv1, hkey1.trans hkey⟩

/-- Pushing the cell of an absent key to the front keeps the consistency. -/
theorem lru_consistent_push {ll : List Nat} {m : AList (fun _ : K => Nat)}
    {el : List (entry K V)} (h : Consistent ll m el) {key : K} (hk : m.lookup key = none)
    (v : Option V) :
    Consistent (el.length :: ll) (m.insert key el.length)
      (el ++ [{ key := key, value := v }]) := by
  obtain ⟨h1, h2, h3, h4⟩ := h
  have hnew : el.length ∉ ll := by
    intro hin
    obtain ⟨kv, hkv, _⟩ := h2 _ hin
    have := (List.getElem?_eq_some.mp hkv).1
    omega
  have hnot : key ∉ m := AList.lookup_eq_none.mp hk
  refine ⟨List.nodup_cons.mpr ⟨hnew, h1⟩, ?_, ?_, ?_⟩
  · intro e he
    rcases List.mem_cons.mp he with rfl | he
    · exact ⟨_, List.getElem?_concat_length _ _, AList.lookup_insert _⟩
    · obtain ⟨kv, hkv, hl⟩ := h2 e he
      have hne : kv.key ≠ key := by
        rintro rfl
        rw [hk] at hl
        cases hl
      exact ⟨kv, (List.getElem?_append_left (List.getElem?_eq_some.mp hkv).1).trans hkv,
        (AList.lookup_insert_ne hne).trans hl⟩
  · intro k e hl
    by_cases hkk : k = key
    · subst hkk
      rw [AList.lookup_insert] at hl
      cases hl
      exact ⟨List.mem_cons_self _ _, _, List.getElem?_concat_length _ _, rfl⟩
    · rw [AList.lookup_insert_ne hkk] at hl
      obtain ⟨he, kv, hkv, hkey⟩ := h3 k e hl
      exact ⟨List.mem_cons_of_mem _ he, kv,
        (List.getElem?_append_left (List.getElem?_eq_some.mp hkv).1).trans hkv, hkey⟩
  · rw [List.length_cons, AList.insert_entries_of_neg hnot, List.length_cons, h4]

/-- Removing an element of the list and the key of its cell keeps the
consistency. -/
theorem lru_consistent_remove {ll : List Nat} {m : AList (fun _ : K => Nat)}
    {el : List (entry K V)} (h : Consistent ll m el) {e : Nat} {kv : entry K V}
    (he : e ∈ ll) (hkv : el[e]? = some kv) :
    Consistent (ll.erase e) (m.erase kv.key) el := by
  obtain ⟨h1, h2, h3, h4⟩ := h
  have hl : m.lookup kv.key = some e := by
    obtain ⟨kv1, hkv1, hl⟩ := h2 e he
    rw [hkv] at hkv1
    cases hkv1
    exact hl
  have hin : kv.key ∈ m := by
    rw [← AList.lookup_isSome, hl]
    rfl
  refine ⟨h1.erase e, ?_, ?_, ?_⟩
  · intro x hx
    obtain ⟨hxe, hx⟩ := h1.mem_erase_iff.mp hx
    obtain ⟨kv1, hkv1, hl1⟩ := h2 x hx
    have hne : kv1.key ≠ kv.key := by
      intro hkk
      rw [hkk, hl] at hl1
      cases hl1
      exact hxe rfl
    exact ⟨kv1, hkv1, (AList.lookup_erase_ne hne).trans hl1⟩
  · intro k x hk
    have hne : k ≠ kv.key := by
      rintro rfl
      rw [AList.lookup_erase] at hk
      cases hk
    rw [AList.lookup_erase_ne hne] at hk
    obtain ⟨hx, kv1, hkv1, hkey⟩ := h3 k x hk
    have hxe : x ≠ e := by
      rintro rfl
      rw [hkv] at hkv1
      cases hkv1
      exact hne hkey.symm
    exact ⟨h1.mem_erase_iff.mpr ⟨hxe, hx⟩, kv1, hkv1, hkey⟩
  · have := lru_erase_length hin
    rw [List.length_erase_of_mem he]
    have : 0 < ll.length := List.length_pos_of_mem he
    omega

/-! ## The recency order -/

theorem lru_keyAt_lookup {ll : List Nat} {m : AList (fun _ : K => Nat)}
    {el : List (entry K V)} (h : Consistent ll m el) {e : Nat} {k : K}
    (he : e ∈ ll) (hk : keyAt el e = some k) : m.lookup k = some e := by
  obtain ⟨kv, hkv, hl⟩ := h.2.1 e he
  unfold keyAt at hk
  rw [hkv] at hk
  simp only [Option.map_some', Option.some.injEq] at hk
  rw [← hk]
  exact hl

/-- An element put in front of a list of elements that hold other keys, its key
being the latest use. -/
theorem lru_recent_front {ll0 : List Nat} {el el1 : List (entry K V)} {used : List K}
    {f : Nat} {k : K}
    (hR : ll0.Pairwise (fun a b =>
      ∀ ka kb, keyAt el a = some ka → keyAt el b = some kb →
        used.indexOf ka < used.indexOf kb))
    (hkeys : ∀ b ∈ ll0, keyAt el1 b = keyAt el b)
    (hne : ∀ b ∈ ll0, keyAt el b ≠ some k)
    (hf : keyAt el1 f = some k) :
    (f :: ll0).Pairwise (fun a b =>
      ∀ ka kb, keyAt el1 a = some ka → keyAt el1 b = some kb →
        (k :: used).indexOf ka < (k :: used).indexOf kb) := by
  rw [List.pairwise_cons]
  constructor
  · intro b hb ka kb hka hkb
    rw [hf] at hka
    cases hka
    have hkb1 : kb ≠ k := by
      rintro rfl
      exact hne b hb ((hkeys b hb).symm.trans hkb)
    rw [List.indexOf_cons_self, List.indexOf_cons_ne _ (Ne.symm hkb1)]
    exact Nat.succ_pos _
  · refine hR.imp_of_mem ?_
    intro a b ha hb hab ka kb hka hkb
    rw [hkeys a ha] at hka
    rw [hkeys b hb] at hkb
    have hka1 : ka ≠ k := by
      rintro rfl
      exact hne a ha hka
    have hkb1 : kb ≠ k := by
      rintro rfl
      exact hne b hb hkb
    rw [List.indexOf_cons_ne _ (Ne.symm hka1), List.indexOf_cons_ne _ (Ne.symm hkb1)]
    exact Nat.succ_lt_succ (hab ka kb hka hkb)

/-- A use of the key of an element of the list, the element moved to the front,
the keys of the cells left as they are. -/
theorem lru_recent_touch {ll : List Nat} {m : AList (fun _ : K => Nat)}
    {el el1 : List (entry K V)} {used : List K}
    (hc : Consistent ll m el) (hr : Recent ll m el used) {e : Nat} {k : K}
    (he : e ∈ ll) (hk : keyAt el e = some k)
    (hkeys : ∀ b, keyAt el1 b = keyAt el b) :
    Recent (e :: ll.erase e) m el1 (k :: used) := by
  refine ⟨fun key hkey => List.mem_cons_of_mem _ (hr.1 key hkey), ?_⟩
  refine lru_recent_front (hr.2.sublist (List.erase_sublist e ll))
    (fun b _ => hkeys b) ?_ ((hkeys e).trans hk)
  intro b hb hkb
  obtain ⟨hbe, hbl⟩ := hc.1.mem_erase_iff.mp hb
  have h1 := lru_keyAt_lookup hc hbl hkb
  rw [lru_keyAt_lookup hc he hk] at h1
  cases h1
  exact hbe rfl

/-- A use of an absent key, its new cell pushed to the front. -/
theorem lru_recent_push {ll : List Nat} {m : AList (fun _ : K => Nat)}
    {el : List (entry K V)} {used : List K}
    (hc : Consistent ll m el) (hr : Recent ll m el used) {key : K}
    (hk : m.lookup key = none) (v : Option V) :
    Recent (el.length :: ll) (m.insert key el.length)
      (el ++ [{ key := key, value := v }]) (key :: used) := by
  constructor
  · intro k hkm
    rcases (AList.mem_insert m).mp hkm with rfl | hkm
    · exact List.mem_cons_self _ _
    · exact List.mem_cons_of_mem _ (hr.1 k hkm)
  · refine lru_recent_front hr.2 ?_ ?_ ?_
    · intro b hb
      obtain ⟨kv, hkv, _⟩ := hc.2.1 b hb
      unfold keyAt
      rw [List.getElem?_append_left (List.getElem?_eq_some.mp hkv).1]
    · intro b hb hkb
      have h1 := lru_keyAt_lookup hc hb hkb
      rw [hk] at h1
      cases h1
    · unfold keyAt
      rw [List.getElem?_concat_length]
      rfl

/-- Removing an element and a key keeps the recency order. -/
theorem lru_recent_remove {ll : List Nat} {m : AList (fun _ : K => Nat)}
    {el : List (entry K V)} {used : List K} (hr : Recent ll m el used) (e : Nat) (k : K) :
    Recent (ll.erase e) (m.erase k) el used :=
  ⟨fun key hkey => hr.1 key (AList.mem_erase.mp hkey).2,
    hr.2.sublist (List.erase_sublist e ll)⟩

/-! ## The methods -/

theorem lru_removeElement_eq (c : Cache K V W) {e : Nat} {kv : entry K V}
    (hkv : c.elems[e]? = some kv) :
    c.removeElement e = some { c with
      ll := c.ll.erase e
      cache := c.cache.erase kv.key
      world := (match c.OnEvicted with
        | some f => f kv.key kv.value c.world
        | none => c.world)
      evicted := (match c.OnEvicted with
        | some _ => c.evicted ++ [(kv.key, kv.value)]
        | none => c.evicted) } := by
  unfold Cache.removeElement
  rw [hkv]
  cases c.OnEvicted <;> rfl

theorem lru_RemoveOldest_eq (c : Cache K V W) {e : Nat} (h : c.ll.getLast? = some e) :
    c.RemoveOldest = c.removeElement e := by
  unfold Cache.RemoveOldest
  rw [h]

theorem lru_Remove_eq (c : Cache K V W) {key : K} {e : Nat}
    (h : c.cache.lookup key = some e) : c.Remove key = c.removeElement e := by
  unfold Cache.Remove
  rw [h]

theorem lru_moveToFront_mem {ll : List Nat} {e : Nat} (he : e ∈ ll) :
    moveToFront ll e = e :: ll.erase e := by
  unfold moveToFront
  rw [if_pos he]

theorem lru_Get_hit (c : Cache K V W) {key : K} {e : Nat} {x : entry K V}
    (hk : c.cache.lookup key = some e) (hkv : c.elems[e]? = some x) :
    c.Get key = some ((x.value, true),
      { c with ll := moveToFront c.ll e, used := key :: c.used }) := by
  unfold Cache.Get
  simp [hk, hkv]

theorem lru_Get_miss (c : Cache K V W) {key : K} (hk : c.cache.lookup key = none) :
    c.Get key = some ((none, false), c) := by
  unfold Cache.Get
  simp [hk]

theorem lru_Add_present (c : Cache K V W) {key : K} (v : Option V) {e : Nat}
    {kv : entry K V} (hk : c.cache.lookup key = some e) (hkv : c.elems[e]? = some kv) :
    c.Add key v = some { c with
      ll := moveToFront c.ll e
      elems := c.elems.set e { kv with value := v }
      used := key :: c.used } := by
  unfold Cache.Add
  simp [hk, hkv]

theorem lru_Add_absent (c : Cache K V W) {key : K} (v : Option V)
    (hk : c.cache.lookup key = none) :
    c.Add key v =
      if c.MaxEntries ≠ 0 ∧ ((c.ll.length + 1 : Nat) : Int) > c.MaxEntries then
        ({ c with
          ll := c.elems.length :: c.ll
          elems := c.elems ++ [{ key := key, value := v }]
          cache := c.cache.insert key c.elems.length
          used := key :: c.used } : Cache K V W).RemoveOldest
      else
        some { c with
          ll := c.elems.length :: c.ll
          elems := c.elems ++ [{ key := key, value := v }]
          cache := c.cache.insert key c.elems.length
          used := key :: c.used } := by
  unfold Cache.Add
  simp only [hk, List.length_cons]

theorem lru_keyAt_set {A B : Type} (el : List (entry A B)) {e : Nat} {kv : entry A B}
    (hkv : el[e]? = some kv) (v : Option B) (b : Nat) :
    keyAt (el.set e { kv with value := v }) b = keyAt el b := by
  unfold keyAt
  by_cases hb : e = b
  · subst hb
    rw [List.getElem?_set_self (List.getElem?_eq_some.mp hkv).1, hkv]
    rfl
  · rw [List.getElem?_set_ne hb]

/-! ## The invariant of the runs -/

theorem lru_removeElement_inv {c : Cache K V W}
    (hc : Consistent c.ll c.cache c.elems) (hr : Recent c.ll c.cache c.elems c.used)
    {e : Nat} (he : e ∈ c.ll) :
    ∃ c1, c.removeElement e = some c1 ∧ Consistent c1.ll c1.cache c1.elems ∧
      Recent c1.ll c1.cache c1.elems c1.used ∧ c1.MaxEntries = c.MaxEntries ∧
      c1.ll = c.ll.erase e := by
  obtain ⟨kv, hkv, _⟩ := hc.2.1 e he
  exact ⟨_, lru_removeElement_eq c hkv, lru_consistent_remove hc he hkv,
    lru_recent_remove hr e kv.key, rfl, rfl⟩

theorem lru_good_removeElement {c : Cache K V W} {n : Int} (h : c.Good n) {e : Nat}
    (he : e ∈ c.ll) :
    ∃ c1, c.removeElement e = some c1 ∧ c1.Good n := by
  obtain ⟨hc, hr, hn, hlen⟩ := h
  obtain ⟨c1, h1, hc1, hr1, hn1, hll⟩ := lru_removeElement_inv hc hr he
  refine ⟨c1, h1, hc1, hr1, hn1.trans hn, ?_⟩
  intro hpos
  have h2 := hlen hpos
  rw [hll, List.length_erase_of_mem he]
  omega

theorem lru_good_touch {c : Cache K V W} {n : Int} (h : c.Good n) {key : K} {e : Nat}
    (hk : c.cache.lookup key = some e)
    (el1 : List (entry K V)) (hkeys : ∀ b, keyAt el1 b = keyAt c.elems b)
    (hcons : Consistent c.ll c.cache c.elems → Consistent c.ll c.cache el1) :
    ({ c with ll := moveToFront c.ll e, elems := el1, used := key :: c.used }
      : Cache K V W).Good n := by
  obtain ⟨hc, hr, hn, hlen⟩ := h
  obtain ⟨he, kv1, hkv1, hkey⟩ := hc.2.2.1 key e hk
  have hka : keyAt c.elems e = some key := by
    unfold keyAt
    rw [hkv1, ← hkey]
    rfl
  have hmove := lru_moveToFront_mem he
  refine ⟨?_, ?_, hn, ?_⟩
  · show Consistent (moveToFront c.ll e) c.cache el1
    rw [hmove]
    exact lru_consistent_touch (hcons hc) he
  · show Recent (moveToFront c.ll e) c.cache el1 (key :: c.used)
    rw [hmove]
    exact lru_recent_touch hc hr he hka hkeys
  · intro hpos
    show ((moveToFront c.ll e).length : Int) ≤ n
    rw [hmove, List.length_cons, List.length_erase_of_mem he]
    have := hlen hpos
    have : 0 < c.ll.length := List.length_pos_of_mem he
    omega

theorem lru_good_Get {c : Cache K V W} {n : Int} (h : c.Good n) (key : K) :
    ∃ r c1, c.Get key = some (r, c1) ∧ c1.Good n := by
  cases hk : c.cache.lookup key with
  | none => exact ⟨_, _, lru_Get_miss c hk, h⟩
  | some e =>
    obtain ⟨he, kv, hkv, hkey⟩ := h.1.2.2.1 key e hk
    exact ⟨_, _, lru_Get_hit c hk hkv,
      lru_good_touch h hk c.elems (fun _ => rfl) (fun hc => hc)⟩

theorem lru_good_RemoveOldest {c : Cache K V W} {n : Int} (h : c.Good n) :
    ∃ c1, c.RemoveOldest = some c1 ∧ c1.Good n := by
  unfold Cache.RemoveOldest
  cases hl : c.ll.getLast? with
  | none => exact ⟨c, rfl, h⟩
  | some e => exact lru_good_removeElement h (List.mem_of_getLast?_eq_some hl)

theorem lru_good_Remove {c : Cache K V W} {n : Int} (h : c.Good n) (key : K) :
    ∃ c1, c.Remove key = some c1 ∧ c1.Good n := by
  unfold Cache.Remove
  cases hk : c.cache.lookup key with
  | none => exact ⟨c, rfl, h⟩
  | some e => exact lru_good_removeElement h (h.1.2.2.1 key e hk).1

theorem lru_good_Add {c : Cache K V W} {n : Int} (h : c.Good n) (key : K) (v : Option V) :
    ∃ c1, c.Add key v = some c1 ∧ c1.Good n := by
  cases hk : c.cache.lookup key with
  | some e =>
    obtain ⟨he, kv, hkv, hkey⟩ := h.1.2.2.1 key e hk
    exact ⟨_, lru_Add_present c v hk hkv,
      lru_good_touch h hk _ (lru_keyAt_set c.elems hkv v) (fun hc => lru_consistent_set hc hkv v)⟩
  | none =>
    obtain ⟨hc, hr, hn, hlen⟩ := h
    have hcp := lru_consistent_push hc hk v
    have hrp := lru_recent_push hc hr hk v
    rw [lru_Add_absent c v hk]
    split_ifs with hcond
    · have hlast : ∃ e, (c.elems.length :: c.ll).getLast? = some e := by
        cases hg : (c.elems.length :: c.ll).getLast? with
        | none => simp at hg
        | some e => exact ⟨e, rfl⟩
      obtain ⟨e, hlast⟩ := hlast
      have he : e ∈ c.elems.length :: c.ll := List.mem_of_getLast?_eq_some hlast
      obtain ⟨c1, h1, hc1, hr1, hn1, hll⟩ := lru_removeElement_inv
        (c := { c with
          ll := c.elems.length :: c.ll
          elems := c.elems ++ [{ key := key, value := v }]
          cache := c.cache.insert key c.elems.length
          used := key :: c.used }) hcp hrp he
      refine ⟨c1, ?_, hc1, hr1, hn1.trans hn, ?_⟩
      · unfold Cache.RemoveOldest
        simp only [hlast]
        exact h1
      · intro hpos
        have h2 := hlen hpos
        rw [hll]
        show (((c.elems.length :: c.ll).erase e).length : Int) ≤ n
        rw [List.length_erase_of_mem he, List.length_cons]
        omega
    · refine ⟨_, rfl, hcp, hrp, hn, ?_⟩
      intro hpos
      show (((c.elems.length :: c.ll).length : Nat) : Int) ≤ n
      rw [List.length_cons]
      rw [hn] at hcond
      have hne : n ≠ 0 := by omega
      by_contra hgt
      exact hcond ⟨hne, by omega⟩

theorem lru_good_step {c : Cache K V W} {n : Int} (h : c.Good n) (a : Action K V W) :
    ∃ c1, c.step a = some c1 ∧ c1.Good n := by
  cases a with
  | Add key v => exact lru_good_Add h key v
  | Get key =>
    obtain ⟨r, c1, h1, hg⟩ := lru_good_Get h key
    exact ⟨c1, by simp [Cache.step, h1], hg⟩
  | Remove key => exact lru_good_Remove h key
  | RemoveOldest => exact lru_good_RemoveOldest h
  | SetOnEvicted f => exact ⟨_, rfl, h⟩

theorem lru_good_exec {c : Cache K V W} {n : Int} (h : c.Good n) (as : List (Action K V W)) :
    ∃ c1, c.exec as = some c1 ∧ c1.Good n := by
  induction as generalizing c with
  | nil => exact ⟨c, rfl, h⟩
  | cons a as ih =>
    obtain ⟨c1, h1, hg1⟩ := lru_good_step h a
    obtain ⟨c2, h2, hg2⟩ := ih hg1
    exact ⟨c2, by simp [Cache.exec, h1, h2], hg2⟩

theorem lru_good_new (n : Int) (w : W) : (NewCache n w : Cache K V W).Good n := by
  refine ⟨⟨List.nodup_nil, ?_, ?_, rfl⟩, ⟨?_, List.Pairwise.nil⟩, rfl, ?_⟩
  · exact fun e he => absurd he (List.not_mem_nil e)
  · intro key e hk
    simp [NewCache] at hk
  · intro key hk
    exact absurd hk (AList.not_mem_empty key)
  · intro hpos
    show ((0 : Nat) : Int) ≤ n
    omega

theorem lru_MuCache_exec (m : MuCache K V W) (as : List (Action K V W)) :
    m.exec as = (m.cache.exec as).map (fun c => { cache := c }) := by
  induction as generalizing m with
  | nil => rfl
  | cons a as ih =>
    unfold MuCache.exec Cache.exec MuCache.step
    cases h : m.cache.step a with
    | none => rfl
    | some c1 =>
      simp only [Option.map_some', Option.some_bind]
      exact ih _

/-! ## Keys under Go's `==` -/

theorem lru_mapaccess_entries (m : AList (fun _ : K => Nat)) (key : K) :
    goeq.mapaccess m.entries key = m.lookup key := by
  unfold goeq.mapaccess AList.lookup
  generalize m.entries = l
  induction l with
  | nil => rfl
  | cons x l ih =>
    obtain ⟨a, b⟩ := x
    by_cases h : a = key
    · subst h
      simp [List.find?_cons, List.dlookup_cons_eq]
    · have h2 : key ≠ (⟨a, b⟩ : Sigma (fun _ : K => Nat)).1 := fun h3 => h h3.symm
      rw [List.dlookup_cons_ne _ _ h2, ← ih]
      simp [List.find?_cons, h]

theorem lru_mapdelete_entries (m : AList (fun _ : K => Nat)) (key : K) :
    goeq.mapdelete m.entries key = (m.erase key).entries := by
  show List.eraseP _ _ = List.kerase key m.entries
  unfold List.kerase
  congr 1
  funext x
  show decide (x.1 = key) = decide (key = x.1)
  exact decide_eq_decide.mpr eq_comm

theorem lru_mapassign_entries (m : AList (fun _ : K => Nat)) (key : K) (e : Nat) :
    goeq.mapassign m.entries key e = (m.insert key e).entries := by
  show _ :: goeq.mapdelete m.entries key = List.kinsert key e m.entries
  rw [lru_mapdelete_entries]
  rfl

theorem lru_goeq_removeElement (c : Cache K V W) (e : Nat) :
    (goeq.ofCache c).removeElement e = (c.removeElement e).map goeq.ofCache := by
  cases he : c.elems[e]? with
  | none => simp [goeq.Cache.removeElement, Cache.removeElement, goeq.ofCache, he]
  | some kv =>
    cases hf : c.OnEvicted with
    | none =>
      simp [goeq.Cache.removeElement, Cache.removeElement, goeq.ofCache, he, hf,
        lru_mapdelete_entries]
    | some f =>
      simp [goeq.Cache.removeElement, Cache.removeElement, goeq.ofCache, he, hf,
        lru_mapdelete_entries]

theorem lru_goeq_RemoveOldest (c : Cache K V W) :
    (goeq.ofCache c).RemoveOldest = c.RemoveOldest.map goeq.ofCache := by
  have hll : (goeq.ofCache c).ll = c.ll := rfl
  unfold goeq.Cache.RemoveOldest Cache.RemoveOldest
  rw [hll]
  cases c.ll.getLast? with
  | none => rfl
  | some ele => exact lru_goeq_removeElement c ele

theorem lru_goeq_Remove (c : Cache K V W) (key : K) :
    (goeq.ofCache c).Remove key = (c.Remove key).map goeq.ofCache := by
  have hm : goeq.mapaccess (goeq.ofCache c).cache key = c.cache.lookup key :=
    lru_mapaccess_entries c.cache key
  unfold goeq.Cache.Remove Cache.Remove
  rw [hm]
  cases c.cache.lookup key with
  | none => rfl
  | some ele => exact lru_goeq_removeElement c ele

theorem lru_goeq_Get (c : Cache K V W) (key : K) :
    (goeq.ofCache c).Get key = (c.Get key).map (fun r => (r.1, goeq.ofCache r.2)) := by
  have hm : goeq.mapaccess (goeq.ofCache c).cache key = c.cache.lookup key :=
    lru_mapaccess_entries c.cache key
  unfold goeq.Cache.Get Cache.Get
  rw [hm]
  cases hk : c.cache.lookup key with
  | none => rfl
  | some ele =>
    cases he : c.elems[ele]? with
    | none => simp [goeq.ofCache, he]
    | some kv => simp [goeq.ofCache, he]

theorem lru_goeq_Add (c : Cache K V W) (key : K) (v : Option V) :
    (goeq.ofCache c).Add key v = (c.Add key v).map goeq.ofCache := by
  have hm : goeq.mapaccess (goeq.ofCache c).cache key = c.cache.lookup key :=
    lru_mapaccess_entries c.cache key
  unfold goeq.Cache.Add Cache.Add
  rw [hm]
  cases hk : c.cache.lookup key with
  | some ee =>
    cases he : c.elems[ee]? with
    | none => simp [goeq.ofCache, he]
    | some kv => simp [goeq.ofCache, he]
  | none =>
    have h := lru_goeq_RemoveOldest
      ({ c with
        ll := c.elems.length :: c.ll
        elems := c.elems ++ [{ key := key, value := v }]
        cache := c.cache.insert key c.elems.length
        used := key :: c.used } : Cache K V W)
    simp only [goeq.ofCache, ← lru_mapassign_entries] at h
    simp only [goeq.ofCache]
    split_ifs
    · exact h
    · simp only [Option.map_some', Option.some.injEq, lru_mapassign_entries]
      rfl

theorem lru_goeq_step (c : Cache K V W) (a : Action K V W) :
    (goeq.ofCache c).step a = (c.step a).map goeq.ofCache := by
  cases a with
  | Add key v => exact lru_goeq_Add c key v
  | Get key =>
    simp only [goeq.Cache.step, Cache.step, lru_goeq_Get, Option.map_map]
    rfl
  | Remove key => exact lru_goeq_Remove c key
  | RemoveOldest => exact lru_goeq_RemoveOldest c
  | SetOnEvicted f => rfl

/-- On keys whose `==` is the equality, the run of the methods over keys of any
type is the run of the methods above. -/
theorem lru_goeq_exec (c : Cache K V W) (as : List (Action K V W)) :
    (goeq.ofCache c).exec as = (c.exec as).map goeq.ofCache := by
  induction as generalizing c with
  | nil => rfl
  | cons a as ih =>
    simp only [goeq.Cache.exec, Cache.exec, lru_goeq_step]
    cases c.step a with
    | none => rfl
    | some c1 => exact ih c1

/-- On keys whose `==` is the equality, the runs from `NewCache(n)` over keys of any
type are the runs from `NewCache(n)` above. -/
theorem lru_goeq_new (n : Int) (w : W) (as : List (Action K V W)) :
    (goeq.NewCache n w : goeq.Cache K V W).exec as =
      ((NewCache n w : Cache K V W).exec as).map goeq.ofCache :=
  lru_goeq_exec (NewCache n w) as

/-! ## The claims on the LRU cache -/

/-- C14 as stated fails on a key that is not `==` to itself: on `NewCache(0)` over
keys that hold a `float64`, after `Add(NaN, 1)` a `Get(NaN)` returns `(nil, false)`,
the map comparing the key of the `Get` with the key it holds by `==`. -/
theorem lru_Add_then_Get_counterexample :
    (0 : Int) ≤ (goeq.NewCache 0 () : goeq.Cache FloatKey Nat Unit).MaxEntries ∧
    ((goeq.NewCache 0 () : goeq.Cache FloatKey Nat Unit).Add .nan (some 1)).bind
      (fun c1 => (c1.Get .nan).map (fun r => r.1)) = some (none, false) ∧
    ((goeq.NewCache 0 () : goeq.Cache FloatKey Nat Unit).Add (.num 5) (some 1)).bind
      (fun c1 => (c1.Get (.num 5)).map (fun r => r.1)) = some (some 1, true) := by
  decide

/-- C14, amended: `Add` then `Get`, over keys whose `==` is the equality (no key
that holds a NaN). On a cache whose list and map are consistent and whose
`MaxEntries` is not negative, `Add(key, v)` succeeds and a `Get(key)` after it
returns `(v, true)`; and `Get` of a key that is not in the cache returns
`ok = false` (with the nil value) and leaves the cache, contents and recency
order, as it was. -/
theorem lru_Add_then_Get (c : Cache K V W) (key : K) (v : Option V)
    (hwf : c.WF) (h0 : 0 ≤ c.MaxEntries) :
    (∃ c1 c2, c.Add key v = some c1 ∧ c1.Get key = some ((v, true), c2)) ∧
    (∀ k, c.cache.lookup k = none → c.Get k = some ((none, false), c)) := by
  have hc := (lru_WF_iff c).mp hwf
  refine ⟨?_, fun k hk => lru_Get_miss c hk⟩
  cases hk : c.cache.lookup key with
  | some e =>
    obtain ⟨he, kv, hkv, hkey⟩ := hc.2.2.1 key e hk
    exact ⟨_, _, lru_Add_present c v hk hkv,
      lru_Get_hit (x := { kv with value := v }) _ hk
        (List.getElem?_set_self (List.getElem?_eq_some.mp hkv).1)⟩
  | none =>
    rw [lru_Add_absent c v hk]
    split_ifs with hcond
    · have hne : c.ll ≠ [] := by
        intro hnil
        rw [hnil] at hcond
        simp only [List.length_nil] at hcond
        omega
      obtain ⟨e, hlast⟩ : ∃ e, c.ll.getLast? = some e := by
        cases hg : c.ll.getLast? with
        | none => exact absurd (List.getLast?_eq_none_iff.mp hg) hne
        | some e => exact ⟨e, rfl⟩
      have he : e ∈ c.ll := List.mem_of_getLast?_eq_some hlast
      have hlast1 : (c.elems.length :: c.ll).getLast? = some e := by
        rw [List.getLast?_cons, hlast]
        rfl
      obtain ⟨kv, hkv, hl⟩ := hc.2.1 e he
      have hkv1 : (c.elems ++ [({ key := key, value := v } : entry K V)])[e]? = some kv :=
        (List.getElem?_append_left (List.getElem?_eq_some.mp hkv).1).trans hkv
      have hkne : key ≠ kv.key := by
        rintro rfl
        rw [hk] at hl
        cases hl
      have hrem := lru_removeElement_eq
        (c := { c with
          ll := c.elems.length :: c.ll
          elems := c.elems ++ [{ key := key, value := v }]
          cache := c.cache.insert key c.elems.length
          used := key :: c.used }) hkv1
      exact ⟨_, _, (lru_RemoveOldest_eq _ hlast1).trans hrem,
        lru_Get_hit (x := { key := key, value := v }) (e := c.elems.length) _
          ((AList.lookup_erase_ne hkne).trans (AList.lookup_insert _))
          (List.getElem?_concat_length _ _)⟩
    · exact ⟨_, _, rfl, lru_Get_hit (x := { key := key, value := v }) (e := c.elems.length) _
        (AList.lookup_insert _) (List.getElem?_concat_length _ _)⟩

/-- Witness of the amended C14: `Add("myKey", 7)` and `Get("myKey")` on the cache of
`TestOnEvicted`. -/
theorem lru_Add_then_Get_witness :
    recordingCache.WF ∧ (0 : Int) ≤ recordingCache.MaxEntries ∧
    (∃ c1 c2, recordingCache.Add "myKey" (some 7) = some c1 ∧
      c1.Get "myKey" = some ((some 7, true), c2)) ∧
    (∀ k, recordingCache.cache.lookup k = none →
      recordingCache.Get k = some ((none, false), recordingCache)) :=
  ⟨by decide, by decide,
   lru_Add_then_Get recordingCache "myKey" (some 7) (by decide) (by decide)⟩

/-- C15: the capacity bound. For every `n > 0` and every sequence of calls of
`Add`, `Get`, `Remove` and `RemoveOldest` (and assignments of `OnEvicted`) on
`NewCache(n)`, and on `NewMuCache(n)`, every call returns and `Len()` is at most
`n` after it. -/
theorem lru_capacity_bound (n : Int) (w : W) (as : List (Action K V W)) (hn : 0 < n) :
    (∃ c, (NewCache n w : Cache K V W).exec as = some c ∧ (c.Len : Int) ≤ n) ∧
    (∃ m, (NewMuCache n w : MuCache K V W).exec as = some m ∧ (m.Len : Int) ≤ n) := by
  obtain ⟨c, hrun, hg⟩ := lru_good_exec (lru_good_new n w) as
  refine ⟨⟨c, hrun, hg.2.2.2 hn⟩, ⟨{ cache := c }, ?_, hg.2.2.2 hn⟩⟩
  rw [lru_MuCache_exec]
  show Option.map _ ((NewCache n w : Cache K V W).exec as) = _
  rw [hrun]
  rfl

/-- Witness of C15: the calls of `TestMaxEntry` up to its `Add(11, 11)`, on a cache
of `10` entries. -/
theorem lru_capacity_bound_witness :
    (0 : Int) < 10 ∧
    (∃ c, (NewCache 10 () : Cache Nat Nat Unit).exec (tenRun ++ [.Add 11 (some 11)]) = some c ∧
      (c.Len : Int) ≤ 10) ∧
    (∃ m, (NewMuCache 10 () : MuCache Nat Nat Unit).exec (tenRun ++ [.Add 11 (some 11)])
      = some m ∧ (m.Len : Int) ≤ 10) :=
  ⟨by decide, lru_capacity_bound 10 () (tenRun ++ [.Add 11 (some 11)]) (by decide)⟩

/-- C20 as stated fails on a key that is not `==` to itself: on `NewCache(1)` over
keys that hold a `float64`, after `Add(NaN, 1)`, `Add(NaN, 2)`, `Add(NaN, 3)` the
list holds the one element `2` and `Len()` is `1`, and the map holds three pairs,
to the elements `2`, `1` and `0`: the `delete` of line 103 finds no key `==` to the
NaN of the element it evicts. -/
theorem lru_list_map_consistent_counterexample :
    ((goeq.NewCache 1 () : goeq.Cache FloatKey Nat Unit).exec nanRun).map
      (fun c => (c.Len, c.ll, c.cache.length, c.cache.map (fun x => x.2))) =
      some (1, [2], 3, [2, 1, 0]) := by
  decide

/-- C20, amended: the consistency of the list and the map, over keys whose `==` is
the equality (no key that holds a NaN). For every `n` and every sequence
of calls of `Add`, `Get`, `Remove` and `RemoveOldest` (and assignments of
`OnEvicted`) on `NewCache(n)`, and on `NewMuCache(n)`, every call returns, and in
the state reached: the keys of the map are exactly the keys of the entries of the
list elements; no key and no element occurs twice in the list; every value of the
map is an element of the list and holds the entry with that key; and `Len()`, the
length of the list, is the number of keys of the map. -/
theorem lru_list_map_consistent (n : Int) (w : W) (as : List (Action K V W)) :
    ∃ c, (NewCache n w : Cache K V W).exec as = some c ∧
      (NewMuCache n w : MuCache K V W).exec as = some { cache := c } ∧
      (∀ key, key ∈ c.cache ↔ ∃ e ∈ c.ll, c.keyOf e = some key) ∧
      (c.ll.map c.keyOf).Nodup ∧ c.ll.Nodup ∧
      (∀ key e, c.cache.lookup key = some e → e ∈ c.ll ∧ c.keyOf e = some key) ∧
      c.Len = c.cache.keys.length := by
  obtain ⟨c, hrun, ⟨h1, h2, h3, h4⟩, -⟩ := lru_good_exec (lru_good_new n w) as
  have hkey : ∀ e ∈ c.ll, ∀ k, c.keyOf e = some k → c.cache.lookup k = some e :=
    fun e he k hk => lru_keyAt_lookup ⟨h1, h2, h3, h4⟩ he hk
  refine ⟨c, hrun, ?_, ?_, ?_, h1, ?_, ?_⟩
  · rw [lru_MuCache_exec]
    show Option.map _ ((NewCache n w : Cache K V W).exec as) = _
    rw [hrun]
    rfl
  · intro key
    constructor
    · intro hin
      obtain ⟨e, he⟩ := Option.isSome_iff_exists.mp (AList.lookup_isSome.mpr hin)
      obtain ⟨hel, kv, hkv, hk⟩ := h3 key e he
      exact ⟨e, hel, by simp [Cache.keyOf, hkv, hk]⟩
    · rintro ⟨e, he, hk⟩
      rw [← AList.lookup_isSome, hkey e he key hk]
      rfl
  · refine List.Nodup.map_on ?_ h1
    intro x hx y hy hxy
    obtain ⟨kv, hkv, _⟩ := h2 x hx
    have hkx : c.keyOf x = some kv.key := by simp [Cache.keyOf, hkv]
    have h5 := hkey x hx kv.key hkx
    rw [hkey y hy kv.key (hxy ▸ hkx)] at h5
    exact (Option.some.inj h5).symm
  · intro key e he
    obtain ⟨hel, kv, hkv, hk⟩ := h3 key e he
    exact ⟨hel, by simp [Cache.keyOf, hkv, hk]⟩
  · show c.ll.length = c.cache.keys.length
    rw [h4]
    simp [AList.keys, List.keys]

theorem lru_valueOf_erase_ne (c : Cache K V W) {k old : K} (h : k ≠ old)
    (ll : List Nat) (w : W) (ev : List (K × Option V)) :
    ({ c with ll := ll, cache := c.cache.erase old, world := w, evicted := ev }
      : Cache K V W).valueOf k = c.valueOf k := by
  unfold Cache.valueOf
  simp only [AList.lookup_erase_ne h]

/-- C17: `Remove` and the eviction callback. On a cache whose list and map are
consistent, `Remove(key)` of a present key, holding the value `v`, deletes it (the
key is absent afterwards, a following `Get(key)` returns `ok = false`, `Len()` drops
by one, the value of every other key is unchanged) and, when `OnEvicted` is set,
calls it exactly once, with `key` and `v`; when it is not set nothing is called.
`Remove(key)` of an absent key changes nothing and calls nothing. -/
theorem lru_Remove_evicts (c : Cache K V W) (key : K) (hwf : c.WF) :
    (∀ e, c.cache.lookup key = some e →
      ∃ v c1, c.valueOf key = some v ∧ c.Remove key = some c1 ∧
        c1.cache.lookup key = none ∧ c1.Get key = some ((none, false), c1) ∧
        c1.Len + 1 = c.Len ∧
        (∀ k2, k2 ≠ key → c1.valueOf k2 = c.valueOf k2) ∧
        (∀ f, c.OnEvicted = some f →
          c1.evicted = c.evicted ++ [(key, v)] ∧ c1.world = f key v c.world) ∧
        (c.OnEvicted = none → c1.evicted = c.evicted ∧ c1.world = c.world)) ∧
    (c.cache.lookup key = none → c.Remove key = some c) := by
  have hc := (lru_WF_iff c).mp hwf
  constructor
  · intro e hk
    obtain ⟨he, kv, hkv, hkey⟩ := hc.2.2.1 key e hk
    subst hkey
    have hrem := (lru_Remove_eq c hk).trans (lru_removeElement_eq c hkv)
    have hnone : (c.cache.erase kv.key).lookup kv.key = none := AList.lookup_erase _ _
    refine ⟨kv.value, _, ?_, hrem, hnone, lru_Get_miss _ hnone, ?_, ?_, ?_, ?_⟩
    · unfold Cache.valueOf
      simp [hk, hkv]
    · show (c.ll.erase e).length + 1 = c.ll.length
      rw [List.length_erase_of_mem he]
      have : 0 < c.ll.length := List.length_pos_of_mem he
      omega
    · exact fun k2 hne => lru_valueOf_erase_ne c hne _ _ _
    · intro f hf
      simp [hf]
    · intro hf
      simp [hf]
  · intro hk
    unfold Cache.Remove
    rw [hk]

/-- Witness of C17: the `Remove("myKey")` of `TestOnEvicted`. -/
theorem lru_Remove_evicts_witness :
    recordingCache.WF ∧
    (∀ e, recordingCache.cache.lookup "myKey" = some e →
      ∃ v c1, recordingCache.valueOf "myKey" = some v ∧
        recordingCache.Remove "myKey" = some c1 ∧
        c1.cache.lookup "myKey" = none ∧ c1.Get "myKey" = some ((none, false), c1) ∧
        c1.Len + 1 = recordingCache.Len ∧
        (∀ k2, k2 ≠ "myKey" → c1.valueOf k2 = recordingCache.valueOf k2) ∧
        (∀ f, recordingCache.OnEvicted = some f →
          c1.evicted = recordingCache.evicted ++ [("myKey", v)] ∧
          c1.world = f "myKey" v recordingCache.world) ∧
        (recordingCache.OnEvicted = none →
          c1.evicted = recordingCache.evicted ∧ c1.world = recordingCache.world)) ∧
    (recordingCache.cache.lookup "myKey" = none →
      recordingCache.Remove "myKey" = some recordingCache) ∧
    (recordingCache.Remove "myKey").map (fun c => (c.evicted, c.world, c.Len)) =
      some ([("myKey", some 1234)], [("myKey", some 1234)], 0) :=
  ⟨by decide, (lru_Remove_evicts recordingCache "myKey" (by decide)).1,
   (lru_Remove_evicts recordingCache "myKey" (by decide)).2, by decide⟩

/-! ## The eviction order -/

/-- The key of the element at the back of the list is the least recently used:
the latest use of every other key of the map is later. -/
theorem lru_back_is_oldest {ll : List Nat} {m : AList (fun _ : K => Nat)}
    {el : List (entry K V)} {used : List K}
    (hc : Consistent ll m el) (hr : Recent ll m el used) {e : Nat} {old : K}
    (hlast : ll.getLast? = some e) (hold : keyAt el e = some old) :
    ∀ k, k ∈ m → k ≠ old → used.indexOf k < used.indexOf old := by
  intro k hk hne
  obtain ⟨init, hll⟩ := List.getLast?_eq_some_iff.mp hlast
  obtain ⟨ek, hek⟩ := Option.isSome_iff_exists.mp (AList.lookup_isSome.mpr hk)
  obtain ⟨hin, kv, hkv, hkey⟩ := hc.2.2.1 k ek hek
  have hkk : keyAt el ek = some k := by
    unfold keyAt
    rw [hkv, ← hkey]
    rfl
  have hpair := hr.2
  rw [hll, List.pairwise_append] at hpair
  rw [hll, List.mem_append, List.mem_singleton] at hin
  rcases hin with hin | rfl
  · exact hpair.2.2 ek hin e (List.mem_singleton_self e) k old hkk hold
  · rw [hold] at hkk
    exact absurd (Option.some.inj hkk).symm hne

theorem lru_valueOf_alloc (c : Cache K V W) (hc : Consistent c.ll c.cache c.elems)
    {k key old : K} (hk : k ≠ key) (hko : k ≠ old) (v : Option V)
    (ll : List Nat) (w : W) (ev : List (K × Option V)) (used : List K) :
    ({ c with
      ll := ll
      elems := c.elems ++ [{ key := key, value := v }]
      cache := (c.cache.insert key c.elems.length).erase old
      world := w, evicted := ev, used := used } : Cache K V W).valueOf k = c.valueOf k := by
  unfold Cache.valueOf
  simp only [AList.lookup_erase_ne hko, AList.lookup_insert_ne hk]
  cases hl : c.cache.lookup k with
  | none => rfl
  | some ek =>
    obtain ⟨_, kv, hkv, _⟩ := hc.2.2.1 k ek hl
    simp only [Option.some_bind]
    rw [List.getElem?_append_left (List.getElem?_eq_some.mp hkv).1]

/-- `Add` of an absent key on a full cache: the key at the back of the list is
evicted, and it is the least recently used one. -/
theorem lru_Add_evicts {c : Cache K V W} {n : Int} (h : c.Good n) (hn : 0 < n)
    (hfull : (c.Len : Int) = n) {key : K} (hk : c.cache.lookup key = none) (v : Option V) :
    ∃ c1 e old, c.Add key v = some c1 ∧
      c.ll.getLast? = some e ∧ c.keyOf e = some old ∧ c.cache.lookup old = some e ∧
      old ∈ c.used ∧
      (∀ k, k ∈ c.cache → k ≠ old → c.used.indexOf k < c.used.indexOf old) ∧
      (∀ k, k ∈ c1.cache ↔ k = key ∨ (k ∈ c.cache ∧ k ≠ old)) ∧
      (∀ k, k ≠ old → k ≠ key → c1.valueOf k = c.valueOf k) ∧
      c1.valueOf key = some v ∧ c1.Len = c.Len ∧
      (∀ f, c.OnEvicted = some f → ∃ vo, c.valueOf old = some vo ∧
        c1.evicted = c.evicted ++ [(old, vo)]) := by
  obtain ⟨hc, hr, hmax, hlen⟩ := h
  unfold Cache.Len at hfull
  have hne : c.ll ≠ [] := by
    intro hnil
    rw [hnil] at hfull
    simp only [List.length_nil] at hfull
    omega
  obtain ⟨e, hlast⟩ : ∃ e, c.ll.getLast? = some e := by
    cases hg : c.ll.getLast? with
    | none => exact absurd (List.getLast?_eq_none_iff.mp hg) hne
    | some e => exact ⟨e, rfl⟩
  have he : e ∈ c.ll := List.mem_of_getLast?_eq_some hlast
  have hlast1 : (c.elems.length :: c.ll).getLast? = some e := by
    rw [List.getLast?_cons, hlast]
    rfl
  obtain ⟨kv, hkv, hl⟩ := hc.2.1 e he
  have hkold : c.keyOf e = some kv.key := by simp [Cache.keyOf, hkv]
  have hkv1 : (c.elems ++ [({ key := key, value := v } : entry K V)])[e]? = some kv :=
    (List.getElem?_append_left (List.getElem?_eq_some.mp hkv).1).trans hkv
  have hkne : key ≠ kv.key := by
    rintro rfl
    rw [hk] at hl
    cases hl
  have hin : kv.key ∈ c.cache := by
    rw [← AList.lookup_isSome, hl]
    rfl
  have hcond : c.MaxEntries ≠ 0 ∧ ((c.ll.length + 1 : Nat) : Int) > c.MaxEntries := by
    rw [hmax]
    constructor
    · omega
    · push_cast
      omega
  have hadd := (lru_Add_absent c v hk).trans ((if_pos hcond).trans
    ((lru_RemoveOldest_eq _ hlast1).trans (lru_removeElement_eq
      (c := { c with
        ll := c.elems.length :: c.ll
        elems := c.elems ++ [{ key := key, value := v }]
        cache := c.cache.insert key c.elems.length
        used := key :: c.used }) hkv1)))
  refine ⟨_, e, kv.key, hadd, hlast, hkold, hl, hr.1 _ hin,
    lru_back_is_oldest hc hr hlast (by simpa [Cache.keyOf, keyAt] using hkold), ?_, ?_, ?_, ?_, ?_⟩
  · intro k
    show k ∈ (c.cache.insert key c.elems.length).erase kv.key ↔ _
    rw [AList.mem_erase, AList.mem_insert]
    constructor
    · rintro ⟨hko, rfl | hkm⟩
      · exact Or.inl rfl
      · exact Or.inr ⟨hkm, hko⟩
    · rintro (rfl | ⟨hkm, hko⟩)
      · exact ⟨hkne, Or.inl rfl⟩
      · exact ⟨hko, Or.inr hkm⟩
  · intro k hko hkk
    exact lru_valueOf_alloc c hc hkk hko v _ _ _ _
  · show ((AList.lookup key ((c.cache.insert key c.elems.length).erase kv.key)).bind
      (fun e => ((c.elems ++ [({ key := key, value := v } : entry K V)])[e]?).map
        (fun kv => kv.value))) = some v
    rw [AList.lookup_erase_ne hkne, AList.lookup_insert]
    simp
  · show ((c.elems.length :: c.ll).erase e).length = c.ll.length
    rw [List.length_erase_of_mem (List.mem_cons_of_mem _ he), List.length_cons]
    omega
  · intro f hf
    refine ⟨kv.value, ?_, ?_⟩
    · unfold Cache.valueOf
      simp [hl, hkv]
    · simp [hf]

/-- `Add` of a present key: nothing is evicted, the element of the key goes to the
front of the list and its cell takes the value. -/
theorem lru_Add_refreshes {c : Cache K V W} (hc : Consistent c.ll c.cache c.elems)
    {key : K} {e : Nat} (hk : c.cache.lookup key = some e) (v : Option V) :
    ∃ c1, c.Add key v = some c1 ∧ (∀ k, k ∈ c1.cache ↔ k ∈ c.cache) ∧
      c1.Len = c.Len ∧ c1.evicted = c.evicted ∧ c1.ll.head? = some e ∧
      c1.used = key :: c.used ∧ c1.valueOf key = some v ∧
      (∀ k, k ≠ key → c1.valueOf k = c.valueOf k) := by
  obtain ⟨he, kv, hkv, hkey⟩ := hc.2.2.1 key e hk
  have hmove := lru_moveToFront_mem he
  refine ⟨_, lru_Add_present c v hk hkv, fun k => Iff.rfl, ?_, rfl, ?_, rfl, ?_, ?_⟩
  · show (moveToFront c.ll e).length = c.ll.length
    rw [hmove, List.length_cons, List.length_erase_of_mem he]
    have : 0 < c.ll.length := List.length_pos_of_mem he
    omega
  · show (moveToFront c.ll e).head? = some e
    rw [hmove]
    rfl
  · show ((c.cache.lookup key).bind (fun e1 =>
      ((c.elems.set e { kv with value := v })[e1]?).map (fun kv => kv.value))) = some v
    rw [hk]
    simp only [Option.some_bind]
    rw [List.getElem?_set_self (List.getElem?_eq_some.mp hkv).1]
    rfl
  · intro k hne
    show ((c.cache.lookup k).bind (fun e1 =>
      ((c.elems.set e { kv with value := v })[e1]?).map (fun kv => kv.value))) = c.valueOf k
    unfold Cache.valueOf
    cases hl : c.cache.lookup k with
    | none => rfl
    | some ek =>
      obtain ⟨_, kv1, hkv1, hkey1⟩ := hc.2.2.1 k ek hl
      have hee : e ≠ ek := by
        rintro rfl
        rw [hkv] at hkv1
        cases hkv1
        exact hne (hkey1.symm.trans hkey)
      simp only [Option.some_bind]
      rw [List.getElem?_set_ne hee]

/-- `Get` of a present key: nothing is evicted or changed but the recency, the
element of the key goes to the front of the list. -/
theorem lru_Get_refreshes {c : Cache K V W} (hc : Consistent c.ll c.cache c.elems)
    {key : K} {e : Nat} (hk : c.cache.lookup key = some e) :
    ∃ r c1, c.Get key = some ((r, true), c1) ∧ c.valueOf key = some r ∧
      c1.cache = c.cache ∧ c1.elems = c.elems ∧ c1.Len = c.Len ∧
      c1.evicted = c.evicted ∧ c1.ll.head? = some e ∧ c1.used = key :: c.used := by
  obtain ⟨he, kv, hkv, hkey⟩ := hc.2.2.1 key e hk
  have hmove := lru_moveToFront_mem he
  refine ⟨kv.value, _, lru_Get_hit c hk hkv, ?_, rfl, rfl, ?_, rfl, ?_, rfl⟩
  · unfold Cache.valueOf
    simp [hk, hkv]
  · show (moveToFront c.ll e).length = c.ll.length
    rw [hmove, List.length_cons, List.length_erase_of_mem he]
    have : 0 < c.ll.length := List.length_pos_of_mem he
    omega
  · show (moveToFront c.ll e).head? = some e
    rw [hmove]
    rfl

/-- C16: the eviction order. Let `c` be reached from `NewCache(n)`, `n > 0`, by a
sequence of calls. If `c` holds `n` entries, `Add` of a key that is not in the
cache evicts exactly one key, `old`, the key of the element at the back of the
list, which is the least recently used: it has been used, and the latest `Add` or
successful `Get` of every other key of the cache is later than that of `old` (it
comes earlier in the trace `used`, which lists the uses latest first); the keys
after the call are the new key and the other keys of before, these with their
values, and `OnEvicted`, when set, is called with `old` and its value. `Add` of a
key that is in the cache and `Get` of such a key evict nothing, keep `Len()` and
the keys, and make that key the most recently used: its element is at the front
of the list and its use heads the trace. -/
theorem lru_eviction_order (n : Int) (w : W) (as : List (Action K V W)) (c : Cache K V W)
    (key : K) (v : Option V)
    (hn : 0 < n) (hrun : (NewCache n w : Cache K V W).exec as = some c) :
    ((c.Len : Int) = n → c.cache.lookup key = none →
      ∃ c1 e old, c.Add key v = some c1 ∧
        c.ll.getLast? = some e ∧ c.keyOf e = some old ∧ c.cache.lookup old = some e ∧
        old ∈ c.used ∧
        (∀ k, k ∈ c.cache → k ≠ old → c.used.indexOf k < c.used.indexOf old) ∧
        (∀ k, k ∈ c1.cache ↔ k = key ∨ (k ∈ c.cache ∧ k ≠ old)) ∧
        (∀ k, k ≠ old → k ≠ key → c1.valueOf k = c.valueOf k) ∧
        c1.valueOf key = some v ∧ c1.Len = c.Len ∧
        (∀ f, c.OnEvicted = some f → ∃ vo, c.valueOf old = some vo ∧
          c1.evicted = c.evicted ++ [(old, vo)])) ∧
    (∀ e, c.cache.lookup key = some e →
      (∃ c1, c.Add key v = some c1 ∧ (∀ k, k ∈ c1.cache ↔ k ∈ c.cache) ∧
        c1.Len = c.Len ∧ c1.evicted = c.evicted ∧ c1.ll.head? = some e ∧
        c1.used = key :: c.used ∧ c1.valueOf key = some v ∧
        (∀ k, k ≠ key → c1.valueOf k = c.valueOf k)) ∧
      (∃ r c1, c.Get key = some ((r, true), c1) ∧ c.valueOf key = some r ∧
        c1.cache = c.cache ∧ c1.elems = c.elems ∧ c1.Len = c.Len ∧
        c1.evicted = c.evicted ∧ c1.ll.head? = some e ∧ c1.used = key :: c.used)) := by
  obtain ⟨c0, hrun0, hg⟩ := lru_good_exec (lru_good_new (K := K) (V := V) n w) as
  rw [hrun] at hrun0
  cases hrun0
  exact ⟨fun hfull hk => lru_Add_evicts hg hn hfull hk v,
    fun e hk => ⟨lru_Add_refreshes hg.1 hk v, lru_Get_refreshes hg.1 hk⟩⟩

/-- Witness of C16: `TestMaxEntry`. After `Add(i, i)` for `i` from `0` to `9` and
`Get(0)` on a cache of `10` entries, `Add(11, 11)` evicts the key `1`: after it
`Get(0)` hits and `Get(1)` misses. -/
theorem lru_eviction_order_witness :
    (0 : Int) < 10 ∧
    (NewCache 10 () : Cache Nat Nat Unit).exec tenRun = some tenCache ∧
    (tenCache.Len : Int) = 10 ∧ tenCache.cache.lookup 11 = none ∧
    (tenCache.ll.getLast?.bind tenCache.keyOf) = some 1 ∧
    (tenCache.Add 11 (some 11)).map
      (fun c => ((c.Get 0).map (fun r => r.1), (c.Get 1).map (fun r => r.1)))
      = some (some (some 0, true), some (none, false)) ∧
    ((tenCache.Len : Int) = 10 → tenCache.cache.lookup 11 = none →
      ∃ c1 e old, tenCache.Add 11 (some 11) = some c1 ∧
        tenCache.ll.getLast? = some e ∧ tenCache.keyOf e = some old ∧
        tenCache.cache.lookup old = some e ∧ old ∈ tenCache.used ∧
        (∀ k, k ∈ tenCache.cache → k ≠ old →
          tenCache.used.indexOf k < tenCache.used.indexOf old) ∧
        (∀ k, k ∈ c1.cache ↔ k = 11 ∨ (k ∈ tenCache.cache ∧ k ≠ old)) ∧
        (∀ k, k ≠ old → k ≠ 11 → c1.valueOf k = tenCache.valueOf k) ∧
        c1.valueOf 11 = some (some 11) ∧ c1.Len = tenCache.Len ∧
        (∀ f, tenCache.OnEvicted = some f → ∃ vo, tenCache.valueOf old = some vo ∧
          c1.evicted = tenCache.evicted ++ [(old, vo)])) :=
  ⟨by decide, rfl, by decide, by decide, by decide, by decide,
   (lru_eviction_order 10 () tenRun tenCache 11 (some 11) (by decide) rfl).1⟩

end lru
